import Mathlib

/-!
# NNIST: a shallow embedding of the ANSI/NIST-ITL codec

The development follows the four headers of the repository
(`constants.h`, `types.h`, `parsers.h`, `serdes.h`).

Conventions of the embedding

* a byte is a `UInt8`, a byte vector / span is a `List UInt8`;
* `size_t` and `unsigned long` are 64 bit wide (LP64) and a `size_t` value is a `Nat`.
  A buffer has fewer than `2 ^ 64` bytes, so a position inside it plus a count inside it
  does not wrap; the arithmetic that can wrap is reduced explicitly: the sum
  `record_start + declared_length`, the subtraction of `Cursor::remaining`, the result of
  `std::stoul` and the cast `(uint32_t)size`;
* `int` values (`type`, `idc`) are `Int`;
* a C++ exception is an `Except.error`; an access outside a span or vector
  (undefined behaviour in C++) is the error `Error.OutOfBounds`. A call that is defined is
  modelled by its result: `Cursor::slice` with an end one byte before its start passes the
  count `size_t(-1)`, which is `std::dynamic_extent`, and returns the rest of the buffer;
* the three `while` loops whose body calls another parser run on fuel, and running
  out of fuel is the error `Error.OutOfFuel`.
-/

namespace nnist

/-! ## constants.h -/

def BYTE_MASK : Nat := 0xFF
def SHIFT_24 : Nat := 24
def SHIFT_16 : Nat := 16
def SHIFT_8 : Nat := 8

def LEN_FIELD_WIDTH : Nat := 6
def TAGGED_LEN_WIDTH : Nat := 7

def MIN_BINARY_RECORD_SIZE : Nat := 8

/-- Number of values of a `size_t` (and of an `unsigned long`). -/
def SIZE_MOD : Nat := 2 ^ 64

/-- Number of values of a `uint32_t`. -/
def U32_MOD : Nat := 2 ^ 32

/-- The constant `static_cast<size_t>(-1)`. -/
def INVALID_INDEX : Nat := SIZE_MOD - 1

/-! ## types.h -/

def FS : UInt8 := 0x1C
def GS : UInt8 := 0x1D
def RS : UInt8 := 0x1E
def US : UInt8 := 0x1F

/-- The byte of the character `:`. -/
def COLON : UInt8 := 58

structure Item where
  bytes : List UInt8 := []
deriving DecidableEq, Repr

structure Subfield where
  items : List Item := []
deriving DecidableEq, Repr

structure Field where
  is_binary_field : Bool := false
  raw_field : List UInt8 := []
  tag : List UInt8 := []
  subfields : List Subfield := []
deriving DecidableEq, Repr

structure Record where
  type : Int := -1
  idc : Int := -1
  is_binary_record : Bool := false
  raw_record : List UInt8 := []
  fields : List Field := []
deriving DecidableEq, Repr

structure File where
  records : List Record := []
deriving DecidableEq, Repr

/-- Outcomes of the code other than a normal return. -/
inductive Error where
  /-- `std::runtime_error("Binary record EOF")` -/
  | BinaryRecordEOF
  /-- `std::runtime_error("Invalid binary LEN")` -/
  | InvalidBinaryLEN
  /-- `std::invalid_argument` thrown by `std::stoi` -/
  | InvalidArgument
  /-- `std::out_of_range` thrown by `std::stoi` -/
  | OutOfRange
  /-- an access outside a span or a vector (undefined behaviour in C++) -/
  | OutOfBounds
  /-- the fuel of a loop of the embedding ran out -/
  | OutOfFuel
deriving DecidableEq, Repr

/-! ## Strings and numbers of the C++ standard library -/

/-- Bytes of an ASCII string literal. -/
def ascii (s : String) : List UInt8 := s.toList.map (fun ch => UInt8.ofNat ch.toNat)

/-- `std::string::ends_with`. -/
def ends_with (s suffix : List UInt8) : Bool := suffix.isSuffixOf s

/-- `isspace` in the C locale. -/
def isspace (b : UInt8) : Bool := b.toNat == 32 || (9 ≤ b.toNat && b.toNat ≤ 13)

/-- `isdigit`. -/
def isdigit (b : UInt8) : Bool := 48 ≤ b.toNat && b.toNat ≤ 57

/-- Value of a run of decimal digits, most significant first. -/
def digits_value (ds : List UInt8) : Nat := ds.foldl (fun acc d => acc * 10 + (d.toNat - 48)) 0

/-- The subject sequence of `strtol` / `strtoul` in base 10: white space is skipped, one
optional sign is read, then the longest run of decimal digits. The result is `none` when
that run is empty (no conversion), otherwise the sign (`true` for `-`) and the magnitude. -/
def strto_subject (s : List UInt8) : Option (Bool × Nat) :=
  let t := s.dropWhile isspace
  let (neg, u) :=
    match t with
    | c :: rest => if c.toNat == 45 then (true, rest) else if c.toNat == 43 then (false, rest) else (false, t)
    | [] => (false, t)
  let ds := u.takeWhile isdigit
  if ds.isEmpty then none else some (neg, digits_value ds)

/-- `std::stoul(value)`: `strtoul` in base 10; no conversion throws `std::invalid_argument`,
a magnitude above `ULONG_MAX` throws `std::out_of_range`, and a leading `-` negates the
magnitude in `unsigned long`. -/
def stoul (s : List UInt8) : Except Error Nat :=
  match strto_subject s with
  | none => .error .InvalidArgument
  | some (neg, m) =>
    if m ≥ SIZE_MOD then .error .OutOfRange
    else .ok (if neg then (SIZE_MOD - m) % SIZE_MOD else m)

/-- `std::stoi(value)`: `strtol` in base 10, then the range check of `int`. -/
def stoi (s : List UInt8) : Except Error Int :=
  match strto_subject s with
  | none => .error .InvalidArgument
  | some (neg, m) =>
    let v : Int := if neg then -(m : Int) else (m : Int)
    if v < -(2 ^ 31 : Int) ∨ v > (2 ^ 31 - 1 : Int) then .error .OutOfRange else .ok v

/-- Decimal digits of `n`, most significant first, pushed in front of `acc`. -/
def to_string_loop : Nat → Nat → List UInt8 → List UInt8
  | 0, _, acc => acc
  | fuel + 1, n, acc =>
    let acc1 := UInt8.ofNat (48 + n % 10) :: acc
    if n / 10 = 0 then acc1 else to_string_loop fuel (n / 10) acc1

/-- `std::to_string` of an unsigned value. -/
def to_string (n : Nat) : List UInt8 := to_string_loop (n + 1) n []

/-- `std::to_string` of an `int`. -/
def to_string_int (v : Int) : List UInt8 :=
  if v < 0 then (45 : UInt8) :: to_string v.natAbs else to_string v.natAbs

/-! ## parsers.h: the cursor -/

structure Cursor where
  buffer_ : List UInt8
  position_ : Nat := 0
deriving DecidableEq, Repr

namespace Cursor

def size (c : Cursor) : Nat := c.buffer_.length

def done (c : Cursor) : Bool := decide (c.position_ ≥ c.size)

def position (c : Cursor) : Nat := c.position_

/-- The body is `buffer_.size() - position_` in `size_t`: it wraps when the position is
beyond the size. -/
def remaining (c : Cursor) : Nat :=
  if c.position_ ≤ c.size then c.size - c.position_ else (c.size + SIZE_MOD - c.position_) % SIZE_MOD

def seek (c : Cursor) (new_position : Nat) : Cursor := { c with position_ := new_position }

def advance (c : Cursor) (count : Nat := 1) : Cursor :=
  { c with position_ := c.position_ + count }

def peek (c : Cursor) : UInt8 := if c.done then 0 else c.buffer_.getD c.position_ 0

/-- The method `at(index)`: `buffer_[index]`, undefined outside the span. -/
def «at» (c : Cursor) (index : Nat) : Except Error UInt8 :=
  match c.buffer_[index]? with
  | some b => .ok b
  | none => .error .OutOfBounds

/-- The body is `buffer_.subspan(start, end - start)`, with the count `end - start` computed
in `size_t`. `subspan(offset, count)` is defined when `offset <= size` and the count is
either at most `size - offset` or the value `std::dynamic_extent`, which is `size_t(-1)` and
asks for the rest of the span; every other call is undefined.

* `start <= end <= size`: the count is `end - start`, at most `size - start`;
* the count is `size_t(-1)`, which for `end < start` means `end = start - 1`, and
  `start <= size`: the result is the rest of the span, `[start, size)`;
* otherwise the count exceeds `size - start` or `start` exceeds the size. -/
def slice (c : Cursor) (start stop : Nat) : Except Error (List UInt8) :=
  if start ≤ stop ∧ stop ≤ c.size then .ok ((c.buffer_.drop start).take (stop - start))
  else if (stop + SIZE_MOD - start) % SIZE_MOD = INVALID_INDEX ∧ start ≤ c.size then
    .ok (c.buffer_.drop start)
  else .error .OutOfBounds

/-- The loop `while (!cursor.done() && p(cursor.peek())) cursor.advance();` seen from the
bytes that are left: the position after the loop. -/
def scan_from (p : UInt8 → Bool) : List UInt8 → Nat → Nat
  | [], pos => pos
  | b :: rest, pos => if p b then scan_from p rest (pos + 1) else pos

/-- The loop `while (!cursor.done() && p(cursor.peek())) cursor.advance();`. -/
def advance_while (c : Cursor) (p : UInt8 → Bool) : Cursor :=
  { c with position_ := scan_from p (c.buffer_.drop c.position_) c.position_ }

end Cursor

/-! ## parsers.h: primitive decoders -/

/-- The overload on a span. A byte shifted left by at most 24 bits fits in 32 bits, so
the `uint32_t` operations do not wrap. -/
def READ_BE_U32 (bytes : List UInt8) : Nat :=
  match bytes with
  | b0 :: b1 :: b2 :: b3 :: _ =>
    (b0.toNat <<< SHIFT_24) ||| (b1.toNat <<< SHIFT_16) ||| (b2.toNat <<< SHIFT_8) ||| b3.toNat
  | _ => 0

def IS_LEGACY_BINARY_TYPE (record_type : Int) : Bool :=
  record_type == 3 || record_type == 4 || record_type == 5 || record_type == 6 ||
    record_type == 7 || record_type == 8

def TAKE_UNTIL (cursor : Cursor) (delimiter : UInt8) : Except Error (List UInt8 × Cursor) := do
  let start_position := cursor.position
  let cursor := cursor.advance_while (fun b => b != delimiter)
  let bytes ← cursor.slice start_position cursor.position
  pure (bytes, cursor)

/-! ## parsers.h: the tagged grammar -/

/-- The test `value == US || value == RS || value == GS || value == FS` of `PARSE_ITEM`. -/
def is_delim (value : UInt8) : Bool := value == US || value == RS || value == GS || value == FS

def PARSE_ITEM (cursor : Cursor) : Except Error (Item × Cursor) := do
  let start_position := cursor.position
  let cursor := cursor.advance_while (fun b => !is_delim b)
  let bytes ← cursor.slice start_position cursor.position
  pure ({ bytes := bytes }, cursor)

def PARSE_SUBFIELD_loop : Nat → Cursor → Subfield → Except Error (Subfield × Cursor)
  | 0, _, _ => .error .OutOfFuel
  | fuel + 1, cursor, subfield =>
    if cursor.done then pure (subfield, cursor)
    else do
      let (item, cursor) ← PARSE_ITEM cursor
      let subfield : Subfield := { items := subfield.items ++ [item] }
      if cursor.done then pure (subfield, cursor)
      else if cursor.peek == US then PARSE_SUBFIELD_loop fuel cursor.advance subfield
      else pure (subfield, cursor)

def PARSE_SUBFIELD (cursor : Cursor) : Except Error (Subfield × Cursor) :=
  PARSE_SUBFIELD_loop (cursor.size + 1) cursor {}

/-- The statement `if (end_position > start_position && cursor.at(end_position - 1U) == sep)
--end_position;` of `PARSE_BINARY_FIELD`: the value of `end_position` after it. -/
def PARSE_BINARY_FIELD_strip (cursor : Cursor) (start_position end_position : Nat) (sep : UInt8) :
    Except Error Nat :=
  if end_position > start_position then do
    let b ← cursor.at (end_position - 1)
    pure (if b == sep then end_position - 1 else end_position)
  else pure end_position

def PARSE_BINARY_FIELD (cursor : Cursor) (record_end : Nat) : Except Error (Field × Cursor) := do
  let start_position := cursor.position
  let end_position := record_end
  let (end_position, cursor) ←
    if end_position = INVALID_INDEX then
      let cursor := cursor.advance_while (fun b => b != FS)
      (pure (cursor.position, cursor) : Except Error (Nat × Cursor))
    else do
      let end_position ← PARSE_BINARY_FIELD_strip cursor start_position end_position FS
      let end_position ← PARSE_BINARY_FIELD_strip cursor start_position end_position GS
      pure (end_position, cursor.seek end_position)
  let bytes ← cursor.slice start_position end_position
  pure ({ is_binary_field := true, raw_field := bytes }, cursor)

def PARSE_TEXT_FIELD_loop : Nat → Cursor → Field → Except Error (Field × Cursor)
  | 0, _, _ => .error .OutOfFuel
  | fuel + 1, cursor, field =>
    if !cursor.done && cursor.peek != GS && cursor.peek != FS then do
      let (subfield, cursor) ← PARSE_SUBFIELD cursor
      let field : Field := { field with subfields := field.subfields ++ [subfield] }
      if !cursor.done && cursor.peek == RS then PARSE_TEXT_FIELD_loop fuel cursor.advance field
      else pure (field, cursor)
    else pure (field, cursor)

def PARSE_TEXT_FIELD (cursor : Cursor) : Except Error (Field × Cursor) :=
  PARSE_TEXT_FIELD_loop (cursor.size + 1) cursor {}

def PARSE_FIELD (cursor : Cursor) (record_end : Nat) : Except Error (Field × Cursor) := do
  let (tag, cursor) ← TAKE_UNTIL cursor COLON
  let cursor := if !cursor.done && cursor.peek == COLON then cursor.advance else cursor
  if ends_with tag (ascii ".999") then
    let (parsed, cursor) ← PARSE_BINARY_FIELD cursor record_end
    pure ({ parsed with tag := tag }, cursor)
  else
    let (parsed, cursor) ← PARSE_TEXT_FIELD cursor
    pure ({ parsed with tag := tag }, cursor)

def PARSE_LEN_FROM_FIRST_FIELD (first_field : Field) : Nat :=
  match first_field.subfields with
  | [] => 0
  | subfield :: _ =>
    match subfield.items with
    | [] => 0
    | item :: _ =>
      if !ends_with first_field.tag (ascii ".001") && !ends_with first_field.tag (ascii ".01") then 0
      else
        match stoul item.bytes with
        | .ok value => value
        | .error _ => 0

def PARSE_RECORD_loop (record_end : Nat) : Nat → Cursor → Record → Except Error (Record × Cursor)
  | 0, _, _ => .error .OutOfFuel
  | fuel + 1, cursor, record =>
    if !cursor.done && cursor.peek != FS then do
      let (field, cursor) ← PARSE_FIELD cursor record_end
      let record : Record := { record with fields := record.fields ++ [field] }
      if !cursor.done && cursor.peek == GS then
        PARSE_RECORD_loop record_end fuel cursor.advance record
      else pure (record, cursor)
    else pure (record, cursor)

def PARSE_RECORD (cursor : Cursor) : Except Error (Record × Cursor) := do
  let record_start := cursor.position
  let (first_field, cursor) ← PARSE_FIELD cursor INVALID_INDEX
  let record : Record := { fields := [first_field] }
  let cursor := if !cursor.done && cursor.peek == GS then cursor.advance else cursor
  let declared_length := PARSE_LEN_FROM_FIRST_FIELD first_field
  let record_end :=
    if declared_length > 0 ∧ (record_start + declared_length) % SIZE_MOD ≤ cursor.size then
      (record_start + declared_length) % SIZE_MOD
    else INVALID_INDEX
  PARSE_RECORD_loop record_end (cursor.size + 1) cursor record

/-! ## parsers.h: legacy binary records and the file -/

def PARSE_BINARY_RECORD_BY_LEN (cursor : Cursor) (record_type : Int) :
    Except Error (Record × Cursor) := do
  if cursor.remaining < 4 then throw Error.BinaryRecordEOF
  let length_bytes ← cursor.slice cursor.position (cursor.position + 4)
  let declared_length := READ_BE_U32 length_bytes
  if declared_length < MIN_BINARY_RECORD_SIZE ∨ declared_length > cursor.remaining then
    throw Error.InvalidBinaryLEN
  let start_position := cursor.position
  let cursor := cursor.advance declared_length
  let bytes ← cursor.slice start_position (start_position + declared_length)
  let idc : Int :=
    match bytes[4]? with
    | some b => (b.toNat : Int)
    | none => -1
  pure ({ type := record_type, is_binary_record := true, raw_record := bytes, idc := idc }, cursor)

/-- The loop over the subfields `1 ..` of the CNT field in `PARSE_CNT_PLAN`. -/
def PARSE_CNT_PLAN_loop : List Subfield → List (Int × Int) → Except Error (List (Int × Int))
  | [], plan => pure plan
  | subfield :: rest, plan =>
    match subfield.items with
    | item0 :: item1 :: _ => do
      let tag ← stoi item0.bytes
      let idc ← stoi item1.bytes
      PARSE_CNT_PLAN_loop rest (plan ++ [(tag, idc)])
    | _ => PARSE_CNT_PLAN_loop rest plan

def PARSE_CNT_PLAN (type1 : Record) : Except Error (List (Int × Int)) :=
  match type1.fields.find? (fun field => field.tag == ascii "1.003" || field.tag == ascii "1.03") with
  | none => pure []
  | some cnt => PARSE_CNT_PLAN_loop (cnt.subfields.drop 1) []

def SKIP_SEPARATORS (cursor : Cursor) : Cursor :=
  cursor.advance_while (fun b => b == FS || b == GS)

def SYNC_TO_LEN_IF_PRESENT (cursor : Cursor) (record_start : Nat) (record : Record) : Cursor :=
  match record.fields with
  | [] => cursor
  | front :: _ =>
    let declared_length := PARSE_LEN_FROM_FIRST_FIELD front
    if declared_length > 0 ∧ (record_start + declared_length) % SIZE_MOD ≤ cursor.size then
      cursor.seek ((record_start + declared_length) % SIZE_MOD)
    else cursor

/-- The loop `for (auto& [record_type, idc] : plan)` of `PARSE_FILE`. -/
def PARSE_FILE_loop : List (Int × Int) → Cursor → File → Except Error File
  | [], _, file => pure file
  | (record_type, idc) :: plan, cursor, file =>
    if cursor.remaining < 4 then pure file
    else do
      let rec_start := cursor.position
      let (record, cursor) ←
        if IS_LEGACY_BINARY_TYPE record_type then PARSE_BINARY_RECORD_BY_LEN cursor record_type
        else do
          let (record, cursor) ← PARSE_RECORD cursor
          pure (record, SYNC_TO_LEN_IF_PRESENT cursor rec_start record)
      let cursor := SKIP_SEPARATORS cursor
      let record : Record := { record with type := record_type, idc := idc }
      PARSE_FILE_loop plan cursor { records := file.records ++ [record] }

def PARSE_FILE (buffer : List UInt8) : Except Error File := do
  let cursor : Cursor := { buffer_ := buffer }
  let type1_start := cursor.position
  let (type_one, cursor) ← PARSE_RECORD cursor
  let type_one : Record := { type_one with type := 1, idc := -1 }
  let cursor := SYNC_TO_LEN_IF_PRESENT cursor type1_start type_one
  let cursor := SKIP_SEPARATORS cursor
  let file : File := { records := [type_one] }
  let plan ← PARSE_CNT_PLAN type_one
  PARSE_FILE_loop plan cursor file

/-! ## serdes.h -/

def SERIALIZE_ITEM (out : List UInt8) (item : Item) (last : Bool := false) : List UInt8 :=
  let out := out ++ item.bytes
  if !last then out ++ [US] else out

/-- The loop `for (i = 0; i < items.size(); i++)` of `SERIALIZE_SUBFIELD`; the flag
`i + 1 == items.size()` holds on the last element. -/
def SERIALIZE_SUBFIELD_loop (out : List UInt8) : List Item → List UInt8
  | [] => out
  | item :: rest => SERIALIZE_SUBFIELD_loop (SERIALIZE_ITEM out item rest.isEmpty) rest

def SERIALIZE_SUBFIELD (out : List UInt8) (subfield : Subfield) (last : Bool := false) :
    List UInt8 :=
  let out := SERIALIZE_SUBFIELD_loop out subfield.items
  if !last then out ++ [RS] else out

/-- The loop over the subfields in `SERIALIZE_FIELD`. -/
def SERIALIZE_FIELD_loop (out : List UInt8) : List Subfield → List UInt8
  | [] => out
  | subfield :: rest => SERIALIZE_FIELD_loop (SERIALIZE_SUBFIELD out subfield rest.isEmpty) rest

def SERIALIZE_FIELD (out : List UInt8) (field : Field) (last : Bool := false) : List UInt8 :=
  let out := out ++ field.tag
  let out := out ++ [COLON]
  if !field.is_binary_field then
    let out := SERIALIZE_FIELD_loop out field.subfields
    if !last then out ++ [GS] else out
  else out ++ field.raw_field

/-- The loop over the fields in `SERIALIZE_RECORD` (and in the `calc` lambda of
`UPDATE_ALL_LENGTHS`). -/
def SERIALIZE_RECORD_loop (out : List UInt8) : List Field → List UInt8
  | [] => out
  | field :: rest => SERIALIZE_RECORD_loop (SERIALIZE_FIELD out field rest.isEmpty) rest

def SERIALIZE_RECORD (out : List UInt8) (record : Record) : List UInt8 :=
  if record.is_binary_record then out ++ record.raw_record
  else (SERIALIZE_RECORD_loop out record.fields) ++ [FS]

/-- The loop `for (i = 1; i < file.records.size(); ++i)` of `UPDATE_CNT_FIELD`. -/
def UPDATE_CNT_FIELD_loop : List Record → List Subfield → List Subfield
  | [], subfields => subfields
  | record :: rest, subfields =>
    let t_str := to_string_int record.type
    let idc_str := to_string_int (if record.idc ≥ 0 then record.idc else 0)
    let subfield : Subfield := { items := [{ bytes := t_str }, { bytes := idc_str }] }
    UPDATE_CNT_FIELD_loop rest (subfields ++ [subfield])

/-- The search `for (auto& field : fields) if (p(field)) { found = &field; break; }`
followed by an update of the field found: the first field that satisfies `p` is replaced
by `f` of it; without such a field the list is returned as it is. -/
def update_first (p : Field → Bool) (f : Field → Field) : List Field → List Field
  | [] => []
  | field :: rest => if p field then f field :: rest else field :: update_first p f rest

def UPDATE_CNT_FIELD (file : File) : File :=
  match file.records with
  | [] => file
  | type1 :: others =>
    let total_count := to_string (others.length + 1)
    let rebuild (cnt_field : Field) : Field :=
      { cnt_field with
        subfields := UPDATE_CNT_FIELD_loop others [{ items := [{ bytes := total_count }] }] }
    let type1 : Record :=
      { type1 with
        fields := update_first
          (fun field => ends_with field.tag (ascii ".003") || ends_with field.tag (ascii ".03"))
          rebuild type1.fields }
    { records := type1 :: others }

/-- The lambda `calc` of `UPDATE_ALL_LENGTHS`: the size of the serialized fields plus
the closing FS. -/
def calc_size (record : Record) : Nat := ((SERIALIZE_RECORD_loop [] record.fields) ++ [FS]).length

/-- The body of the loop of `UPDATE_ALL_LENGTHS` on one record. Writing the four length
bytes of a `raw_record` shorter than four bytes is outside the vector. -/
def UPDATE_ALL_LENGTHS_record (record : Record) : Except Error Record :=
  if record.is_binary_record then
    let size := record.raw_record.length % U32_MOD
    if record.raw_record.length < 4 then .error .OutOfBounds
    else
      let raw := record.raw_record.set 0 (UInt8.ofNat ((size >>> SHIFT_24) &&& BYTE_MASK))
      let raw := raw.set 1 (UInt8.ofNat ((size >>> SHIFT_16) &&& BYTE_MASK))
      let raw := raw.set 2 (UInt8.ofNat ((size >>> SHIFT_8) &&& BYTE_MASK))
      let raw := raw.set 3 (UInt8.ofNat (size &&& BYTE_MASK))
      .ok { record with raw_record := raw }
  else
    match record.fields with
    | [] => .ok record
    | first_field :: others =>
      let first_field : Field :=
        { first_field with
          subfields := [{ items := [{ bytes := List.replicate TAGGED_LEN_WIDTH (48 : UInt8) }] }] }
      let record : Record := { record with fields := first_field :: others }
      let str := to_string (calc_size record)
      let first_field : Field := { first_field with subfields := [{ items := [{ bytes := str }] }] }
      let record : Record := { record with fields := first_field :: others }
      let str := to_string (calc_size record)
      let first_field : Field := { first_field with subfields := [{ items := [{ bytes := str }] }] }
      .ok { record with fields := first_field :: others }

/-- The loop `for (auto& rec : file.records)` of `UPDATE_ALL_LENGTHS`. -/
def UPDATE_ALL_LENGTHS_loop : List Record → Except Error (List Record)
  | [] => pure []
  | record :: rest => do
    let record ← UPDATE_ALL_LENGTHS_record record
    let rest ← UPDATE_ALL_LENGTHS_loop rest
    pure (record :: rest)

def UPDATE_ALL_LENGTHS (file : File) : Except Error File := do
  let records ← UPDATE_ALL_LENGTHS_loop file.records
  pure { records := records }

def PATCH_RECORD_LENGTHS (record : Record) : Record :=
  if record.is_binary_record then record
  else
    let is_len (field : Field) : Bool :=
      ends_with field.tag (ascii ".001") || ends_with field.tag (ascii ".01")
    let placeholder (len_field : Field) : Field :=
      { len_field with
        subfields := [{ items := [{ bytes := List.replicate LEN_FIELD_WIDTH (48 : UInt8) }] }] }
    let tmp := SERIALIZE_RECORD [] { record with fields := update_first is_len placeholder record.fields }
    let new_len := to_string tmp.length
    let patch (len_field : Field) : Field :=
      { len_field with subfields := [{ items := [{ bytes := new_len }] }] }
    { record with fields := update_first is_len patch record.fields }

/-- The loop over the records in `SERIALIZE_FILE`. -/
def SERIALIZE_FILE_loop (out : List UInt8) : List Record → List UInt8
  | [] => out
  | record :: rest => SERIALIZE_FILE_loop (SERIALIZE_RECORD out record) rest

/-- The function mutates its argument: the result is the file as it is left and the
bytes returned. -/
def SERIALIZE_FILE (file : File) : Except Error (File × List UInt8) := do
  let file ← UPDATE_ALL_LENGTHS file
  pure (file, SERIALIZE_FILE_loop [] file.records)

/-! ## Vocabulary of the proofs

Positions of a cursor are described by the bytes in front of it (`Cursor.Sees`); the
bytes the serializer emits for a part of a file have a name each (`items_bytes` ..
`records_bytes`); the remaining definitions are the conditions under which a part of a
file is read back from its bytes, what the parser guarantees of its results, and the
concrete files used below. -/

/-- The cursor `c` is inside its buffer and stands in front of the bytes `s`. -/
def Cursor.Sees (c : Cursor) (s : List UInt8) : Prop :=
  c.position_ ≤ c.buffer_.length ∧ c.buffer_.drop c.position_ = s

/-- Bytes of the items of a subfield, US between them. -/
def items_bytes (items : List Item) : List UInt8 := SERIALIZE_SUBFIELD_loop [] items

/-- Bytes of the subfields of a field, RS between them. -/
def subfields_bytes (subfields : List Subfield) : List UInt8 := SERIALIZE_FIELD_loop [] subfields

/-- Bytes of the fields of a tagged record, without the closing FS. -/
def fields_bytes (fields : List Field) : List UInt8 := SERIALIZE_RECORD_loop [] fields

/-- Bytes of a list of records. -/
def records_bytes (records : List Record) : List UInt8 := SERIALIZE_FILE_loop [] records

/-- Every item is free of the four delimiter bytes. -/
def items_clean (items : List Item) : Prop := ∀ it ∈ items, ∀ b ∈ it.bytes, is_delim b = false

/-- The subfields a text field can be read back from: every subfield has an item, no item
holds a delimiter byte, and the last subfield is not a single empty item. -/
def subfields_ok (subs : List Subfield) : Prop :=
  (∀ sf ∈ subs, sf.items ≠ [] ∧ items_clean sf.items) ∧
    subs.getLast? ≠ some { items := [{ bytes := [] }] }

/-- Bytes `SERIALIZE_FIELD` appends for one field. -/
def field_bytes (f : Field) (last : Bool) : List UInt8 := SERIALIZE_FIELD [] f last

/-- A textual field that can be read back: the flags of a textual field, a tag without
`:` that does not end in `.999`, and subfields that can be read back. -/
def text_field_ok (f : Field) : Prop :=
  f.is_binary_field = false ∧ f.raw_field = [] ∧ (∀ b ∈ f.tag, b ≠ COLON) ∧
    ends_with f.tag (ascii ".999") = false ∧ subfields_ok f.subfields

/-- A binary field that can be read back: the flags of a binary field, a tag without `:`
that ends in `.999`, and a payload whose last byte is not GS. -/
def binary_field_ok (f : Field) : Prop :=
  f.is_binary_field = true ∧ f.subfields = [] ∧ (∀ b ∈ f.tag, b ≠ COLON) ∧
    ends_with f.tag (ascii ".999") = true ∧ f.raw_field.getLast? ≠ some GS

/-- Bytes `SERIALIZE_RECORD` appends for one record. -/
def record_bytes (r : Record) : List UInt8 := SERIALIZE_RECORD [] r

/-- The bytes do not begin with a separator that `SKIP_SEPARATORS` would skip. -/
def starts_clean (s : List UInt8) : Prop := s.head? ≠ some FS ∧ s.head? ≠ some GS

/-- What the parser guarantees of every field it returns. -/
def parsed_field_inv (f : Field) : Prop :=
  (∀ b ∈ f.tag, b ≠ COLON) ∧ f.is_binary_field = ends_with f.tag (ascii ".999") ∧
    (f.is_binary_field = true → f.subfields = []) ∧
    (f.is_binary_field = false →
      f.raw_field = [] ∧ ∀ sf ∈ f.subfields, sf.items ≠ [] ∧ items_clean sf.items)

/-- What the parser guarantees of every tagged record it returns. -/
def parsed_tagged_inv (r : Record) : Prop :=
  r.is_binary_record = false ∧ r.raw_record = [] ∧
    ∃ f0 others, r.fields = f0 :: others ∧ parsed_field_inv f0 ∧
      ∀ f ∈ others, parsed_field_inv f ∧ f.tag.head? ≠ some FS

/-- What the parser guarantees of every record it reads under a plan entry. -/
def parsed_record_inv (r : Record) : Prop :=
  r.is_binary_record = IS_LEGACY_BINARY_TYPE r.type ∧
    (r.is_binary_record = true →
      r.fields = [] ∧ READ_BE_U32 r.raw_record = r.raw_record.length ∧
        8 ≤ r.raw_record.length ∧ starts_clean r.raw_record) ∧
    (r.is_binary_record = false →
      parsed_tagged_inv r ∧ ∀ f0, r.fields.head? = some f0 → starts_clean f0.tag)

/-- A field with one subfield of one item. -/
def field1 (tag value : String) : Field :=
  { tag := ascii tag, subfields := [{ items := [{ bytes := ascii value }] }] }

/-- A three-record file: a Type-1 record with the plan `(4, 1), (14, 2)`, a legacy binary
record of 10 bytes and a Type-14 record that ends in a `.999` field. -/
def sample_input : List UInt8 :=
  ascii "1.001:26\x1d1.003:3\x1e4\x1f1\x1e14\x1f2\x1c" ++
    [0, 0, 0, 10, 1, 97, 98, 99, 100, 101] ++
    ascii "14.001:35\x1d14.002:A\x1fB\x1eC\x1d14.999:" ++ [0xAA, 0x1C, 0xBB] ++ [GS, FS]

/-- The plan field of `sample_input`. -/
def sample_cnt : Field :=
  { tag := ascii "1.003",
    subfields := [{ items := [{ bytes := ascii "3" }] },
                  { items := [{ bytes := ascii "4" }, { bytes := ascii "1" }] },
                  { items := [{ bytes := ascii "14" }, { bytes := ascii "2" }] }] }

/-- The records of `sample_input` after the first, with the length `len` in the first
field of the Type-14 record. -/
def sample_tail (len : String) : List Record :=
  [{ type := 4, idc := 1, is_binary_record := true,
     raw_record := [0, 0, 0, 10, 1, 97, 98, 99, 100, 101] },
   { type := 14, idc := 2,
     fields := [field1 "14.001" len,
                { tag := ascii "14.002",
                  subfields := [{ items := [{ bytes := ascii "A" }, { bytes := ascii "B" }] },
                                { items := [{ bytes := ascii "C" }] }] },
                { tag := ascii "14.999", is_binary_field := true,
                  raw_field := [0xAA, 0x1C, 0xBB] }] }]

/-- The file `PARSE_FILE` returns on `sample_input`. -/
def sample_parsed : File :=
  { records := { type := 1, idc := -1, fields := [field1 "1.001" "26", sample_cnt] } ::
      sample_tail "35" }

/-- The file read from `empty_subfields_input`: the second field has `n` subfields, each
a single empty item. -/
def empty_subfields_file (len : String) (n : Nat) : File :=
  { records := [{ type := 1, idc := -1,
                  fields := [field1 "1.001" len,
                             { tag := ascii "a",
                               subfields := List.replicate n { items := [{ bytes := [] }] } }] }] }

/-- A one-record file of 8 bytes whose length field is right. -/
def short_len_input : List UInt8 := ascii "1.001:8\x1c"

/-- The file of `short_len_input`, with `len` in the length field. -/
def short_len_file (len : String) : File :=
  { records := [{ type := 1, idc := -1, fields := [field1 "1.001" len] }] }

/-- A one-record file with a plan field that counts one record. -/
def cnt_input : List UInt8 := ascii "1.001:17\x1d1.003:1\x1c"

/-- The Type-1 record read from `cnt_input`. -/
def cnt_type1 : Record :=
  { type := 1, idc := -1, fields := [field1 "1.001" "17", field1 "1.003" "1"] }

/-- A tagged record of type 2 to append, with the length `len` in its first field. -/
def appended_record (len : String) : Record :=
  { type := 2, idc := 0, fields := [field1 "2.001" len, field1 "2.002" "DOE"] }

/-- The cursor `c'` is `c` moved forward inside the same buffer. -/
def Cursor.Follows (c' c : Cursor) : Prop :=
  c'.buffer_ = c.buffer_ ∧ c.position_ ≤ c'.position_ ∧ c'.position_ ≤ c.buffer_.length

/-! ### Inputs, the reference plan, the test helper and the offsets of the records -/

/-- A buffer that holds one tagged record whose plan field has the entry `2`, empty:
the IDC item of the entry is there and has no bytes. -/
def empty_idc_input : List UInt8 := ascii "1.001:20\x1d1.003:2\x1e2\x1f\x1c"

/-- The Type-1 record read from `empty_idc_input`. -/
def empty_idc_type1 : Record :=
  { type := 1, idc := -1,
    fields := [field1 "1.001" "20",
               { tag := ascii "1.003",
                 subfields := [{ items := [{ bytes := ascii "2" }] },
                               { items := [{ bytes := ascii "2" }, { bytes := [] }] }] }] }

/-- The first scenario of the test suite (two fields, declared length 100) followed by
eight more bytes. -/
def no_cnt_input : List UInt8 := ascii "1.001:100\x1d2.001:DOE\x1c" ++ [0, 0, 0, 8, 1, 2, 3, 4]

/-- The record `PARSE_RECORD` reads at the start of `no_cnt_input`. -/
def no_cnt_record : Record := { fields := [field1 "1.001" "100", field1 "2.001" "DOE"] }

/-- The file `PARSE_FILE` returns on the empty buffer: one record with one field, and
the field has an empty tag and no subfield. -/
def empty_buffer_file : File :=
  { records := [{ type := 1, idc := -1, is_binary_record := false, raw_record := [],
                  fields := [{ is_binary_field := false, raw_field := [], tag := [],
                               subfields := [] }] }] }

/-- A Type-1 record with the plan `(4, 7)` followed by a legacy binary record of 8 bytes
whose byte 4 is 1. -/
def idc_mismatch_input : List UInt8 :=
  ascii "1.001:21\x1d1.003:2\x1e4\x1f7\x1c" ++ [0, 0, 0, 8, 1, 2, 3, 4]

/-- The file `PARSE_FILE` returns on `idc_mismatch_input`. -/
def idc_mismatch_file : File :=
  { records := [{ type := 1, idc := -1,
                  fields := [field1 "1.001" "21",
                             { tag := ascii "1.003",
                               subfields := [{ items := [{ bytes := ascii "2" }] },
                                             { items := [{ bytes := ascii "4" },
                                                         { bytes := ascii "7" }] }] }] },
                { type := 4, idc := 7, is_binary_record := true,
                  raw_record := [0, 0, 0, 8, 1, 2, 3, 4] }] }

/-- A decimal integer of the type `int`: an optional `-`, then a non-empty run of decimal
digits, of a value in the range of `int`. -/
def is_decimal_int (s : List UInt8) : Bool :=
  match s with
  | c :: rest =>
    if c.toNat == 45 then !rest.isEmpty && rest.all isdigit && decide (digits_value rest ≤ 2 ^ 31)
    else s.all isdigit && decide (digits_value s < 2 ^ 31)
  | [] => false

/-- The integer that a decimal integer denotes. -/
def decimal_int_value (s : List UInt8) : Int :=
  match s with
  | c :: rest => if c.toNat == 45 then -(digits_value rest : Int) else (digits_value s : Int)
  | [] => 0

/-- The record plan in the words of the specification: take the first field of the
Type-1 record whose tag is exactly `1.003` or `1.03` (without one the plan is empty);
ignore its first subfield; of each later subfield, in order, with at least two items,
emit the pair of the integer values of item 0 and item 1. -/
def PARSE_CNT_PLAN_reference (type1 : Record) : List (Int × Int) :=
  match type1.fields.find? (fun field => field.tag = ascii "1.003" ∨ field.tag = ascii "1.03") with
  | none => []
  | some cnt =>
    cnt.subfields.tail.filterMap (fun subfield =>
      match subfield.items with
      | item0 :: item1 :: _ => some (decimal_int_value item0.bytes, decimal_int_value item1.bytes)
      | _ => none)

/-- The CNT items of a Type-1 record are decimal integers: in every subfield after the
first of the CNT field that has at least two items, item 0 and item 1 are decimal integers
of the type `int`. -/
def cnt_items_decimal (type1 : Record) : Bool :=
  match type1.fields.find? (fun field => field.tag = ascii "1.003" ∨ field.tag = ascii "1.03") with
  | none => true
  | some cnt =>
    cnt.subfields.tail.all (fun subfield =>
      match subfield.items with
      | item0 :: item1 :: _ => is_decimal_int item0.bytes && is_decimal_int item1.bytes
      | _ => true)

/-- A Type-1 record whose CNT field has, after the count, the entry `4, 1`, a subfield of
one item, the entry `14, 2` with a third item, and the entry `-1, 0`. -/
def cnt_reference_type1 : Record :=
  { type := 1, idc := -1,
    fields := [field1 "1.001" "0",
               { tag := ascii "1.003",
                 subfields := [{ items := [{ bytes := ascii "5" }] },
                               { items := [{ bytes := ascii "4" }, { bytes := ascii "1" }] },
                               { items := [{ bytes := ascii "9" }] },
                               { items := [{ bytes := ascii "14" }, { bytes := ascii "2" },
                                           { bytes := ascii "x" }] },
                               { items := [{ bytes := ascii "-1" }, { bytes := ascii "0" }] }] }] }

/-- The test of `UPDATE_CNT_FIELD` for the CNT field: the tag ends in `.003` or `.03`. -/
def is_cnt_suffix (field : Field) : Bool :=
  ends_with field.tag (ascii ".003") || ends_with field.tag (ascii ".03")

/-- The subfield `UPDATE_CNT_FIELD` writes for one record after the first. -/
def cnt_entry (record : Record) : Subfield :=
  { items := [{ bytes := to_string_int record.type },
              { bytes := to_string_int (if record.idc ≥ 0 then record.idc else 0) }] }

/-- A file of two records whose first record has a field with the tag `2.003`, which ends
in `.003` and is not `1.003`. -/
def cnt_suffix_file : File :=
  { records := [{ type := 1, idc := -1, fields := [field1 "1.001" "0", field1 "2.003" "1"] },
                appended_record "19"] }

/-- The file `UPDATE_CNT_FIELD` leaves of `cnt_suffix_file`. -/
def cnt_suffix_updated : File :=
  { records := [{ type := 1, idc := -1,
                  fields := [field1 "1.001" "0",
                             { tag := ascii "2.003",
                               subfields := [{ items := [{ bytes := ascii "2" }] },
                                             { items := [{ bytes := ascii "2" },
                                                         { bytes := ascii "0" }] }] }] },
                appended_record "19"] }

/-- The file of `cnt_type1` with one record of type 2 appended. -/
def cnt_appended_file : File := { records := [cnt_type1, appended_record "19"] }

/-- The CNT field as `UPDATE_CNT_FIELD` rebuilds it for the records `others` after the
first. -/
def cnt_rebuild (others : List Record) (cnt_field : Field) : Field :=
  { cnt_field with
    subfields := UPDATE_CNT_FIELD_loop others [{ items := [{ bytes := to_string (others.length + 1) }] }] }

/-- The six characters `snprintf(buf, 7, "%06u", len)` leaves in `buf`: the decimal of
`len`, padded with zeros on the left to six characters and cut after six. -/
def format_06u (len : Nat) : List UInt8 :=
  let digits := to_string (len % U32_MOD)
  (List.replicate (6 - digits.length) (48 : UInt8) ++ digits).take 6

/-- The helper `make_tagged_record_with_999` of `tests/Parser.cpp`: a Type-14 record
with a length field and a `.999` field that holds `payload`, closed by GS and FS; the six
digits after `14.001:` are overwritten with the size of the record. -/
def make_tagged_record_with_999 (payload : List UInt8) : List UInt8 :=
  let record := ascii "14.001:000000" ++ [GS] ++ ascii "14.999:" ++ payload ++ [GS, FS]
  let len := record.length % U32_MOD
  record.take 7 ++ format_06u len ++ record.drop 13

/-- The loop of `PARSE_FILE` with a record of the offsets: `starts` collects the value of
`rec_start` of every iteration that adds a record. -/
def PARSE_FILE_loop_starts :
    List (Int × Int) → Cursor → File → List Nat → Except Error (File × List Nat)
  | [], _, file, starts => pure (file, starts)
  | (record_type, idc) :: plan, cursor, file, starts =>
    if cursor.remaining < 4 then pure (file, starts)
    else do
      let rec_start := cursor.position
      let (record, cursor) ←
        if IS_LEGACY_BINARY_TYPE record_type then PARSE_BINARY_RECORD_BY_LEN cursor record_type
        else do
          let (record, cursor) ← PARSE_RECORD cursor
          pure (record, SYNC_TO_LEN_IF_PRESENT cursor rec_start record)
      let cursor := SKIP_SEPARATORS cursor
      let record : Record := { record with type := record_type, idc := idc }
      PARSE_FILE_loop_starts plan cursor { records := file.records ++ [record] }
        (starts ++ [rec_start])

/-- `PARSE_FILE` with a record of the offsets: next to the file, the offset at which the
parse of each of its records started (`type1_start`, then every `rec_start`). -/
def PARSE_FILE_starts (buffer : List UInt8) : Except Error (File × List Nat) := do
  let cursor : Cursor := { buffer_ := buffer }
  let type1_start := cursor.position
  let (type_one, cursor) ← PARSE_RECORD cursor
  let type_one : Record := { type_one with type := 1, idc := -1 }
  let cursor := SYNC_TO_LEN_IF_PRESENT cursor type1_start type_one
  let cursor := SKIP_SEPARATORS cursor
  let file : File := { records := [type_one] }
  let plan ← PARSE_CNT_PLAN type_one
  PARSE_FILE_loop_starts plan cursor file [type1_start]

/-- The first scenario of the test suite: a record of 20 bytes that declares the
length 100. -/
def declared_100_input : List UInt8 := ascii "1.001:100\x1d2.001:DOE\x1c"

/-- The file `PARSE_FILE` returns on `declared_100_input`. -/
def declared_100_file : File :=
  { records := [{ type := 1, idc := -1,
                  fields := [field1 "1.001" "100", field1 "2.001" "DOE"] }] }

/-- A legacy binary record of 10 bytes whose length prefix is wrong (it says 7). -/
def wrong_prefix_record : Record :=
  { type := 4, idc := 1, is_binary_record := true,
    raw_record := [0, 0, 0, 7, 1, 97, 98, 99, 100, 101] }

/-- The value of `end_position` after one strip statement of `PARSE_BINARY_FIELD`, read
off the buffer: one less when the byte before `end_position` is `sep` and `end_position`
is beyond `start_position`. -/
def strip_end (buffer : List UInt8) (start_position end_position : Nat) (sep : UInt8) : Nat :=
  if end_position > start_position ∧ buffer[end_position - 1]? = some sep then end_position - 1
  else end_position

/-- The end of the payload of a `.999` field that starts at `start_position` in a record
that ends at `record_end`: a closing FS is left out, then a closing GS. -/
def payload_end (buffer : List UInt8) (start_position record_end : Nat) : Nat :=
  strip_end buffer start_position (strip_end buffer start_position record_end FS) GS

/-- The textual content of a field: its tag and its subfields. -/
def text_only (f : Field) : Field := { tag := f.tag, subfields := f.subfields }

/-- The second scenario of the test suite with one more field: subfields `A US B` and `C`
in the first field, an empty item between two others in the second. -/
def subfields_record : Record :=
  { type := 2, idc := 0,
    fields := [{ tag := ascii "1.001",
                 subfields := [{ items := [{ bytes := ascii "A" }, { bytes := ascii "B" }] },
                               { items := [{ bytes := ascii "C" }] }] },
               { tag := ascii "2.002",
                 subfields := [{ items := [{ bytes := ascii "D" }, { bytes := [] },
                                           { bytes := ascii "E" }] }] }] }

/-- A Type-1 record with the plan `(2, 0)` followed by a record whose only field has the
tag `2.002`: the second record has no length field. -/
def no_len_input : List UInt8 := ascii "1.001:21\x1d1.003:2\x1e2\x1f0\x1c2.002:DOE\x1c"

/-- The file `PARSE_FILE` returns on `no_len_input`, with `value` in the field `2.002`. -/
def no_len_file (value : String) : File :=
  { records := [{ type := 1, idc := -1,
                  fields := [field1 "1.001" "21",
                             { tag := ascii "1.003",
                               subfields := [{ items := [{ bytes := ascii "2" }] },
                                             { items := [{ bytes := ascii "2" },
                                                         { bytes := ascii "0" }] }] }] },
                { type := 2, idc := 0, fields := [field1 "2.002" value] }] }

/-- A record whose declared length, 3, ends before its `.999` field begins. -/
def backward_end_input : List UInt8 := ascii "1.001:3\x1d1.999:abc\x1c"

/-! ### The files that are read back from the bytes `SERIALIZE_FILE` writes -/

/-- The test of `PARSE_LEN_FROM_FIRST_FIELD` on the tag of the first field: the tag ends in
`.001` or in `.01`. -/
def is_len_tag (tag : List UInt8) : Bool :=
  ends_with tag (ascii ".001") || ends_with tag (ascii ".01")

/-- The test of `PARSE_CNT_PLAN` on a tag: the tag is `1.003` or `1.03`. -/
def is_cnt_tag (tag : List UInt8) : Bool := tag == ascii "1.003" || tag == ascii "1.03"

/-- The size `calc` of `UPDATE_ALL_LENGTHS` measures on a record whose first field is `f0`
with a single item of no bytes: the size of the record without the digits of its length. -/
def size_without_digits (f0 : Field) (others : List Field) : Nat :=
  calc_size { fields := { f0 with subfields := [{ items := [{ bytes := [] }] }] } :: others }

/-- The number `UPDATE_ALL_LENGTHS` leaves in the first field of a record of `b` bytes
beside the digits: its first pass measures `b + 7` with the placeholder, its second pass
measures the record with the decimal of `b + 7` in it, and that second size is written. -/
def written_length (b : Nat) : Nat := b + (to_string (b + TAGGED_LEN_WIDTH)).length

/-- The condition on a tagged record returned by `PARSE_FILE` that begins with a textual
field `f0`, under which the record, once `SERIALIZE_FILE` has patched and written it, is
read back by `PARSE_FILE`. `first` says the record is the first of the file, `last` that it
is the last one. With `b` the size of the record without the digits of its length:

* Only the last field may be binary, and no textual field after the first has a single
  empty item as last subfield.
* Either the record is read back through its length: the first tag ends in `.001` or `.01`,
  the decimal of the second estimate `b + digits (b + 7)` has as many digits as the decimal
  of the first estimate `b + 7`, and no binary payload ends in GS.
* Or the length is not used when the record is read back: the first tag does not end in
  `.001` or `.01`, or the record is the last of the file and the decimal of the second
  estimate has one digit less than the decimal of the first, so that the number written
  points one byte beyond the end of the buffer. Then no binary payload holds FS; the first
  field of the first record is not the CNT field when more records follow
  (`UPDATE_ALL_LENGTHS` overwrites it); and a last record after the first has a tag or a
  second field: it then has the four bytes `PARSE_FILE` asks for before it reads a
  record. -/
def text_fields_ready (first last : Bool) (f0 : Field) (others : List Field) : Prop :=
  (∀ f ∈ others.dropLast, f.is_binary_field = false) ∧
    (∀ f ∈ others, f.is_binary_field = false →
      f.subfields.getLast? ≠ some { items := [{ bytes := [] }] }) ∧
    ((is_len_tag f0.tag = true ∧
        (to_string (written_length (size_without_digits f0 others))).length =
          (to_string (size_without_digits f0 others + TAGGED_LEN_WIDTH)).length ∧
        ∀ f ∈ others, f.is_binary_field = true → f.raw_field.getLast? ≠ some GS) ∨
      ((is_len_tag f0.tag = false ∨
          (last = true ∧
            (to_string (written_length (size_without_digits f0 others))).length + 1 =
              (to_string (size_without_digits f0 others + TAGGED_LEN_WIDTH)).length)) ∧
        (first = true → last = false → is_cnt_tag f0.tag = false) ∧
        (first = false → last = true → f0.tag ≠ [] ∨ others ≠ []) ∧
        ∀ f ∈ others, f.is_binary_field = true → ∀ b ∈ f.raw_field, b ≠ FS))

/-- The condition on the fields of a tagged record returned by `PARSE_FILE` under which the
record, once `SERIALIZE_FILE` has patched and written it, is read back by `PARSE_FILE`: the
record begins with a textual field and is `text_fields_ready`, or it begins with a `.999`
field, which is then its only field and has a payload without FS (it was read up to the
next FS). -/
def fields_ready (first last : Bool) : List Field → Prop
  | [] => False
  | f0 :: others =>
    if f0.is_binary_field = true then others = [] ∧ ∀ b ∈ f0.raw_field, b ≠ FS
    else text_fields_ready first last f0 others

/-- A record returned by `PARSE_FILE` that is read back after `SERIALIZE_FILE`: a legacy
binary record, or a tagged record with `fields_ready`. -/
def record_ready (first last : Bool) (r : Record) : Prop :=
  r.is_binary_record = true ∨ fields_ready first last r.fields

/-- Every record of the list is `record_ready`; `first` says the list starts at the first
record of the file, and the last record of the list is the last of the file. -/
def records_ready : Bool → List Record → Prop
  | _, [] => True
  | first, r :: rest => record_ready first rest.isEmpty r ∧ records_ready false rest

instance text_fields_ready_decidable (first last : Bool) (f0 : Field) (others : List Field) :
    Decidable (text_fields_ready first last f0 others) := by
  unfold text_fields_ready
  infer_instance

instance fields_ready_decidable (first last : Bool) :
    (fs : List Field) → Decidable (fields_ready first last fs)
  | [] => isFalse (fun h => h)
  | f0 :: others =>
    inferInstanceAs (Decidable (if f0.is_binary_field = true then
      others = [] ∧ ∀ b ∈ f0.raw_field, b ≠ FS
    else text_fields_ready first last f0 others))

instance record_ready_decidable (first last : Bool) (r : Record) :
    Decidable (record_ready first last r) :=
  inferInstanceAs (Decidable (r.is_binary_record = true ∨ fields_ready first last r.fields))

instance records_ready_decidable : (first : Bool) → (rs : List Record) →
    Decidable (records_ready first rs)
  | _, [] => isTrue trivial
  | first, r :: rest =>
    have := records_ready_decidable false rest
    inferInstanceAs (Decidable (record_ready first rest.isEmpty r ∧ records_ready false rest))

/-- The field as it is read back from the bytes written for it: a textual field whose only
subfield is a single empty item is written as a field without content, and such a field
is read without subfields. -/
def settle_field (f : Field) : Field :=
  if f.is_binary_field = false ∧ f.subfields = [{ items := [{ bytes := [] }] }] then
    { f with subfields := [] }
  else f

/-- The record with the fields after the first as they are read back. The first field is
left: `UPDATE_ALL_LENGTHS` overwrites it. -/
def settle_record (r : Record) : Record :=
  match r.fields with
  | [] => r
  | f0 :: others => { r with fields := f0 :: others.map settle_field }

/-- The file with the fields after the first of every record as they are read back: the
file `F` in which a textual field after the first whose only subfield is a single empty item
has no subfield. Both files are written in the same bytes. -/
def settle (F : File) : File := { records := F.records.map settle_record }

/-- A two-record file of 105 bytes, with `len` in the length field of its Type-1 record: a
Type-1 record with eight fields and the plan `(4, 1)`, of 95 bytes when `len` has two
digits, and a legacy binary record of type 4, of 10 bytes. -/
def two_record_bytes (len : String) : List UInt8 :=
  ascii "1.001:" ++ ascii len ++
    ascii "\x1d1.002:0502\x1d1.003:2\x1e4\x1f1\x1d1.004:CAR\x1d1.005:20261030" ++
    ascii "\x1d1.007:DAI01\x1d1.008:ORI01\x1d1.009:TCN0001\x1c" ++
    [0, 0, 0, 10, 1, 97, 98, 99, 100, 101]

/-- The file of `two_record_bytes len`. -/
def two_record_file (len : String) : File :=
  { records := [{ type := 1, idc := -1,
                  fields := [field1 "1.001" len, field1 "1.002" "0502",
                             { tag := ascii "1.003",
                               subfields := [{ items := [{ bytes := ascii "2" }] },
                                             { items := [{ bytes := ascii "4" },
                                                         { bytes := ascii "1" }] }] },
                             field1 "1.004" "CAR", field1 "1.005" "20261030",
                             field1 "1.007" "DAI01", field1 "1.008" "ORI01",
                             field1 "1.009" "TCN0001"] },
                { type := 4, idc := 1, is_binary_record := true,
                  raw_record := [0, 0, 0, 10, 1, 97, 98, 99, 100, 101] }] }

/-! ## Lemmas -/

theorem scan_from_append (p : UInt8 → Bool) (xs : List UInt8) (d : UInt8) (rest : List UInt8)
    (pos : Nat) (hxs : ∀ x ∈ xs, p x = true) (hd : p d = false) :
    Cursor.scan_from p (xs ++ d :: rest) pos = pos + xs.length := by
  induction xs generalizing pos with
  | nil => simp [Cursor.scan_from, hd]
  | cons x xs ih =>
    have hx : p x = true := hxs x (List.mem_cons_self _ _)
    have hxs' : ∀ y ∈ xs, p y = true := fun y hy => hxs y (List.mem_cons_of_mem _ hy)
    simp [Cursor.scan_from, hx, ih _ hxs']
    omega

theorem scan_from_all (p : UInt8 → Bool) (xs : List UInt8)
    (pos : Nat) (hxs : ∀ x ∈ xs, p x = true) :
    Cursor.scan_from p xs pos = pos + xs.length := by
  induction xs generalizing pos with
  | nil => simp [Cursor.scan_from]
  | cons x xs ih =>
    have hx : p x = true := hxs x (List.mem_cons_self _ _)
    have hxs' : ∀ y ∈ xs, p y = true := fun y hy => hxs y (List.mem_cons_of_mem _ hy)
    simp [Cursor.scan_from, hx, ih _ hxs']
    omega

theorem Cursor.Sees.length {c : Cursor} {s : List UInt8} (h : c.Sees s) :
    c.position_ + s.length = c.buffer_.length := by
  obtain ⟨h1, h2⟩ := h
  have := congrArg List.length h2
  simp at this
  omega

theorem Cursor.Sees.skip {c : Cursor} {s t : List UInt8} (h : c.Sees (s ++ t)) :
    ({ c with position_ := c.position_ + s.length } : Cursor).Sees t := by
  have hl := h.length
  obtain ⟨h1, h2⟩ := h
  refine ⟨by simp at hl ⊢; omega, ?_⟩
  simp only
  rw [← List.drop_drop, h2]
  simp

theorem Cursor.Sees.peek {c : Cursor} {d : UInt8} {t : List UInt8} (h : c.Sees (d :: t)) :
    c.done = false ∧ c.peek = d := by
  have hl := h.length
  obtain ⟨h1, h⟩ := h
  have hd : c.done = false := by
    simp [Cursor.done, Cursor.size]; simp at hl; omega
  refine ⟨hd, ?_⟩
  simp [Cursor.peek, hd]
  have : c.buffer_[c.position_]? = some d := by
    have := congrArg (fun l => l[0]?) h
    simpa using this
  simp [List.getD, this]

theorem Cursor.Sees.done {c : Cursor} (h : c.Sees []) : c.done = true := by
  have hl := h.length
  simp [Cursor.done, Cursor.size]; simp at hl; omega

theorem Cursor.slice_sees {c : Cursor} {s t : List UInt8} (h : c.Sees (s ++ t)) (c' : Cursor)
    (hb : c'.buffer_ = c.buffer_) :
    c'.slice c.position_ (c.position_ + s.length) = .ok s := by
  have hl := h.length
  obtain ⟨h1, h⟩ := h
  simp only [Cursor.slice, Cursor.size, hb]
  have hlen : c.position_ + s.length ≤ c.buffer_.length := by
    simp at hl; omega
  simp [hlen, h]

theorem Cursor.Sees.advance {c : Cursor} {d : UInt8} {t : List UInt8} (h : c.Sees (d :: t)) :
    c.advance.buffer_ = c.buffer_ ∧ c.advance.Sees t :=
  ⟨rfl, Cursor.Sees.skip (s := [d]) h⟩

theorem Cursor.Sees.not_done {c : Cursor} {s : List UInt8} (h : c.Sees s) (hs : s ≠ []) :
    c.done = false := by
  have hl := h.length
  have : s.length ≠ 0 := by simpa using hs
  simp [Cursor.done, Cursor.size]; omega

theorem TAKE_UNTIL_sees {c : Cursor} {delimiter : UInt8} {xs rest : List UInt8}
    (h : c.Sees (xs ++ delimiter :: rest)) (hxs : ∀ x ∈ xs, x ≠ delimiter) :
    ∃ c', TAKE_UNTIL c delimiter = .ok (xs, c') ∧ c'.buffer_ = c.buffer_ ∧
      c'.Sees (delimiter :: rest) := by
  have hs := scan_from_append (fun b => b != delimiter) xs delimiter rest c.position_
    (by simpa using hxs) (by simp)
  refine ⟨{ c with position_ := c.position_ + xs.length }, ?_, rfl, h.skip⟩
  simp only [TAKE_UNTIL, Cursor.advance_while, Cursor.position, h.2, hs]
  rw [Cursor.slice_sees h ⟨c.buffer_, c.position_ + xs.length⟩ rfl]
  rfl

theorem PARSE_ITEM_sees {c : Cursor} {d : UInt8} {xs rest : List UInt8}
    (h : c.Sees (xs ++ d :: rest)) (hxs : ∀ x ∈ xs, is_delim x = false) (hd : is_delim d = true) :
    ∃ c', PARSE_ITEM c = .ok ({ bytes := xs }, c') ∧ c'.buffer_ = c.buffer_ ∧
      c'.Sees (d :: rest) := by
  have hs := scan_from_append (fun b => !is_delim b) xs d rest c.position_
    (by simpa using hxs) (by simp [hd])
  refine ⟨{ c with position_ := c.position_ + xs.length }, ?_, rfl, h.skip⟩
  simp only [PARSE_ITEM, Cursor.advance_while, Cursor.position, h.2, hs]
  rw [Cursor.slice_sees h ⟨c.buffer_, c.position_ + xs.length⟩ rfl]
  rfl

theorem SERIALIZE_SUBFIELD_loop_append (out : List UInt8) (items : List Item) :
    SERIALIZE_SUBFIELD_loop out items = out ++ items_bytes items := by
  induction items generalizing out with
  | nil => simp [items_bytes, SERIALIZE_SUBFIELD_loop]
  | cons it rest ih =>
    simp only [items_bytes, SERIALIZE_SUBFIELD_loop]
    rw [ih, ih (SERIALIZE_ITEM [] it rest.isEmpty)]
    simp [SERIALIZE_ITEM]
    split <;> simp

theorem items_bytes_cons (it : Item) (rest : List Item) :
    items_bytes (it :: rest) =
      it.bytes ++ (if rest.isEmpty then [] else US :: items_bytes rest) := by
  conv => lhs; simp only [items_bytes, SERIALIZE_SUBFIELD_loop]
  rw [SERIALIZE_SUBFIELD_loop_append]
  cases rest <;> simp [SERIALIZE_ITEM, items_bytes, SERIALIZE_SUBFIELD_loop]

theorem is_delim_US : is_delim US = true := by decide

theorem is_delim_RS : is_delim RS = true := by decide

theorem is_delim_GS : is_delim GS = true := by decide

theorem is_delim_FS : is_delim FS = true := by decide

theorem PARSE_SUBFIELD_loop_sees (items : List Item) (hne : items ≠ []) :
    ∀ (fuel : Nat) (c : Cursor) (acc : Subfield) (d : UInt8) (rest : List UInt8),
      items.length ≤ fuel → c.Sees (items_bytes items ++ d :: rest) → items_clean items →
      is_delim d = true → d ≠ US →
      ∃ c', PARSE_SUBFIELD_loop fuel c acc = .ok ({ items := acc.items ++ items }, c') ∧
        c'.buffer_ = c.buffer_ ∧ c'.Sees (d :: rest) := by
  induction items with
  | nil => exact absurd rfl hne
  | cons it more ih =>
    intro fuel c acc d rest hfuel hsees hclean hd hdus
    obtain ⟨fuel, rfl⟩ : ∃ f, fuel = f + 1 := ⟨fuel - 1, by simp at hfuel; omega⟩
    have hit : ∀ b ∈ it.bytes, is_delim b = false := hclean it (List.mem_cons_self _ _)
    have hdone : c.done = false := hsees.not_done (by simp)
    rw [items_bytes_cons] at hsees
    cases more with
    | nil =>
      simp only [List.isEmpty_nil, if_true, List.append_nil] at hsees
      obtain ⟨c1, h1, hb1, hs1⟩ := PARSE_ITEM_sees hsees hit hd
      refine ⟨c1, ?_, hb1, hs1⟩
      simp only [PARSE_SUBFIELD_loop, hdone, h1]
      simp [bind, Except.bind, pure, Except.pure, hs1.peek.1, hs1.peek.2, hdus]
    | cons it2 more2 =>
      simp only [List.isEmpty_cons, Bool.false_eq_true, if_false, List.append_assoc,
        List.cons_append] at hsees
      obtain ⟨c1, h1, hb1, hs1⟩ := PARSE_ITEM_sees hsees hit is_delim_US
      obtain ⟨c2, h2, hb2, hs2⟩ := ih (by simp) fuel c1.advance { items := acc.items ++ [it] } d rest
        (by simp at hfuel ⊢; omega) hs1.advance.2
        (fun i hi => hclean i (List.mem_cons_of_mem _ hi)) hd hdus
      refine ⟨c2, ?_, by rw [hb2, hs1.advance.1, hb1], hs2⟩
      simp only [PARSE_SUBFIELD_loop, hdone, h1]
      simp [bind, Except.bind, pure, Except.pure, hs1.peek.1, hs1.peek.2]
      simpa using h2

theorem PARSE_SUBFIELD_sees {items : List Item} (hne : items ≠ []) {c : Cursor} {d : UInt8}
    {rest : List UInt8} (hsees : c.Sees (items_bytes items ++ d :: rest))
    (hclean : items_clean items) (hd : is_delim d = true) (hdus : d ≠ US) :
    ∃ c', PARSE_SUBFIELD c = .ok ({ items := items }, c') ∧
      c'.buffer_ = c.buffer_ ∧ c'.Sees (d :: rest) := by
  have hlen : items.length ≤ (items_bytes items).length + 1 := by
    clear hsees hne
    induction items with
    | nil => simp
    | cons it more ih =>
      rw [items_bytes_cons]
      have := ih (fun i hi => hclean i (List.mem_cons_of_mem _ hi))
      cases more <;> simp at this ⊢
      omega
  have hl := hsees.length
  have := PARSE_SUBFIELD_loop_sees items hne (c.size + 1) c {} d rest
    (by simp [Cursor.size] at hl ⊢; omega) hsees hclean hd hdus
  simpa [PARSE_SUBFIELD] using this

theorem SERIALIZE_FIELD_loop_append (out : List UInt8) (subs : List Subfield) :
    SERIALIZE_FIELD_loop out subs = out ++ subfields_bytes subs := by
  induction subs generalizing out with
  | nil => simp [subfields_bytes, SERIALIZE_FIELD_loop]
  | cons sf rest ih =>
    simp only [subfields_bytes, SERIALIZE_FIELD_loop]
    rw [ih, ih (SERIALIZE_SUBFIELD [] sf rest.isEmpty)]
    simp only [SERIALIZE_SUBFIELD, SERIALIZE_SUBFIELD_loop_append out]
    split <;> simp [items_bytes]

theorem subfields_bytes_cons (sf : Subfield) (rest : List Subfield) :
    subfields_bytes (sf :: rest) =
      items_bytes sf.items ++ (if rest.isEmpty then [] else RS :: subfields_bytes rest) := by
  conv => lhs; simp only [subfields_bytes, SERIALIZE_FIELD_loop]
  rw [SERIALIZE_FIELD_loop_append]
  cases rest <;> simp [SERIALIZE_SUBFIELD, items_bytes, subfields_bytes, SERIALIZE_FIELD_loop]

theorem items_bytes_head {items : List Item} (hclean : items_clean items) {b : UInt8}
    {t : List UInt8} (h : items_bytes items = b :: t) : b ≠ RS ∧ b ≠ GS ∧ b ≠ FS := by
  cases items with
  | nil => simp [items_bytes, SERIALIZE_SUBFIELD_loop] at h
  | cons it more =>
    rw [items_bytes_cons] at h
    have hit : ∀ b ∈ it.bytes, is_delim b = false := hclean it (List.mem_cons_self _ _)
    cases hb : it.bytes with
    | nil =>
      rw [hb] at h
      cases more with
      | nil => simp at h
      | cons it2 more2 =>
        simp at h
        rw [← h.1]
        decide
    | cons b0 t0 =>
      rw [hb] at h
      simp at h
      have := hit b0 (by rw [hb]; exact List.mem_cons_self _ _)
      rw [h.1] at this
      refine ⟨?_, ?_, ?_⟩ <;> intro hc <;> rw [hc] at this <;> revert this <;> decide

theorem items_bytes_eq_nil {items : List Item} (hne : items ≠ [])
    (h : items_bytes items = []) : items = [{ bytes := [] }] := by
  cases items with
  | nil => exact absurd rfl hne
  | cons it more =>
    rw [items_bytes_cons] at h
    cases more with
    | nil =>
      simp at h
      cases it
      simp_all
    | cons it2 more2 => simp at h

theorem PARSE_TEXT_FIELD_loop_sees (subs : List Subfield) :
    ∀ (fuel : Nat) (c : Cursor) (acc : Field) (d : UInt8) (rest : List UInt8),
      subs.length < fuel → c.Sees (subfields_bytes subs ++ d :: rest) → subfields_ok subs →
      (d = GS ∨ d = FS) →
      ∃ c', PARSE_TEXT_FIELD_loop fuel c acc =
          .ok ({ acc with subfields := acc.subfields ++ subs }, c') ∧
        c'.buffer_ = c.buffer_ ∧ c'.Sees (d :: rest) := by
  induction subs with
  | nil =>
    intro fuel c acc d rest hfuel hsees _ hd
    obtain ⟨fuel, rfl⟩ : ∃ f, fuel = f + 1 := ⟨fuel - 1, by simp at hfuel; omega⟩
    simp only [subfields_bytes, SERIALIZE_FIELD_loop, List.nil_append] at hsees
    refine ⟨c, ?_, rfl, hsees⟩
    have hp := hsees.peek
    rcases hd with hd | hd <;> subst hd <;>
      simp [PARSE_TEXT_FIELD_loop, hp.1, hp.2, pure, Except.pure]
  | cons sf more ih =>
    intro fuel c acc d rest hfuel hsees hok hd
    obtain ⟨fuel, rfl⟩ : ∃ f, fuel = f + 1 := ⟨fuel - 1, by simp at hfuel; omega⟩
    have hsf := hok.1 sf (List.mem_cons_self _ _)
    have hdd : is_delim d = true := by rcases hd with hd | hd <;> subst hd <;> decide
    have hdRS : d ≠ RS := by rcases hd with hd | hd <;> subst hd <;> decide
    have hdUS : d ≠ US := by rcases hd with hd | hd <;> subst hd <;> decide
    rw [subfields_bytes_cons] at hsees
    -- the loop condition holds at the first byte
    have hcond : (!c.done && c.peek != GS && c.peek != FS) = true := by
      cases hb : items_bytes sf.items with
      | nil =>
        have hitems := items_bytes_eq_nil hsf.1 hb
        cases more with
        | nil =>
          exfalso
          apply hok.2
          cases sf
          simp_all
        | cons sf2 more2 =>
          rw [hb] at hsees
          simp only [List.isEmpty_cons, Bool.false_eq_true, if_false, List.nil_append,
            List.cons_append] at hsees
          have hp := hsees.peek
          simp [hp.1, hp.2]
          decide
      | cons b t =>
        have hh := items_bytes_head hsf.2 hb
        rw [hb] at hsees
        simp only [List.cons_append] at hsees
        have hp := hsees.peek
        simp [hp.1, hp.2, hh.2.1, hh.2.2]
    cases more with
    | nil =>
      simp only [List.isEmpty_nil, if_true, List.append_nil] at hsees
      obtain ⟨c1, h1, hb1, hs1⟩ := PARSE_SUBFIELD_sees hsf.1 hsees hsf.2 hdd hdUS
      refine ⟨c1, ?_, hb1, hs1⟩
      rw [PARSE_TEXT_FIELD_loop, if_pos hcond, h1]
      cases sf
      simp [bind, Except.bind, pure, Except.pure, hs1.peek.1, hs1.peek.2, hdRS]
    | cons sf2 more2 =>
      simp only [List.isEmpty_cons, Bool.false_eq_true, if_false, List.append_assoc,
        List.cons_append] at hsees
      obtain ⟨c1, h1, hb1, hs1⟩ := PARSE_SUBFIELD_sees hsf.1 hsees hsf.2 is_delim_RS (by decide)
      have hok' : subfields_ok (sf2 :: more2) := by
        refine ⟨fun s hs => hok.1 s (List.mem_cons_of_mem _ hs), ?_⟩
        have := hok.2
        simpa [List.getLast?_cons_cons] using this
      obtain ⟨c2, h2, hb2, hs2⟩ := ih fuel c1.advance
        { acc with subfields := acc.subfields ++ [sf] } d rest
        (by simp at hfuel ⊢; omega) hs1.advance.2 hok' hd
      refine ⟨c2, ?_, by rw [hb2, hs1.advance.1, hb1], hs2⟩
      rw [PARSE_TEXT_FIELD_loop, if_pos hcond, h1]
      cases sf
      simp [bind, Except.bind, pure, Except.pure, hs1.peek.1, hs1.peek.2]
      simpa using h2

theorem subfields_length_le (subs : List Subfield) :
    subs.length ≤ (subfields_bytes subs).length + 1 := by
  induction subs with
  | nil => simp
  | cons sf more ih =>
    rw [subfields_bytes_cons]
    cases more <;> simp at ih ⊢
    omega

theorem PARSE_TEXT_FIELD_sees {subs : List Subfield} {c : Cursor} {d : UInt8}
    {rest : List UInt8} (hsees : c.Sees (subfields_bytes subs ++ d :: rest))
    (hok : subfields_ok subs) (hd : d = GS ∨ d = FS) :
    ∃ c', PARSE_TEXT_FIELD c = .ok ({ subfields := subs }, c') ∧
      c'.buffer_ = c.buffer_ ∧ c'.Sees (d :: rest) := by
  have hl := hsees.length
  have hlen := subfields_length_le subs
  have := PARSE_TEXT_FIELD_loop_sees subs (c.size + 1) c {} d rest
    (by simp [Cursor.size] at hl ⊢; omega) hsees hok hd
  simpa [PARSE_TEXT_FIELD] using this

theorem SERIALIZE_FIELD_append (out : List UInt8) (f : Field) (last : Bool) :
    SERIALIZE_FIELD out f last = out ++ field_bytes f last := by
  simp only [field_bytes, SERIALIZE_FIELD]
  split
  · rw [SERIALIZE_FIELD_loop_append, SERIALIZE_FIELD_loop_append ([] ++ f.tag ++ [COLON])]
    split <;> simp
  · simp

theorem SERIALIZE_RECORD_loop_append (out : List UInt8) (fields : List Field) :
    SERIALIZE_RECORD_loop out fields = out ++ fields_bytes fields := by
  induction fields generalizing out with
  | nil => simp [fields_bytes, SERIALIZE_RECORD_loop]
  | cons f rest ih =>
    simp only [fields_bytes, SERIALIZE_RECORD_loop]
    rw [ih, ih (SERIALIZE_FIELD [] f rest.isEmpty), SERIALIZE_FIELD_append out]
    simp [field_bytes]

theorem fields_bytes_cons (f : Field) (rest : List Field) :
    fields_bytes (f :: rest) = field_bytes f rest.isEmpty ++ fields_bytes rest := by
  conv => lhs; simp only [fields_bytes, SERIALIZE_RECORD_loop]
  rw [SERIALIZE_RECORD_loop_append]
  rfl

theorem field_bytes_text {f : Field} (h : f.is_binary_field = false) (last : Bool) :
    field_bytes f last =
      f.tag ++ COLON :: (subfields_bytes f.subfields ++ if last then [] else [GS]) := by
  simp only [field_bytes, SERIALIZE_FIELD, h]
  rw [SERIALIZE_FIELD_loop_append]
  cases last <;> simp

theorem Cursor.at_sees {c : Cursor} {s t : List UInt8} {b : UInt8} (h : c.Sees (s ++ b :: t))
    (c' : Cursor) (hb : c'.buffer_ = c.buffer_) :
    c'.at (c.position_ + s.length) = .ok b := by
  have h2 := h.2
  have : c.buffer_[c.position_ + s.length]? = some b := by
    rw [← List.getElem?_drop, h2, List.getElem?_append_right (Nat.le_refl _)]
    simp
  simp [Cursor.at, hb, this]

theorem Cursor.Sees.pos_eq {c c' : Cursor} {s : List UInt8} (h : c.Sees s) (h' : c'.Sees s)
    (hb : c'.buffer_ = c.buffer_) : c'.position_ = c.position_ := by
  have h1 := h.length
  have h2 := h'.length
  rw [hb] at h2
  omega

theorem PARSE_FIELD_text_sees {f : Field} (hok : text_field_ok f) {c : Cursor} {d : UInt8}
    {rest : List UInt8} (record_end : Nat)
    (hsees : c.Sees (f.tag ++ COLON :: (subfields_bytes f.subfields ++ d :: rest)))
    (hd : d = GS ∨ d = FS) :
    ∃ c', PARSE_FIELD c record_end = .ok (f, c') ∧ c'.buffer_ = c.buffer_ ∧
      c'.Sees (d :: rest) := by
  obtain ⟨hbin, hraw, htag, h999, hsubs⟩ := hok
  obtain ⟨c1, h1, hb1, hs1⟩ := TAKE_UNTIL_sees hsees htag
  obtain ⟨c2, h2, hb2, hs2⟩ := PARSE_TEXT_FIELD_sees hs1.advance.2 hsubs hd
  refine ⟨c2, ?_, by rw [hb2, hs1.advance.1, hb1], hs2⟩
  simp only [PARSE_FIELD, h1, bind, Except.bind, hs1.peek.1, hs1.peek.2, h999]
  simp [h2, pure, Except.pure]
  cases f
  simp_all

theorem text_not_binary {f : Field} (h1 : text_field_ok f) (h2 : binary_field_ok f) : False := by
  have := h1.1
  rw [h2.1] at this
  exact absurd this (by decide)

theorem SERIALIZE_RECORD_append (out : List UInt8) (r : Record) :
    SERIALIZE_RECORD out r = out ++ record_bytes r := by
  simp only [record_bytes, SERIALIZE_RECORD]
  split
  · simp
  · rw [SERIALIZE_RECORD_loop_append, SERIALIZE_RECORD_loop_append []]
    simp

theorem SERIALIZE_FILE_loop_append (out : List UInt8) (rs : List Record) :
    SERIALIZE_FILE_loop out rs = out ++ records_bytes rs := by
  induction rs generalizing out with
  | nil => simp [records_bytes, SERIALIZE_FILE_loop]
  | cons r rest ih =>
    simp only [records_bytes, SERIALIZE_FILE_loop]
    rw [ih, ih (SERIALIZE_RECORD [] r), SERIALIZE_RECORD_append out]
    simp [record_bytes]

theorem records_bytes_cons (r : Record) (rest : List Record) :
    records_bytes (r :: rest) = record_bytes r ++ records_bytes rest := by
  conv => lhs; simp only [records_bytes, SERIALIZE_FILE_loop]
  rw [SERIALIZE_FILE_loop_append]
  rfl

theorem record_bytes_tagged {r : Record} (h : r.is_binary_record = false) :
    record_bytes r = fields_bytes r.fields ++ [FS] := by
  simp [record_bytes, SERIALIZE_RECORD, h, fields_bytes]

theorem record_bytes_binary {r : Record} (h : r.is_binary_record = true) :
    record_bytes r = r.raw_record := by
  simp [record_bytes, SERIALIZE_RECORD, h]

theorem READ_BE_U32_take (l : List UInt8) (h : 4 ≤ l.length) :
    READ_BE_U32 (l.take 4) = READ_BE_U32 l := by
  match l, h with
  | b0 :: b1 :: b2 :: b3 :: t, _ => simp [READ_BE_U32]

theorem ends_with_length {t suffix : List UInt8} (h : ends_with t suffix = true) :
    suffix.length ≤ t.length := by
  simp only [ends_with, List.isSuffixOf_iff_suffix] at h
  exact h.length_le

theorem scan_from_takeWhile (p : UInt8 → Bool) (l : List UInt8) (pos : Nat) :
    Cursor.scan_from p l pos = pos + (l.takeWhile p).length := by
  induction l generalizing pos with
  | nil => simp [Cursor.scan_from]
  | cons b t ih =>
    by_cases hb : p b = true
    · simp [Cursor.scan_from, hb, ih, List.takeWhile]; omega
    · simp [Cursor.scan_from, hb, List.takeWhile]

theorem take_takeWhile_length (p : UInt8 → Bool) (l : List UInt8) :
    l.take (l.takeWhile p).length = l.takeWhile p := by
  induction l with
  | nil => simp
  | cons b t ih =>
    by_cases hb : p b = true
    · simp [List.takeWhile, hb, ih]
    · simp [List.takeWhile, hb]

theorem drop_takeWhile_length (p : UInt8 → Bool) (l : List UInt8) :
    l.drop (l.takeWhile p).length = l.dropWhile p := by
  induction l with
  | nil => simp
  | cons b t ih =>
    by_cases hb : p b = true
    · simp [List.takeWhile, List.dropWhile, hb, ih]
    · simp [List.takeWhile, List.dropWhile, hb]

theorem Cursor.slice_error {c : Cursor} {i j : Nat} {e : Error} (h : c.slice i j = .error e) :
    e = .OutOfBounds := by
  simp only [Cursor.slice] at h
  split at h
  · simp at h
  · split at h
    · simp at h
    · simp only [Except.error.injEq] at h
      exact h.symm

/-- The two ways a slice is defined: the bytes `[i, j)` inside the buffer, or, when the count
`j - i` is `size_t(-1)`, the rest of the buffer from `i`. -/
theorem Cursor.slice_ok {c : Cursor} {i j : Nat} {bytes : List UInt8}
    (h : c.slice i j = .ok bytes) :
    (i ≤ j ∧ j ≤ c.buffer_.length ∧ bytes = (c.buffer_.drop i).take (j - i)) ∨
      ((j + SIZE_MOD - i) % SIZE_MOD = INVALID_INDEX ∧ i ≤ c.buffer_.length ∧
        bytes = c.buffer_.drop i) := by
  simp only [Cursor.slice, Cursor.size] at h
  split at h
  · rename_i hc
    simp only [Except.ok.injEq] at h
    exact Or.inl ⟨hc.1, hc.2, h.symm⟩
  · split at h
    · rename_i hc
      simp only [Except.ok.injEq] at h
      exact Or.inr ⟨hc.1, hc.2, h.symm⟩
    · simp at h

/-- A slice of `n` bytes from `i`, with `n` below `size_t(-1)`: when it is defined the bytes
are inside the buffer. -/
theorem Cursor.slice_forward {c : Cursor} {i n : Nat} {bytes : List UInt8}
    (hn : n < INVALID_INDEX) (h : c.slice i (i + n) = .ok bytes) :
    i + n ≤ c.buffer_.length ∧ bytes = (c.buffer_.drop i).take n := by
  rcases Cursor.slice_ok h with ⟨_, h2, h3⟩ | ⟨h1, _, _⟩
  · rw [Nat.add_sub_cancel_left] at h3
    exact ⟨h2, h3⟩
  · exfalso
    have e1 : i + n + SIZE_MOD - i = n + SIZE_MOD := by omega
    rw [e1, Nat.add_mod_right, Nat.mod_eq_of_lt (Nat.lt_trans hn (by decide))] at h1
    omega

/-- The slice of `PARSE_BINARY_FIELD` when the end lies before the start: it is defined only
for an end one byte before the start, and is then the rest of the buffer. -/
theorem Cursor.slice_backward {c : Cursor} {i j : Nat} {bytes : List UInt8} (hji : j < i)
    (h : c.slice i j = .ok bytes) :
    j + 1 = i ∧ i ≤ c.buffer_.length ∧ bytes = c.buffer_.drop i := by
  rcases Cursor.slice_ok h with ⟨h1, _, _⟩ | ⟨h1, h2, h3⟩
  · omega
  · refine ⟨?_, h2, h3⟩
    have hS : 2 ≤ SIZE_MOD := by decide
    have e1 : j + SIZE_MOD - i < SIZE_MOD := by omega
    rw [Nat.mod_eq_of_lt e1] at h1
    have hI : INVALID_INDEX = SIZE_MOD - 1 := rfl
    omega

/-- What a successful scan-and-slice returns: the longest run of bytes satisfying `p`
at the cursor. -/
theorem scan_slice {c : Cursor} {p : UInt8 → Bool} {bytes : List UInt8}
    (h : (c.advance_while p).slice c.position_ (c.advance_while p).position_ = .ok bytes) :
    c.position_ ≤ c.buffer_.length ∧ bytes = (c.buffer_.drop c.position_).takeWhile p ∧
      (c.advance_while p).position_ = c.position_ + bytes.length ∧
      (c.advance_while p).position_ ≤ c.buffer_.length := by
  simp only [Cursor.advance_while, Cursor.slice, Cursor.size, scan_from_takeWhile] at h ⊢
  split at h
  · rename_i hc
    simp only [Except.ok.injEq] at h
    have hb : bytes = (c.buffer_.drop c.position_).takeWhile p := by
      rw [← h]
      simp only [Nat.add_sub_cancel_left]
      exact take_takeWhile_length p _
    refine ⟨by omega, hb, by rw [hb], hc.2⟩
  · rename_i hc
    split at h
    · rename_i hd
      exfalso
      apply hc
      have hle : ((c.buffer_.drop c.position_).takeWhile p).length ≤
          (c.buffer_.drop c.position_).length := (List.takeWhile_sublist p).length_le
      rw [List.length_drop] at hle
      omega
    · simp at h

theorem TAKE_UNTIL_inv {c c' : Cursor} {d : UInt8} {bytes : List UInt8}
    (h : TAKE_UNTIL c d = .ok (bytes, c')) :
    c'.buffer_ = c.buffer_ ∧ c.position_ ≤ c'.position_ ∧ c'.position_ ≤ c.buffer_.length ∧
      (∀ b ∈ bytes, b ≠ d) ∧ (∀ b, bytes.head? = some b → c.done = false ∧ c.peek = b) := by
  simp only [TAKE_UNTIL, Cursor.position, bind, Except.bind] at h
  split at h
  · simp at h
  · rename_i v hv
    simp only [pure, Except.pure, Except.ok.injEq, Prod.mk.injEq] at h
    obtain ⟨h1, h2⟩ := h
    subst h1
    obtain ⟨hpos, hb, hp, hle⟩ := scan_slice hv
    subst h2
    refine ⟨rfl, by omega, hle, ?_, ?_⟩
    · intro b hb'
      rw [hb] at hb'
      have := List.mem_takeWhile_imp hb'
      simpa using this
    · intro b hhead
      rw [hb] at hhead
      cases hl : c.buffer_.drop c.position_ with
      | nil => rw [hl] at hhead; simp at hhead
      | cons x t =>
        have hs : c.Sees (x :: t) := ⟨hpos, hl⟩
        rw [hl] at hhead
        by_cases hx : (x != d) = true
        · simp [List.takeWhile, hx] at hhead
          rw [← hhead]
          exact hs.peek
        · simp [List.takeWhile, hx] at hhead

theorem PARSE_ITEM_inv {c c' : Cursor} {it : Item} (h : PARSE_ITEM c = .ok (it, c')) :
    c'.buffer_ = c.buffer_ ∧ c.position_ ≤ c'.position_ ∧ c'.position_ ≤ c.buffer_.length ∧
      (∀ b ∈ it.bytes, is_delim b = false) := by
  simp only [PARSE_ITEM, Cursor.position, bind, Except.bind] at h
  split at h
  · simp at h
  · rename_i v hv
    simp only [pure, Except.pure, Except.ok.injEq, Prod.mk.injEq] at h
    obtain ⟨h1, h2⟩ := h
    subst h1
    obtain ⟨hpos, hb, hp, hle⟩ := scan_slice hv
    subst h2
    refine ⟨rfl, by omega, hle, ?_⟩
    intro b hb'
    simp only at hb'
    rw [hb] at hb'
    have := List.mem_takeWhile_imp hb'
    simpa using this

theorem PARSE_SUBFIELD_loop_inv (fuel : Nat) :
    ∀ (c c' : Cursor) (acc sf : Subfield), PARSE_SUBFIELD_loop fuel c acc = .ok (sf, c') →
      items_clean acc.items →
      c'.buffer_ = c.buffer_ ∧ items_clean sf.items ∧
        ((c.done = false ∨ acc.items ≠ []) → sf.items ≠ []) := by
  induction fuel with
  | zero => intro c c' acc sf h; simp [PARSE_SUBFIELD_loop] at h
  | succ fuel ih =>
    intro c c' acc sf h hacc
    rw [PARSE_SUBFIELD_loop] at h
    by_cases hdone : c.done = true
    · simp only [hdone, if_true, pure, Except.pure, Except.ok.injEq, Prod.mk.injEq] at h
      obtain ⟨h1, h2⟩ := h
      subst h1 h2
      exact ⟨rfl, hacc, fun hh => by simpa [hdone] using hh⟩
    · simp only [hdone, Bool.false_eq_true, if_false, bind, Except.bind] at h
      cases hit : PARSE_ITEM c with
      | error e => rw [hit] at h; simp at h
      | ok v =>
        obtain ⟨it, c1⟩ := v
        rw [hit] at h
        simp only at h
        obtain ⟨hb1, _, _, hclean⟩ := PARSE_ITEM_inv hit
        have hacc' : items_clean (acc.items ++ [it]) := by
          intro i hi
          simp only [List.mem_append, List.mem_singleton] at hi
          rcases hi with hi | hi
          · exact hacc i hi
          · rw [hi]; exact hclean
        by_cases hd1 : c1.done = true
        · simp only [hd1, if_true, pure, Except.pure, Except.ok.injEq, Prod.mk.injEq] at h
          obtain ⟨h1, h2⟩ := h
          subst h1 h2
          exact ⟨hb1, hacc', fun _ => by simp⟩
        · simp only [hd1, Bool.false_eq_true, if_false] at h
          by_cases hus : (c1.peek == US) = true
          · simp only [hus, if_true] at h
            obtain ⟨hb2, hc2, hne2⟩ := ih _ _ _ _ h hacc'
            exact ⟨by rw [hb2]; exact hb1, hc2, fun _ => hne2 (Or.inr (by simp))⟩
          · simp only [hus, Bool.false_eq_true, if_false, pure, Except.pure, Except.ok.injEq,
              Prod.mk.injEq] at h
            obtain ⟨h1, h2⟩ := h
            subst h1 h2
            exact ⟨hb1, hacc', fun _ => by simp⟩

theorem PARSE_SUBFIELD_inv {c c' : Cursor} {sf : Subfield}
    (h : PARSE_SUBFIELD c = .ok (sf, c')) (hdone : c.done = false) :
    c'.buffer_ = c.buffer_ ∧ sf.items ≠ [] ∧ items_clean sf.items := by
  obtain ⟨h1, h2, h3⟩ := PARSE_SUBFIELD_loop_inv _ _ _ _ _ h (by intro i hi; simp at hi)
  exact ⟨h1, h3 (Or.inl hdone), h2⟩

theorem PARSE_TEXT_FIELD_loop_inv (fuel : Nat) :
    ∀ (c c' : Cursor) (acc f : Field), PARSE_TEXT_FIELD_loop fuel c acc = .ok (f, c') →
      (∀ sf ∈ acc.subfields, sf.items ≠ [] ∧ items_clean sf.items) →
      c'.buffer_ = c.buffer_ ∧ f.is_binary_field = acc.is_binary_field ∧
        f.raw_field = acc.raw_field ∧ f.tag = acc.tag ∧
        ∀ sf ∈ f.subfields, sf.items ≠ [] ∧ items_clean sf.items := by
  induction fuel with
  | zero => intro c c' acc f h; simp [PARSE_TEXT_FIELD_loop] at h
  | succ fuel ih =>
    intro c c' acc f h hacc
    rw [PARSE_TEXT_FIELD_loop] at h
    by_cases hcond : (!c.done && c.peek != GS && c.peek != FS) = true
    · rw [if_pos hcond] at h
      have hdone : c.done = false := by
        simp only [Bool.and_eq_true, Bool.not_eq_true'] at hcond
        exact hcond.1.1
      simp only [bind, Except.bind] at h
      cases hsf : PARSE_SUBFIELD c with
      | error e => rw [hsf] at h; simp at h
      | ok v =>
        obtain ⟨sf, c1⟩ := v
        rw [hsf] at h
        simp only at h
        obtain ⟨hb1, hne, hclean⟩ := PARSE_SUBFIELD_inv hsf hdone
        have hacc' : ∀ s ∈ acc.subfields ++ [sf], s.items ≠ [] ∧ items_clean s.items := by
          intro s hs
          simp only [List.mem_append, List.mem_singleton] at hs
          rcases hs with hs | hs
          · exact hacc s hs
          · rw [hs]; exact ⟨hne, hclean⟩
        by_cases hrs : (!c1.done && c1.peek == RS) = true
        · rw [if_pos hrs] at h
          obtain ⟨hb2, e1, e2, e3, e4⟩ := ih _ _ _ _ h hacc'
          exact ⟨by rw [hb2]; exact hb1, e1, e2, e3, e4⟩
        · rw [if_neg hrs] at h
          simp only [pure, Except.pure, Except.ok.injEq, Prod.mk.injEq] at h
          obtain ⟨h1, h2⟩ := h
          subst h1 h2
          exact ⟨hb1, rfl, rfl, rfl, hacc'⟩
    · rw [if_neg hcond] at h
      simp only [pure, Except.pure, Except.ok.injEq, Prod.mk.injEq] at h
      obtain ⟨h1, h2⟩ := h
      subst h1 h2
      exact ⟨rfl, rfl, rfl, rfl, hacc⟩

theorem PARSE_TEXT_FIELD_inv {c c' : Cursor} {f : Field}
    (h : PARSE_TEXT_FIELD c = .ok (f, c')) :
    c'.buffer_ = c.buffer_ ∧ f.is_binary_field = false ∧ f.raw_field = [] ∧
      ∀ sf ∈ f.subfields, sf.items ≠ [] ∧ items_clean sf.items := by
  obtain ⟨h1, h2, h3, _, h5⟩ := PARSE_TEXT_FIELD_loop_inv _ _ _ _ _ h (by intro s hs; simp at hs)
  exact ⟨h1, h2, h3, h5⟩

theorem PARSE_BINARY_FIELD_inv {c c' : Cursor} {f : Field} {record_end : Nat}
    (h : PARSE_BINARY_FIELD c record_end = .ok (f, c')) :
    c'.buffer_ = c.buffer_ ∧ f.is_binary_field = true ∧ f.subfields = [] := by
  simp only [PARSE_BINARY_FIELD, bind, Except.bind, Cursor.position, pure, Except.pure] at h
  by_cases he : record_end = INVALID_INDEX
  · simp only [he, if_true] at h
    split at h
    · simp at h
    · simp only [Except.ok.injEq, Prod.mk.injEq] at h
      obtain ⟨h1, h2⟩ := h
      subst h1 h2
      exact ⟨rfl, rfl, rfl⟩
  · simp only [he, if_false] at h
    cases hs1 : PARSE_BINARY_FIELD_strip c c.position_ record_end FS with
    | error e => rw [hs1] at h; simp at h
    | ok v1 =>
      rw [hs1] at h
      simp only at h
      cases hs2 : PARSE_BINARY_FIELD_strip c c.position_ v1 GS with
      | error e => rw [hs2] at h; simp at h
      | ok v2 =>
        rw [hs2] at h
        simp only at h
        split at h
        · simp at h
        · simp only [Except.ok.injEq, Prod.mk.injEq] at h
          obtain ⟨h1, h2⟩ := h
          subst h1 h2
          exact ⟨rfl, rfl, rfl⟩

theorem PARSE_FIELD_inv {c c' : Cursor} {f : Field} {record_end : Nat}
    (h : PARSE_FIELD c record_end = .ok (f, c')) :
    c'.buffer_ = c.buffer_ ∧ parsed_field_inv f ∧
      (∀ b, f.tag.head? = some b → c.done = false ∧ c.peek = b) := by
  simp only [PARSE_FIELD, bind, Except.bind] at h
  cases ht : TAKE_UNTIL c COLON with
  | error e => rw [ht] at h; simp at h
  | ok v =>
    obtain ⟨tag, c1⟩ := v
    rw [ht] at h
    simp only at h
    obtain ⟨hb1, _, _, htag, hhead⟩ := TAKE_UNTIL_inv ht
    have hb2 : (if (!c1.done && c1.peek == COLON) = true then c1.advance else c1).buffer_ =
        c.buffer_ := by
      split <;> simp [Cursor.advance, hb1]
    by_cases h999 : ends_with tag (ascii ".999") = true
    · rw [if_pos h999] at h
      split at h
      · simp at h
      · rename_i v hv
        obtain ⟨parsed, c3⟩ := v
        simp only [pure, Except.pure, Except.ok.injEq, Prod.mk.injEq] at h
        obtain ⟨h1, h2⟩ := h
        subst h1 h2
        obtain ⟨hb3, e1, e2⟩ := PARSE_BINARY_FIELD_inv hv
        refine ⟨by rw [hb3]; exact hb2, ⟨htag, ?_, ?_, ?_⟩, hhead⟩
        · simp [e1, h999]
        · intro _; exact e2
        · intro hc; simp [e1] at hc
    · rw [if_neg h999] at h
      split at h
      · simp at h
      · rename_i v hv
        obtain ⟨parsed, c3⟩ := v
        simp only [pure, Except.pure, Except.ok.injEq, Prod.mk.injEq] at h
        obtain ⟨h1, h2⟩ := h
        subst h1 h2
        obtain ⟨hb3, e1, e2, e3⟩ := PARSE_TEXT_FIELD_inv hv
        refine ⟨by rw [hb3]; exact hb2, ⟨htag, ?_, ?_, ?_⟩, hhead⟩
        · simp only [e1]; simpa using h999
        · intro hc; simp [e1] at hc
        · intro _; exact ⟨e2, e3⟩

theorem PARSE_RECORD_loop_inv (record_end : Nat) (fuel : Nat) :
    ∀ (c c' : Cursor) (acc r : Record), PARSE_RECORD_loop record_end fuel c acc = .ok (r, c') →
      c'.buffer_ = c.buffer_ ∧ r.type = acc.type ∧ r.idc = acc.idc ∧
        r.is_binary_record = acc.is_binary_record ∧ r.raw_record = acc.raw_record ∧
        ∃ more, r.fields = acc.fields ++ more ∧
          ∀ f ∈ more, parsed_field_inv f ∧ f.tag.head? ≠ some FS := by
  induction fuel with
  | zero => intro c c' acc r h; simp [PARSE_RECORD_loop] at h
  | succ fuel ih =>
    intro c c' acc r h
    rw [PARSE_RECORD_loop] at h
    by_cases hcond : (!c.done && c.peek != FS) = true
    · rw [if_pos hcond] at h
      simp only [bind, Except.bind] at h
      cases hf : PARSE_FIELD c record_end with
      | error e => rw [hf] at h; simp at h
      | ok v =>
        obtain ⟨f, c1⟩ := v
        rw [hf] at h
        simp only at h
        obtain ⟨hb1, hinv, hhead⟩ := PARSE_FIELD_inv hf
        have hfs : f.tag.head? ≠ some FS := by
          intro hc
          have := (hhead FS hc).2
          simp [this] at hcond
        by_cases hgs : (!c1.done && c1.peek == GS) = true
        · rw [if_pos hgs] at h
          obtain ⟨hb2, e1, e2, e3, e4, more, e5, e6⟩ := ih _ _ _ _ h
          refine ⟨by rw [hb2]; exact hb1, e1, e2, e3, e4, f :: more, by simpa using e5, ?_⟩
          intro g hg
          simp only [List.mem_cons] at hg
          rcases hg with hg | hg
          · rw [hg]; exact ⟨hinv, hfs⟩
          · exact e6 g hg
        · rw [if_neg hgs] at h
          simp only [pure, Except.pure, Except.ok.injEq, Prod.mk.injEq] at h
          obtain ⟨h1, h2⟩ := h
          subst h1 h2
          refine ⟨hb1, rfl, rfl, rfl, rfl, [f], rfl, ?_⟩
          intro g hg
          simp only [List.mem_singleton] at hg
          rw [hg]; exact ⟨hinv, hfs⟩
    · rw [if_neg hcond] at h
      simp only [pure, Except.pure, Except.ok.injEq, Prod.mk.injEq] at h
      obtain ⟨h1, h2⟩ := h
      subst h1 h2
      exact ⟨rfl, rfl, rfl, rfl, rfl, [], by simp, by simp⟩

theorem PARSE_RECORD_inv {c c' : Cursor} {r : Record} (h : PARSE_RECORD c = .ok (r, c')) :
    c'.buffer_ = c.buffer_ ∧ r.type = -1 ∧ r.idc = -1 ∧ parsed_tagged_inv r ∧
      (∀ f0 b, r.fields.head? = some f0 → f0.tag.head? = some b →
        c.done = false ∧ c.peek = b) := by
  simp only [PARSE_RECORD, bind, Except.bind, Cursor.position] at h
  cases hf : PARSE_FIELD c INVALID_INDEX with
  | error e => rw [hf] at h; simp at h
  | ok v =>
    obtain ⟨f0, c1⟩ := v
    rw [hf] at h
    simp only at h
    obtain ⟨hb1, hinv, hhead⟩ := PARSE_FIELD_inv hf
    obtain ⟨hb2, e1, e2, e3, e4, more, e5, e6⟩ := PARSE_RECORD_loop_inv _ _ _ _ _ _ h
    have hb3 : c'.buffer_ = c.buffer_ := by
      rw [hb2]
      split <;> simp [Cursor.advance, hb1]
    refine ⟨hb3, e1, e2, ⟨e3, e4, f0, more, by simpa using e5, hinv, e6⟩, ?_⟩
    intro g b hg hb
    rw [e5] at hg
    simp only [List.singleton_append, List.head?_cons, Option.some.injEq] at hg
    subst hg
    exact hhead b hb

theorem be_or_eq_add (a0 a1 a2 a3 : Nat) (h1 : a1 < 256) (h2 : a2 < 256) (h3 : a3 < 256) :
    (a0 <<< 24) ||| (a1 <<< 16) ||| (a2 <<< 8) ||| a3 =
      a0 * 2 ^ 24 + a1 * 2 ^ 16 + a2 * 2 ^ 8 + a3 := by
  simp only [Nat.shiftLeft_eq]
  have e1 : a0 * 2 ^ 24 ||| a1 * 2 ^ 16 = a0 * 2 ^ 24 + a1 * 2 ^ 16 := by
    rw [Nat.mul_comm a0]
    exact (Nat.mul_add_lt_is_or (by omega) a0).symm
  have e2 : (a0 * 2 ^ 24 + a1 * 2 ^ 16) ||| a2 * 2 ^ 8 = a0 * 2 ^ 24 + a1 * 2 ^ 16 + a2 * 2 ^ 8 := by
    have : a0 * 2 ^ 24 + a1 * 2 ^ 16 = 2 ^ 16 * (a0 * 2 ^ 8 + a1) := by ring
    rw [this]
    exact (Nat.mul_add_lt_is_or (by omega) _).symm
  have e3 : (a0 * 2 ^ 24 + a1 * 2 ^ 16 + a2 * 2 ^ 8) ||| a3 =
      a0 * 2 ^ 24 + a1 * 2 ^ 16 + a2 * 2 ^ 8 + a3 := by
    have : a0 * 2 ^ 24 + a1 * 2 ^ 16 + a2 * 2 ^ 8 = 2 ^ 8 * (a0 * 2 ^ 16 + a1 * 2 ^ 8 + a2) := by ring
    rw [this]
    exact (Nat.mul_add_lt_is_or (by omega) _).symm
  rw [e1, e2, e3]

theorem READ_BE_U32_eq (b0 b1 b2 b3 : UInt8) (t : List UInt8) :
    READ_BE_U32 (b0 :: b1 :: b2 :: b3 :: t) =
      b0.toNat * 2 ^ 24 + b1.toNat * 2 ^ 16 + b2.toNat * 2 ^ 8 + b3.toNat := by
  simp only [READ_BE_U32, SHIFT_24, SHIFT_16, SHIFT_8]
  exact be_or_eq_add _ _ _ _ (UInt8.toNat_lt b1) (UInt8.toNat_lt b2) (UInt8.toNat_lt b3)

theorem READ_BE_U32_lt (l : List UInt8) : READ_BE_U32 l < U32_MOD := by
  match l with
  | [] | [_] | [_, _] | [_, _, _] => simp [READ_BE_U32, U32_MOD]
  | b0 :: b1 :: b2 :: b3 :: t =>
    rw [READ_BE_U32_eq]
    have h0 := UInt8.toNat_lt b0
    have h1 := UInt8.toNat_lt b1
    have h2 := UInt8.toNat_lt b2
    have h3 := UInt8.toNat_lt b3
    simp only [U32_MOD]
    omega

theorem uint8_toNat_ofNat (n : Nat) : (UInt8.ofNat n).toNat = n % 256 := by
  simp [UInt8.toNat, UInt8.ofNat, Fin.ofNat]

theorem uint8_ofNat_toNat (b : UInt8) : UInt8.ofNat b.toNat = b := by
  apply UInt8.ext
  rw [uint8_toNat_ofNat]
  exact Nat.mod_eq_of_lt (UInt8.toNat_lt b)

/-- Writing the four length bytes of a record whose prefix already is its size changes
nothing. -/
theorem UPDATE_ALL_LENGTHS_record_binary {r : Record} (hbin : r.is_binary_record = true)
    (hlen : READ_BE_U32 r.raw_record = r.raw_record.length) (h4 : 4 ≤ r.raw_record.length) :
    UPDATE_ALL_LENGTHS_record r = .ok r := by
  have hlt := READ_BE_U32_lt r.raw_record
  rw [hlen] at hlt
  have hmod : r.raw_record.length % U32_MOD = r.raw_record.length := Nat.mod_eq_of_lt hlt
  simp only [UPDATE_ALL_LENGTHS_record, hbin, if_true, hmod]
  have h4' : ¬ r.raw_record.length < 4 := by omega
  simp only [h4', if_false]
  match hr : r.raw_record, h4 with
  | b0 :: b1 :: b2 :: b3 :: t, _ =>
    rw [hr] at hlen
    rw [READ_BE_U32_eq] at hlen
    have h0 := UInt8.toNat_lt b0
    have h1 := UInt8.toNat_lt b1
    have h2 := UInt8.toNat_lt b2
    have h3 := UInt8.toNat_lt b3
    have e0 : ((b0 :: b1 :: b2 :: b3 :: t).length >>> SHIFT_24) &&& BYTE_MASK = b0.toNat := by
      rw [← hlen, Nat.shiftRight_eq_div_pow]
      have : BYTE_MASK = 2 ^ 8 - 1 := by decide
      rw [this, Nat.and_pow_two_sub_one_eq_mod]
      simp only [SHIFT_24]
      omega
    have e1 : ((b0 :: b1 :: b2 :: b3 :: t).length >>> SHIFT_16) &&& BYTE_MASK = b1.toNat := by
      rw [← hlen, Nat.shiftRight_eq_div_pow]
      have : BYTE_MASK = 2 ^ 8 - 1 := by decide
      rw [this, Nat.and_pow_two_sub_one_eq_mod]
      simp only [SHIFT_16]
      omega
    have e2 : ((b0 :: b1 :: b2 :: b3 :: t).length >>> SHIFT_8) &&& BYTE_MASK = b2.toNat := by
      rw [← hlen, Nat.shiftRight_eq_div_pow]
      have : BYTE_MASK = 2 ^ 8 - 1 := by decide
      rw [this, Nat.and_pow_two_sub_one_eq_mod]
      simp only [SHIFT_8]
      omega
    have e3 : (b0 :: b1 :: b2 :: b3 :: t).length &&& BYTE_MASK = b3.toNat := by
      rw [← hlen]
      have : BYTE_MASK = 2 ^ 8 - 1 := by decide
      rw [this, Nat.and_pow_two_sub_one_eq_mod]
      omega
    rw [e0, e1, e2, e3]
    simp only [uint8_ofNat_toNat, List.set_cons_zero, List.set_cons_succ]
    rw [← hr, ← hbin]

theorem PARSE_BINARY_RECORD_BY_LEN_inv {c c' : Cursor} {t : Int} {r : Record}
    (h : PARSE_BINARY_RECORD_BY_LEN c t = .ok (r, c')) :
    c'.buffer_ = c.buffer_ ∧ r.type = t ∧ r.is_binary_record = true ∧ r.fields = [] ∧
      READ_BE_U32 r.raw_record = r.raw_record.length ∧ 8 ≤ r.raw_record.length ∧
      r.raw_record = (c.buffer_.drop c.position_).take r.raw_record.length ∧
      c.position_ + r.raw_record.length ≤ c.buffer_.length ∧
      c'.position_ = c.position_ + r.raw_record.length ∧
      r.idc = (match r.raw_record[4]? with
        | some b => (b.toNat : Int)
        | none => -1) := by
  simp only [PARSE_BINARY_RECORD_BY_LEN, bind, Except.bind, Cursor.position] at h
  split at h
  · simp [throw, throwThe, MonadExceptOf.throw] at h
  · simp only [pure, Except.pure] at h
    cases hs4 : c.slice c.position_ (c.position_ + 4) with
    | error e => rw [hs4] at h; simp at h
    | ok pre =>
      rw [hs4] at h
      simp only at h
      split at h
      · simp [throw, throwThe, MonadExceptOf.throw] at h
      · rename_i hlen
        cases hs : (c.advance (READ_BE_U32 pre)).slice c.position_
            (c.position_ + READ_BE_U32 pre) with
        | error e => rw [hs] at h; simp at h
        | ok bytes =>
          rw [hs] at h
          simp only [Except.ok.injEq, Prod.mk.injEq] at h
          obtain ⟨h1, h2⟩ := h
          subst h1 h2
          have hlt4 : 4 < INVALID_INDEX := by decide
          have hltL : READ_BE_U32 pre < INVALID_INDEX :=
            Nat.lt_trans (READ_BE_U32_lt pre) (by decide)
          obtain ⟨hb4, hs4⟩ := Cursor.slice_forward hlt4 hs4
          obtain ⟨hb, hs⟩ := Cursor.slice_forward hltL hs
          simp only [Cursor.advance] at hs hb
          subst hs4
          have hlen8 : 8 ≤ READ_BE_U32 ((c.buffer_.drop c.position_).take 4) := by
            simp only [MIN_BINARY_RECORD_SIZE] at hlen
            omega
          have hdl : (c.buffer_.drop c.position_).length = c.buffer_.length - c.position_ := by
            simp
          have hlenb : bytes.length = READ_BE_U32 ((c.buffer_.drop c.position_).take 4) := by
            rw [hs, List.length_take, hdl]
            omega
          have hpre : (c.buffer_.drop c.position_).take 4 = bytes.take 4 := by
            rw [hs, List.take_take, Nat.min_eq_left (by omega)]
          refine ⟨rfl, rfl, rfl, rfl, ?_, by simp only; omega, ?_, by simp only; omega,
            by simp only [Cursor.advance, hlenb], rfl⟩
          · simp only
            rw [← READ_BE_U32_take bytes (by omega), ← hpre, hlenb]
          · simp only
            rw [hlenb]; exact hs

theorem SKIP_SEPARATORS_post (c : Cursor) :
    (SKIP_SEPARATORS c).buffer_ = c.buffer_ ∧
      ((SKIP_SEPARATORS c).done = true ∨
        ((SKIP_SEPARATORS c).peek ≠ FS ∧ (SKIP_SEPARATORS c).peek ≠ GS)) := by
  refine ⟨rfl, ?_⟩
  by_cases hd : (SKIP_SEPARATORS c).done = true
  · exact Or.inl hd
  · right
    have hpos : (SKIP_SEPARATORS c).position_ =
        c.position_ + ((c.buffer_.drop c.position_).takeWhile (fun b => b == FS || b == GS)).length := by
      simp [SKIP_SEPARATORS, Cursor.advance_while, scan_from_takeWhile]
    have hdrop : (SKIP_SEPARATORS c).buffer_.drop (SKIP_SEPARATORS c).position_ =
        (c.buffer_.drop c.position_).dropWhile (fun b => b == FS || b == GS) := by
      rw [hpos, ← drop_takeWhile_length, List.drop_drop]
      rfl
    have hlt : (SKIP_SEPARATORS c).position_ < (SKIP_SEPARATORS c).buffer_.length := by
      simpa [Cursor.done, Cursor.size] using hd
    cases hl : (c.buffer_.drop c.position_).dropWhile (fun b => b == FS || b == GS) with
    | nil =>
      rw [hl] at hdrop
      have := congrArg List.length hdrop
      simp at this
      omega
    | cons b t =>
      rw [hl] at hdrop
      have hs : (SKIP_SEPARATORS c).Sees (b :: t) := ⟨by omega, hdrop⟩
      rw [hs.peek.2]
      have hb : (b == FS || b == GS) = false := by
        have := List.head_dropWhile_not (fun b => b == FS || b == GS) (c.buffer_.drop c.position_)
          (by rw [hl]; simp)
        simpa [hl] using this
      simp only [Bool.or_eq_false_iff, beq_eq_false_iff_ne] at hb
      exact hb

theorem PARSE_FILE_loop_inv (plan : List (Int × Int)) :
    ∀ (c : Cursor) (file F : File), PARSE_FILE_loop plan c file = .ok F →
      (c.done = true ∨ (c.peek ≠ FS ∧ c.peek ≠ GS)) →
      ∃ news tail, F.records = file.records ++ news ∧
        plan = news.map (fun r => (r.type, r.idc)) ++ tail ∧
        ∀ r ∈ news, parsed_record_inv r := by
  induction plan with
  | nil =>
    intro c file F h _
    simp only [PARSE_FILE_loop, pure, Except.pure, Except.ok.injEq] at h
    subst h
    exact ⟨[], [], by simp, by simp, by simp⟩
  | cons p plan ih =>
    intro c file F h hc
    obtain ⟨t, i⟩ := p
    rw [PARSE_FILE_loop] at h
    by_cases hrem : c.remaining < 4
    · simp only [hrem, if_true, pure, Except.pure, Except.ok.injEq] at h
      subst h
      exact ⟨[], (t, i) :: plan, by simp, by simp, by simp⟩
    · simp only [hrem, if_false, bind, Except.bind] at h
      by_cases hleg : IS_LEGACY_BINARY_TYPE t = true
      · simp only [hleg, if_true] at h
        cases hb : PARSE_BINARY_RECORD_BY_LEN c t with
        | error e => rw [hb] at h; simp at h
        | ok v =>
          obtain ⟨r, c1⟩ := v
          rw [hb] at h
          simp only at h
          obtain ⟨hb1, e1, e2, e3, e4, e5, e6, e7, e8, e9⟩ := PARSE_BINARY_RECORD_BY_LEN_inv hb
          obtain ⟨news, tail, h1, h2, h3⟩ := ih _ _ _ h (SKIP_SEPARATORS_post c1).2
          refine ⟨_ :: news, tail, by simpa using h1, by simp [h2], ?_⟩
          intro x hx
          simp only [List.mem_cons] at hx
          rcases hx with hx | hx
          · subst hx
            refine ⟨by simp [e2, hleg], fun _ => ⟨e3, e4, e5, ?_⟩, fun hc' => by simp [e2] at hc'⟩
            have hs : c.Sees (c.buffer_.drop c.position_) := ⟨by omega, rfl⟩
            cases hl : c.buffer_.drop c.position_ with
            | nil =>
              have := congrArg List.length hl
              simp at this
              omega
            | cons b0 t0 =>
              rw [hl] at hs e6
              have hp := hs.peek
              have hraw : r.raw_record.head? = some b0 := by
                rw [e6]
                cases hn : r.raw_record.length with
                | zero => omega
                | succ n => simp
              rcases hc with hc | hc
              · rw [hp.1] at hc; simp at hc
              · rw [hp.2] at hc
                simp only [starts_clean, hraw]
                exact ⟨fun hh => hc.1 (by simpa using hh), fun hh => hc.2 (by simpa using hh)⟩
          · exact h3 x hx
      · simp only [hleg, Bool.false_eq_true, if_false] at h
        cases hb : PARSE_RECORD c with
        | error e => rw [hb] at h; simp at h
        | ok v =>
          obtain ⟨r, c1⟩ := v
          rw [hb] at h
          simp only [pure, Except.pure] at h
          obtain ⟨hb1, e1, e2, e3, e4⟩ := PARSE_RECORD_inv hb
          obtain ⟨news, tail, h1, h2, h3⟩ := ih _ _ _ h (SKIP_SEPARATORS_post _).2
          refine ⟨_ :: news, tail, by simpa using h1, by simp [h2], ?_⟩
          intro x hx
          simp only [List.mem_cons] at hx
          rcases hx with hx | hx
          · subst hx
            refine ⟨by simp [e3.1, hleg], fun hc' => by simp [e3.1] at hc', fun _ => ⟨e3, ?_⟩⟩
            intro f0 hf0
            simp only [starts_clean]
            constructor
            · intro hh
              have := e4 f0 FS hf0 hh
              rcases hc with hc | hc
              · rw [this.1] at hc; simp at hc
              · exact hc.1 this.2
            · intro hh
              have := e4 f0 GS hf0 hh
              rcases hc with hc | hc
              · rw [this.1] at hc; simp at hc
              · exact hc.2 this.2
          · exact h3 x hx

/-- The shape of every file `PARSE_FILE` returns. -/
theorem PARSE_FILE_inv {x : List UInt8} {F : File} (h : PARSE_FILE x = .ok F) :
    ∃ t1 rs plan tail, F.records = t1 :: rs ∧ t1.type = 1 ∧ t1.idc = -1 ∧
      parsed_tagged_inv t1 ∧ PARSE_CNT_PLAN t1 = .ok plan ∧
      plan = rs.map (fun r => (r.type, r.idc)) ++ tail ∧
      ∀ r ∈ rs, parsed_record_inv r := by
  simp only [PARSE_FILE, bind, Except.bind, Cursor.position] at h
  cases hr : PARSE_RECORD { buffer_ := x } with
  | error e => rw [hr] at h; simp at h
  | ok v =>
    obtain ⟨r, c1⟩ := v
    rw [hr] at h
    simp only at h
    obtain ⟨hb1, e1, e2, e3, e4⟩ := PARSE_RECORD_inv hr
    cases hp : PARSE_CNT_PLAN { r with type := 1, idc := -1 } with
    | error e => rw [hp] at h; simp at h
    | ok plan =>
      rw [hp] at h
      simp only at h
      obtain ⟨news, tail, h1, h2, h3⟩ := PARSE_FILE_loop_inv _ _ _ _ h (SKIP_SEPARATORS_post _).2
      exact ⟨{ r with type := 1, idc := -1 }, news, plan, tail, by simpa using h1, rfl, rfl,
        e3, hp, h2, h3⟩

theorem to_string_loop_suffix (fuel : Nat) : ∀ (n : Nat) (acc : List UInt8),
    ∃ pre, to_string_loop fuel n acc = pre ++ acc ∧
      ∀ b ∈ pre, ∃ k, k < 10 ∧ b = UInt8.ofNat (48 + k) := by
  induction fuel with
  | zero => intro n acc; exact ⟨[], by simp [to_string_loop], by simp⟩
  | succ fuel ih =>
    intro n acc
    simp only [to_string_loop]
    split
    · exact ⟨[UInt8.ofNat (48 + n % 10)], by simp, by
        intro b hb
        simp only [List.mem_singleton] at hb
        exact ⟨n % 10, Nat.mod_lt _ (by decide), hb⟩⟩
    · obtain ⟨pre, h1, h2⟩ := ih (n / 10) (UInt8.ofNat (48 + n % 10) :: acc)
      refine ⟨pre ++ [UInt8.ofNat (48 + n % 10)], by simp [h1], ?_⟩
      intro b hb
      simp only [List.mem_append, List.mem_singleton] at hb
      rcases hb with hb | hb
      · exact h2 b hb
      · exact ⟨n % 10, Nat.mod_lt _ (by decide), hb⟩

theorem to_string_ne_nil (n : Nat) : to_string n ≠ [] := by
  simp only [to_string, to_string_loop]
  split
  · simp
  · obtain ⟨pre, h1, _⟩ := to_string_loop_suffix n (n / 10) [UInt8.ofNat (48 + n % 10)]
    rw [h1]
    simp

theorem UPDATE_ALL_LENGTHS_loop_forall (rs : List Record) :
    ∀ rs', UPDATE_ALL_LENGTHS_loop rs = .ok rs' →
      List.Forall₂ (fun r r' => UPDATE_ALL_LENGTHS_record r = .ok r') rs rs' := by
  induction rs with
  | nil =>
    intro rs' h
    simp only [UPDATE_ALL_LENGTHS_loop, pure, Except.pure, Except.ok.injEq] at h
    subst h
    exact List.Forall₂.nil
  | cons r rest ih =>
    intro rs' h
    simp only [UPDATE_ALL_LENGTHS_loop, bind, Except.bind] at h
    cases h1 : UPDATE_ALL_LENGTHS_record r with
    | error e => rw [h1] at h; simp at h
    | ok r' =>
      rw [h1] at h
      simp only at h
      cases h2 : UPDATE_ALL_LENGTHS_loop rest with
      | error e => rw [h2] at h; simp at h
      | ok rest' =>
        rw [h2] at h
        simp only [pure, Except.pure, Except.ok.injEq] at h
        subst h
        exact List.Forall₂.cons h1 (ih _ h2)

theorem not_999_of_len_tag {t : List UInt8}
    (h : ends_with t (ascii ".001") = true ∨ ends_with t (ascii ".01") = true) :
    ends_with t (ascii ".999") = false := by
  cases h999 : ends_with t (ascii ".999") with
  | false => rfl
  | true =>
    exfalso
    simp only [ends_with, List.isSuffixOf_iff_suffix] at h h999
    obtain ⟨q, hq⟩ := h999
    rcases h with ⟨p, hp⟩ | ⟨p, hp⟩
    · have := List.append_inj_right' (hp.trans hq.symm) (by decide)
      exact absurd this (by decide)
    · have e : q ++ ascii ".999" = (q ++ [46]) ++ ascii "999" := by
        simp [ascii]
      have := List.append_inj_right' (hp.trans (hq.symm.trans e)) (by decide)
      exact absurd this (by decide)

theorem forall₂_mem_right {α β : Type} {R : α → β → Prop} {l : List α} {l' : List β}
    (h : List.Forall₂ R l l') : ∀ b ∈ l', ∃ a ∈ l, R a b := by
  induction h with
  | nil => intro b hb; simp at hb
  | cons hab _ ih =>
    intro b hb
    simp only [List.mem_cons] at hb
    rcases hb with hb | hb
    · subst hb; exact ⟨_, List.mem_cons_self _ _, hab⟩
    · obtain ⟨a, ha, hr⟩ := ih b hb
      exact ⟨a, List.mem_cons_of_mem _ ha, hr⟩

theorem forall₂_getElem? {α β : Type} {R : α → β → Prop} {l : List α} {l' : List β}
    (h : List.Forall₂ R l l') :
    ∀ (i : Nat) (a : α) (b : β), l[i]? = some a → l'[i]? = some b → R a b := by
  induction h with
  | nil => intro i a b ha; simp at ha
  | cons hab _ ih =>
    intro i a b ha hb
    cases i with
    | zero =>
      simp only [List.getElem?_cons_zero, Option.some.injEq] at ha hb
      subst ha hb
      exact hab
    | succ i =>
      simp only [List.getElem?_cons_succ] at ha hb
      exact ih i a b ha hb

theorem parsed_record_kind {x : List UInt8} {F : File} (h : PARSE_FILE x = .ok F) :
    ∀ r ∈ F.records,
      r.is_binary_record = IS_LEGACY_BINARY_TYPE r.type ∧
        (r.is_binary_record = true →
          r.fields = [] ∧ READ_BE_U32 r.raw_record = r.raw_record.length ∧
            8 ≤ r.raw_record.length) ∧
        (r.is_binary_record = false → r.raw_record = []) := by
  obtain ⟨t1, rs, plan, tail, hF, ht, hi, hinv1, hplan, hpl, hrs⟩ := PARSE_FILE_inv h
  intro r hr
  rw [hF] at hr
  simp only [List.mem_cons] at hr
  rcases hr with hr | hr
  · subst hr
    refine ⟨by rw [hinv1.1, ht]; rfl, fun hb => ?_, fun _ => hinv1.2.1⟩
    rw [hinv1.1] at hb
    exact absurd hb (by decide)
  · obtain ⟨hk, hb, htg⟩ := hrs r hr
    exact ⟨hk, fun h1 => ⟨(hb h1).1, (hb h1).2.1, (hb h1).2.2.1⟩, fun h1 => (htg h1).1.2.1⟩

theorem UPDATE_ALL_LENGTHS_loop_ok (rs : List Record)
    (h : ∀ r ∈ rs, r.is_binary_record = true → 4 ≤ r.raw_record.length) :
    ∃ rs', UPDATE_ALL_LENGTHS_loop rs = .ok rs' := by
  induction rs with
  | nil => exact ⟨[], rfl⟩
  | cons r rest ih =>
    obtain ⟨rest', hrest⟩ := ih (fun x hx => h x (List.mem_cons_of_mem _ hx))
    have hr : ∃ r', UPDATE_ALL_LENGTHS_record r = .ok r' := by
      unfold UPDATE_ALL_LENGTHS_record
      split
      · rename_i hb
        have := h r (List.mem_cons_self _ _) hb
        rw [if_neg (by omega)]
        exact ⟨_, rfl⟩
      · split
        · exact ⟨_, rfl⟩
        · exact ⟨_, rfl⟩
    obtain ⟨r', hr'⟩ := hr
    exact ⟨r' :: rest', by
      simp [UPDATE_ALL_LENGTHS_loop, bind, Except.bind, hr', hrest, pure, Except.pure]⟩

theorem records_bytes_mem {r : Record} {rs : List Record} (h : r ∈ rs) :
    ∃ pre post, records_bytes rs = pre ++ record_bytes r ++ post := by
  induction rs with
  | nil => simp at h
  | cons a rest ih =>
    rw [records_bytes_cons]
    simp only [List.mem_cons] at h
    rcases h with h | h
    · subst h
      exact ⟨[], records_bytes rest, by simp⟩
    · obtain ⟨pre, post, hpp⟩ := ih h
      exact ⟨record_bytes a ++ pre, post, by rw [hpp]; simp⟩

theorem forall₂_mem_left {α β : Type} {R : α → β → Prop} {l : List α} {l' : List β}
    (h : List.Forall₂ R l l') : ∀ a ∈ l, ∃ b ∈ l', R a b := by
  induction h with
  | nil => intro a ha; simp at ha
  | cons hab _ ih =>
    intro a ha
    simp only [List.mem_cons] at ha
    rcases ha with ha | ha
    · subst ha; exact ⟨_, List.mem_cons_self _ _, hab⟩
    · obtain ⟨b, hb, hr⟩ := ih a ha
      exact ⟨b, List.mem_cons_of_mem _ hb, hr⟩

theorem forall₂_imp_mem {α β : Type} {R S : α → β → Prop} {l : List α} {l' : List β}
    (h : List.Forall₂ R l l') (hrs : ∀ a b, a ∈ l → R a b → S a b) : List.Forall₂ S l l' := by
  induction h with
  | nil => exact List.Forall₂.nil
  | cons hab _ ih =>
    exact List.Forall₂.cons (hrs _ _ (List.mem_cons_self _ _) hab)
      (ih (fun a b ha => hrs a b (List.mem_cons_of_mem _ ha)))

/-! ### The fuel of the loops is enough -/

theorem Cursor.Follows.trans {a b c : Cursor} (h1 : a.Follows b) (h2 : b.Follows c) :
    a.Follows c := by
  obtain ⟨e1, e2, e3⟩ := h1
  obtain ⟨f1, f2, f3⟩ := h2
  exact ⟨by rw [e1, f1], by omega, by rw [f1] at e3; exact e3⟩

theorem Cursor.Follows.refl {c : Cursor} (h : c.position_ ≤ c.buffer_.length) : c.Follows c :=
  ⟨rfl, Nat.le_refl _, h⟩

theorem Cursor.follows_advance {c : Cursor} (h : c.done = false) : c.advance.Follows c := by
  simp only [Cursor.done, Cursor.size, decide_eq_false_iff_not, not_le] at h
  exact ⟨rfl, by simp [Cursor.advance], by simp [Cursor.advance]; omega⟩

theorem TAKE_UNTIL_follows {c c' : Cursor} {d : UInt8} {bytes : List UInt8}
    (h : TAKE_UNTIL c d = .ok (bytes, c')) : c'.Follows c :=
  ⟨(TAKE_UNTIL_inv h).1, (TAKE_UNTIL_inv h).2.1, (TAKE_UNTIL_inv h).2.2.1⟩

theorem TAKE_UNTIL_position {c c' : Cursor} {d : UInt8} {bytes : List UInt8}
    (h : TAKE_UNTIL c d = .ok (bytes, c')) : c'.position_ = c.position_ + bytes.length := by
  simp only [TAKE_UNTIL, Cursor.position, bind, Except.bind] at h
  split at h
  · simp at h
  · rename_i v hv
    simp only [pure, Except.pure, Except.ok.injEq, Prod.mk.injEq] at h
    obtain ⟨h1, h2⟩ := h
    subst h1 h2
    exact (scan_slice hv).2.2.1

theorem PARSE_ITEM_follows {c c' : Cursor} {it : Item} (h : PARSE_ITEM c = .ok (it, c')) :
    c'.Follows c :=
  ⟨(PARSE_ITEM_inv h).1, (PARSE_ITEM_inv h).2.1, (PARSE_ITEM_inv h).2.2.1⟩

theorem PARSE_ITEM_error {c : Cursor} {e : Error} (h : PARSE_ITEM c = .error e) :
    e = .OutOfBounds := by
  simp only [PARSE_ITEM, bind, Except.bind] at h
  split at h
  · rename_i e' he
    simp only [Except.error.injEq] at h
    rw [← h]
    exact Cursor.slice_error he
  · simp [pure, Except.pure] at h

theorem TAKE_UNTIL_error {c : Cursor} {d : UInt8} {e : Error} (h : TAKE_UNTIL c d = .error e) :
    e = .OutOfBounds := by
  simp only [TAKE_UNTIL, bind, Except.bind] at h
  split at h
  · rename_i e' he
    simp only [Except.error.injEq] at h
    rw [← h]
    exact Cursor.slice_error he
  · simp [pure, Except.pure] at h

/-- The subfield loop with fuel above the number of bytes left: it does not run out of fuel,
and the cursor it returns follows the cursor it started from. -/
theorem PARSE_SUBFIELD_loop_fuel (fuel : Nat) :
    ∀ (c : Cursor) (acc : Subfield), c.position_ ≤ c.buffer_.length →
      c.buffer_.length - c.position_ < fuel →
      PARSE_SUBFIELD_loop fuel c acc ≠ .error .OutOfFuel ∧
        ∀ sf c', PARSE_SUBFIELD_loop fuel c acc = .ok (sf, c') → c'.Follows c := by
  induction fuel with
  | zero => intro c acc _ h; omega
  | succ fuel ih =>
    intro c acc hpos hfuel
    rw [PARSE_SUBFIELD_loop]
    by_cases hdone : c.done = true
    · simp only [hdone, if_true, pure, Except.pure]
      refine ⟨by simp, ?_⟩
      intro sf c' h
      simp only [Except.ok.injEq, Prod.mk.injEq] at h
      rw [← h.2]
      exact Cursor.Follows.refl hpos
    · simp only [hdone, Bool.false_eq_true, if_false, bind, Except.bind]
      cases hit : PARSE_ITEM c with
      | error e =>
        simp only
        rw [PARSE_ITEM_error hit]
        exact ⟨by simp, by intro sf c' h; simp at h⟩
      | ok v =>
        obtain ⟨it, c1⟩ := v
        simp only
        have hf1 := PARSE_ITEM_follows hit
        by_cases hd1 : c1.done = true
        · simp only [hd1, if_true, pure, Except.pure]
          refine ⟨by simp, ?_⟩
          intro sf c' h
          simp only [Except.ok.injEq, Prod.mk.injEq] at h
          rw [← h.2]
          exact hf1
        · simp only [hd1, Bool.false_eq_true, if_false]
          by_cases hus : (c1.peek == US) = true
          · simp only [hus, if_true]
            have hf2 := (Cursor.follows_advance (by simpa using hd1)).trans hf1
            have hadv : c1.advance.position_ = c1.position_ + 1 := rfl
            obtain ⟨i1, i2⟩ := ih c1.advance { items := acc.items ++ [it] }
              (by rw [hf2.1]; exact hf2.2.2)
              (by rw [hf2.1, hadv]; have := hf1.2.1; have := hf2.2.2; omega)
            exact ⟨i1, fun sf c' h => (i2 sf c' h).trans hf2⟩
          · simp only [hus, Bool.false_eq_true, if_false, pure, Except.pure]
            refine ⟨by simp, ?_⟩
            intro sf c' h
            simp only [Except.ok.injEq, Prod.mk.injEq] at h
            rw [← h.2]
            exact hf1

theorem PARSE_SUBFIELD_fuel (c : Cursor) (hpos : c.position_ ≤ c.buffer_.length) :
    PARSE_SUBFIELD c ≠ .error .OutOfFuel ∧
      ∀ sf c', PARSE_SUBFIELD c = .ok (sf, c') → c'.Follows c :=
  PARSE_SUBFIELD_loop_fuel (c.size + 1) c {} hpos (by simp only [Cursor.size]; omega)

/-- The text-field loop with fuel above the number of bytes left: it does not run out of
fuel, and the cursor it returns follows the cursor it started from. -/
theorem PARSE_TEXT_FIELD_loop_fuel (fuel : Nat) :
    ∀ (c : Cursor) (acc : Field), c.position_ ≤ c.buffer_.length →
      c.buffer_.length - c.position_ < fuel →
      PARSE_TEXT_FIELD_loop fuel c acc ≠ .error .OutOfFuel ∧
        ∀ f c', PARSE_TEXT_FIELD_loop fuel c acc = .ok (f, c') → c'.Follows c := by
  induction fuel with
  | zero => intro c acc _ h; omega
  | succ fuel ih =>
    intro c acc hpos hfuel
    rw [PARSE_TEXT_FIELD_loop]
    by_cases hcond : (!c.done && c.peek != GS && c.peek != FS) = true
    · rw [if_pos hcond]
      simp only [bind, Except.bind]
      obtain ⟨hs1, hs2⟩ := PARSE_SUBFIELD_fuel c hpos
      cases hsf : PARSE_SUBFIELD c with
      | error e =>
        simp only
        refine ⟨?_, by intro f c' h; simp at h⟩
        intro hc
        simp only [Except.error.injEq] at hc
        rw [hc] at hsf
        exact hs1 hsf
      | ok v =>
        obtain ⟨sf, c1⟩ := v
        simp only
        have hf1 := hs2 sf c1 hsf
        by_cases hrs : (!c1.done && c1.peek == RS) = true
        · rw [if_pos hrs]
          have hd1 : c1.done = false := by
            simp only [Bool.and_eq_true, Bool.not_eq_true'] at hrs
            exact hrs.1
          have hf2 := (Cursor.follows_advance hd1).trans hf1
          have hadv : c1.advance.position_ = c1.position_ + 1 := rfl
          obtain ⟨i1, i2⟩ := ih c1.advance { acc with subfields := acc.subfields ++ [sf] }
            (by rw [hf2.1]; exact hf2.2.2)
            (by rw [hf2.1, hadv]; have := hf1.2.1; have := hf2.2.2; omega)
          exact ⟨i1, fun f c' h => (i2 f c' h).trans hf2⟩
        · rw [if_neg hrs]
          simp only [pure, Except.pure]
          refine ⟨by simp, ?_⟩
          intro f c' h
          simp only [Except.ok.injEq, Prod.mk.injEq] at h
          rw [← h.2]
          exact hf1
    · rw [if_neg hcond]
      simp only [pure, Except.pure]
      refine ⟨by simp, ?_⟩
      intro f c' h
      simp only [Except.ok.injEq, Prod.mk.injEq] at h
      rw [← h.2]
      exact Cursor.Follows.refl hpos

theorem PARSE_TEXT_FIELD_fuel (c : Cursor) (hpos : c.position_ ≤ c.buffer_.length) :
    PARSE_TEXT_FIELD c ≠ .error .OutOfFuel ∧
      ∀ f c', PARSE_TEXT_FIELD c = .ok (f, c') → c'.Follows c :=
  PARSE_TEXT_FIELD_loop_fuel (c.size + 1) c {} hpos (by simp only [Cursor.size]; omega)

theorem Cursor.at_error {c : Cursor} {i : Nat} {e : Error} (h : c.at i = .error e) :
    e = .OutOfBounds := by
  simp only [Cursor.at] at h
  split at h
  · simp at h
  · simp only [Except.error.injEq] at h
    exact h.symm

theorem PARSE_BINARY_FIELD_strip_error {c : Cursor} {s e : Nat} {sep : UInt8} {err : Error}
    (h : PARSE_BINARY_FIELD_strip c s e sep = .error err) : err = .OutOfBounds := by
  simp only [PARSE_BINARY_FIELD_strip, bind, Except.bind, pure, Except.pure] at h
  split at h
  · split at h
    · rename_i e' he
      simp only [Except.error.injEq] at h
      rw [← h]
      exact Cursor.at_error he
    · simp at h
  · simp at h

theorem PARSE_BINARY_FIELD_strip_ok {c : Cursor} {s e v : Nat} {sep : UInt8}
    (h : PARSE_BINARY_FIELD_strip c s e sep = .ok v) :
    v ≤ e ∧ (s < e → e ≤ c.buffer_.length ∧ s ≤ v) ∧ (e ≤ s → v = e) := by
  simp only [PARSE_BINARY_FIELD_strip, bind, Except.bind, pure, Except.pure] at h
  split at h
  · rename_i hgt
    split at h
    · simp at h
    · rename_i b hb
      simp only [Except.ok.injEq] at h
      have hlt : e - 1 < c.buffer_.length := by
        simp only [Cursor.at] at hb
        split at hb
        · rename_i b' hb'
          exact (List.getElem?_eq_some_iff.mp hb').1
        · simp at hb
      split at h <;> omega
  · simp only [Except.ok.injEq] at h
    omega

/-- The binary field: its only error is the access outside the buffer. The cursor it returns
reads the same buffer and either follows the cursor it started from or stands one byte before
it: that is the call whose end is one byte before its start, where the slice is the rest of
the buffer. -/
theorem PARSE_BINARY_FIELD_fuel (c : Cursor) (record_end : Nat) :
    (∀ e, PARSE_BINARY_FIELD c record_end = .error e → e = .OutOfBounds) ∧
      ∀ f c', PARSE_BINARY_FIELD c record_end = .ok (f, c') →
        c'.Follows c ∨ (c'.buffer_ = c.buffer_ ∧ c'.position_ + 1 = c.position_ ∧
          c.position_ ≤ c.buffer_.length) := by
  simp only [PARSE_BINARY_FIELD, bind, Except.bind, Cursor.position, pure, Except.pure]
  by_cases he : record_end = INVALID_INDEX
  · simp only [he, if_true]
    cases hs : (c.advance_while fun b => b != FS).slice c.position_
        (c.advance_while fun b => b != FS).position_ with
    | error e =>
      simp only
      exact ⟨fun e' h => by simp only [Except.error.injEq] at h; rw [← h]; exact Cursor.slice_error hs,
        by intro f c' h; simp at h⟩
    | ok bytes =>
      simp only
      refine ⟨by intro e h; simp at h, ?_⟩
      intro f c' h
      simp only [Except.ok.injEq, Prod.mk.injEq] at h
      rw [← h.2]
      obtain ⟨h1, _, h3, h4⟩ := scan_slice hs
      exact Or.inl ⟨rfl, by omega, h4⟩
  · simp only [he, if_false]
    cases hs1 : PARSE_BINARY_FIELD_strip c c.position_ record_end FS with
    | error e =>
      simp only
      exact ⟨fun e' h => by
        simp only [Except.error.injEq] at h; rw [← h]; exact PARSE_BINARY_FIELD_strip_error hs1,
        by intro f c' h; simp at h⟩
    | ok v1 =>
      simp only
      cases hs2 : PARSE_BINARY_FIELD_strip c c.position_ v1 GS with
      | error e =>
        simp only
        exact ⟨fun e' h => by
          simp only [Except.error.injEq] at h; rw [← h]; exact PARSE_BINARY_FIELD_strip_error hs2,
          by intro f c' h; simp at h⟩
      | ok v2 =>
        simp only
        cases hs : (c.seek v2).slice c.position_ v2 with
        | error e =>
          simp only
          exact ⟨fun e' h => by
            simp only [Except.error.injEq] at h; rw [← h]; exact Cursor.slice_error hs,
            by intro f c' h; simp at h⟩
        | ok bytes =>
          simp only
          refine ⟨by intro e h; simp at h, ?_⟩
          intro f c' h
          simp only [Except.ok.injEq, Prod.mk.injEq] at h
          rw [← h.2]
          obtain ⟨a1, a2, a3⟩ := PARSE_BINARY_FIELD_strip_ok hs1
          obtain ⟨b1, b2, b3⟩ := PARSE_BINARY_FIELD_strip_ok hs2
          by_cases hlt : v2 < c.position_
          · obtain ⟨k1, k2, _⟩ := Cursor.slice_backward hlt hs
            exact Or.inr ⟨rfl, k1, k2⟩
          · left
            refine ⟨rfl, by simp only [Cursor.seek]; omega, ?_⟩
            simp only [Cursor.seek]
            by_cases hgt : c.position_ < v1
            · have := (b2 hgt).1
              omega
            · have hv : v2 = v1 := b3 (by omega)
              rcases Cursor.slice_ok hs with ⟨_, k2, _⟩ | ⟨k1, k2, _⟩
              · exact k2
              · simp only [Cursor.seek] at k2
                omega

/-- A field: it does not run out of fuel, and the cursor it returns follows the cursor it
started from. -/
theorem PARSE_FIELD_fuel (c : Cursor) (record_end : Nat) :
    PARSE_FIELD c record_end ≠ .error .OutOfFuel ∧
      ∀ f c', PARSE_FIELD c record_end = .ok (f, c') → c'.Follows c := by
  simp only [PARSE_FIELD, bind, Except.bind]
  cases ht : TAKE_UNTIL c COLON with
  | error e =>
    simp only
    rw [TAKE_UNTIL_error ht]
    exact ⟨by simp, by intro f c' h; simp at h⟩
  | ok v =>
    obtain ⟨tag, c1⟩ := v
    simp only
    have hf1 := TAKE_UNTIL_follows ht
    have hp1 := TAKE_UNTIL_position ht
    have hf2 : (if (!c1.done && c1.peek == COLON) = true then c1.advance else c1).Follows c ∧
        c1.position_ ≤
          (if (!c1.done && c1.peek == COLON) = true then c1.advance else c1).position_ := by
      split
      · rename_i hc
        have hd1 : c1.done = false := by
          simp only [Bool.and_eq_true, Bool.not_eq_true'] at hc
          exact hc.1
        exact ⟨(Cursor.follows_advance hd1).trans hf1, by simp [Cursor.advance]⟩
      · exact ⟨hf1, Nat.le_refl _⟩
    generalize (if (!c1.done && c1.peek == COLON) = true then c1.advance else c1) = c2 at hf2
    obtain ⟨hf2, hp2⟩ := hf2
    have hpos2 : c2.position_ ≤ c2.buffer_.length := by rw [hf2.1]; exact hf2.2.2
    by_cases h999 : ends_with tag (ascii ".999") = true
    · rw [if_pos h999]
      obtain ⟨hb1, hb2⟩ := PARSE_BINARY_FIELD_fuel c2 record_end
      cases hb : PARSE_BINARY_FIELD c2 record_end with
      | error e =>
        simp only
        rw [hb1 e hb]
        exact ⟨by simp, by intro f c' h; simp at h⟩
      | ok v =>
        obtain ⟨parsed, c3⟩ := v
        simp only [pure, Except.pure]
        refine ⟨by simp, ?_⟩
        intro f c' h
        simp only [Except.ok.injEq, Prod.mk.injEq] at h
        rw [← h.2]
        rcases hb2 parsed c3 hb with hfw | ⟨k1, k2, k3⟩
        · exact hfw.trans hf2
        · refine ⟨k1.trans hf2.1, ?_, ?_⟩
          · have := ends_with_length h999
            simp only [ascii] at this
            have h4 : 4 ≤ tag.length := this
            omega
          · have := hf2.2.2
            omega
    · rw [if_neg h999]
      obtain ⟨ht1, ht2⟩ := PARSE_TEXT_FIELD_fuel c2 hpos2
      cases hb : PARSE_TEXT_FIELD c2 with
      | error e =>
        simp only
        refine ⟨?_, by intro f c' h; simp at h⟩
        intro hc
        simp only [Except.error.injEq] at hc
        rw [hc] at hb
        exact ht1 hb
      | ok v =>
        obtain ⟨parsed, c3⟩ := v
        simp only [pure, Except.pure]
        refine ⟨by simp, ?_⟩
        intro f c' h
        simp only [Except.ok.injEq, Prod.mk.injEq] at h
        rw [← h.2]
        exact (ht2 parsed c3 hb).trans hf2

/-- The call whose end is one byte before its start. The declared length 14 of the record
ends on the `:` of its `.999` tag, so `PARSE_BINARY_FIELD` starts at 15 with the record end
14 and calls `slice(15, 14)`: the count is `size_t(-1)`, the field holds the rest of the
buffer, closing FS included, and the cursor is left at 14, on the `:`. `PARSE_FILE` returns
the record. -/
theorem PARSE_RECORD_rest_of_buffer :
    PARSE_RECORD { buffer_ := ascii "1.001:14\x1d1.999:abc\x1c" } =
        .ok ({ fields := [field1 "1.001" "14",
                          { tag := ascii "1.999", is_binary_field := true,
                            raw_field := ascii "abc\x1c" }] },
          { buffer_ := ascii "1.001:14\x1d1.999:abc\x1c", position_ := 14 }) ∧
      PARSE_FILE (ascii "1.001:14\x1d1.999:abc\x1c") =
        .ok { records := [{ type := 1, idc := -1,
                            fields := [field1 "1.001" "14",
                                       { tag := ascii "1.999", is_binary_field := true,
                                         raw_field := ascii "abc\x1c" }] }] } :=
  ⟨by rfl, by rfl⟩

/-- The field loop of a record with fuel above the number of bytes left: it does not run
out of fuel, and the cursor it returns follows the cursor it started from. -/
theorem PARSE_RECORD_loop_fuel (record_end : Nat) (fuel : Nat) :
    ∀ (c : Cursor) (acc : Record), c.position_ ≤ c.buffer_.length →
      c.buffer_.length - c.position_ < fuel →
      PARSE_RECORD_loop record_end fuel c acc ≠ .error .OutOfFuel ∧
        ∀ r c', PARSE_RECORD_loop record_end fuel c acc = .ok (r, c') → c'.Follows c := by
  induction fuel with
  | zero => intro c acc _ h; omega
  | succ fuel ih =>
    intro c acc hpos hfuel
    rw [PARSE_RECORD_loop]
    by_cases hcond : (!c.done && c.peek != FS) = true
    · rw [if_pos hcond]
      simp only [bind, Except.bind]
      obtain ⟨hs1, hs2⟩ := PARSE_FIELD_fuel c record_end
      cases hsf : PARSE_FIELD c record_end with
      | error e =>
        simp only
        refine ⟨?_, by intro f c' h; simp at h⟩
        intro hc
        simp only [Except.error.injEq] at hc
        rw [hc] at hsf
        exact hs1 hsf
      | ok v =>
        obtain ⟨f, c1⟩ := v
        simp only
        have hf1 := hs2 f c1 hsf
        by_cases hgs : (!c1.done && c1.peek == GS) = true
        · rw [if_pos hgs]
          have hd1 : c1.done = false := by
            simp only [Bool.and_eq_true, Bool.not_eq_true'] at hgs
            exact hgs.1
          have hf2 := (Cursor.follows_advance hd1).trans hf1
          have hadv : c1.advance.position_ = c1.position_ + 1 := rfl
          obtain ⟨i1, i2⟩ := ih c1.advance { acc with fields := acc.fields ++ [f] }
            (by rw [hf2.1]; exact hf2.2.2)
            (by rw [hf2.1, hadv]; have := hf1.2.1; have := hf2.2.2; omega)
          exact ⟨i1, fun r c' h => (i2 r c' h).trans hf2⟩
        · rw [if_neg hgs]
          simp only [pure, Except.pure]
          refine ⟨by simp, ?_⟩
          intro r c' h
          simp only [Except.ok.injEq, Prod.mk.injEq] at h
          rw [← h.2]
          exact hf1
    · rw [if_neg hcond]
      simp only [pure, Except.pure]
      refine ⟨by simp, ?_⟩
      intro r c' h
      simp only [Except.ok.injEq, Prod.mk.injEq] at h
      rw [← h.2]
      exact Cursor.Follows.refl hpos

/-- A tagged record: `PARSE_RECORD` does not run out of fuel, and the cursor it returns
follows the cursor it started from. -/
theorem PARSE_RECORD_fuel (c : Cursor) :
    PARSE_RECORD c ≠ .error .OutOfFuel ∧
      ∀ r c', PARSE_RECORD c = .ok (r, c') → c'.Follows c := by
  simp only [PARSE_RECORD, bind, Except.bind, Cursor.position]
  obtain ⟨hs1, hs2⟩ := PARSE_FIELD_fuel c INVALID_INDEX
  cases hsf : PARSE_FIELD c INVALID_INDEX with
  | error e =>
    simp only
    refine ⟨?_, by intro f c' h; simp at h⟩
    intro hc
    simp only [Except.error.injEq] at hc
    rw [hc] at hsf
    exact hs1 hsf
  | ok v =>
    obtain ⟨f0, c1⟩ := v
    simp only
    have hf1 := hs2 f0 c1 hsf
    have hf2 : (if (!c1.done && c1.peek == GS) = true then c1.advance else c1).Follows c := by
      split
      · rename_i hc
        have hd1 : c1.done = false := by
          simp only [Bool.and_eq_true, Bool.not_eq_true'] at hc
          exact hc.1
        exact (Cursor.follows_advance hd1).trans hf1
      · exact hf1
    generalize (if (!c1.done && c1.peek == GS) = true then c1.advance else c1) = c2 at hf2
    obtain ⟨i1, i2⟩ := PARSE_RECORD_loop_fuel
      (if PARSE_LEN_FROM_FIRST_FIELD f0 > 0 ∧
          (c.position_ + PARSE_LEN_FROM_FIRST_FIELD f0) % SIZE_MOD ≤ c2.size then
        (c.position_ + PARSE_LEN_FROM_FIRST_FIELD f0) % SIZE_MOD
      else INVALID_INDEX) (c2.size + 1) c2 { fields := [f0] }
      (by rw [hf2.1]; exact hf2.2.2) (by simp only [Cursor.size]; omega)
    exact ⟨i1, fun r c' h => (i2 r c' h).trans hf2⟩

theorem PARSE_BINARY_RECORD_BY_LEN_fuel (c : Cursor) (t : Int) :
    PARSE_BINARY_RECORD_BY_LEN c t ≠ .error .OutOfFuel := by
  intro h
  simp only [PARSE_BINARY_RECORD_BY_LEN, bind, Except.bind, Cursor.position, pure,
    Except.pure] at h
  split at h
  · simp [throw, throwThe, MonadExceptOf.throw] at h
  · split at h
    · rename_i e he
      simp only [Except.error.injEq] at h
      rw [h] at he
      exact absurd (Cursor.slice_error he) (by decide)
    · split at h
      · simp [throw, throwThe, MonadExceptOf.throw] at h
      · split at h
        · rename_i e he
          simp only [Except.error.injEq] at h
          rw [h] at he
          exact absurd (Cursor.slice_error he) (by decide)
        · simp at h

theorem stoi_fuel (s : List UInt8) : stoi s ≠ .error .OutOfFuel := by
  intro h
  simp only [stoi] at h
  split at h
  · simp at h
  · split at h <;> split at h <;> simp at h

theorem PARSE_CNT_PLAN_loop_fuel (subfields : List Subfield) :
    ∀ plan, PARSE_CNT_PLAN_loop subfields plan ≠ .error .OutOfFuel := by
  induction subfields with
  | nil => intro plan; simp [PARSE_CNT_PLAN_loop, pure, Except.pure]
  | cons sf rest ih =>
    intro plan
    rw [PARSE_CNT_PLAN_loop]
    split
    · rename_i item0 item1 _ _
      simp only [bind, Except.bind]
      cases h0 : stoi item0.bytes with
      | error e =>
        simp only
        intro hc
        simp only [Except.error.injEq] at hc
        rw [hc] at h0
        exact stoi_fuel _ h0
      | ok t =>
        simp only
        cases h1 : stoi item1.bytes with
        | error e =>
          simp only
          intro hc
          simp only [Except.error.injEq] at hc
          rw [hc] at h1
          exact stoi_fuel _ h1
        | ok i => exact ih _
    · exact ih _

theorem PARSE_CNT_PLAN_fuel (type1 : Record) : PARSE_CNT_PLAN type1 ≠ .error .OutOfFuel := by
  simp only [PARSE_CNT_PLAN]
  split
  · simp [pure, Except.pure]
  · exact PARSE_CNT_PLAN_loop_fuel _ _

theorem PARSE_FILE_loop_fuel (plan : List (Int × Int)) :
    ∀ (c : Cursor) (file : File), PARSE_FILE_loop plan c file ≠ .error .OutOfFuel := by
  induction plan with
  | nil => intro c file; simp [PARSE_FILE_loop, pure, Except.pure]
  | cons p plan ih =>
    intro c file
    obtain ⟨t, i⟩ := p
    rw [PARSE_FILE_loop]
    split
    · simp [pure, Except.pure]
    · simp only [bind, Except.bind]
      split
      · cases hb : PARSE_BINARY_RECORD_BY_LEN c t with
        | error e =>
          simp only
          intro hc
          simp only [Except.error.injEq] at hc
          rw [hc] at hb
          exact PARSE_BINARY_RECORD_BY_LEN_fuel _ _ hb
        | ok v => exact ih _ _
      · cases hb : PARSE_RECORD c with
        | error e =>
          simp only
          intro hc
          simp only [Except.error.injEq] at hc
          rw [hc] at hb
          exact (PARSE_RECORD_fuel c).1 hb
        | ok v => exact ih _ _

/-- The fuel of the embedding is enough: `PARSE_FILE` never runs out of it. -/
theorem PARSE_FILE_fuel (buffer : List UInt8) : PARSE_FILE buffer ≠ .error .OutOfFuel := by
  simp only [PARSE_FILE, bind, Except.bind, Cursor.position]
  cases hb : PARSE_RECORD { buffer_ := buffer } with
  | error e =>
    simp only
    intro hc
    simp only [Except.error.injEq] at hc
    rw [hc] at hb
    exact (PARSE_RECORD_fuel _).1 hb
  | ok v =>
    simp only
    cases hp : PARSE_CNT_PLAN { v.1 with type := 1, idc := -1 } with
    | error e =>
      simp only
      intro hc
      simp only [Except.error.injEq] at hc
      rw [hc] at hp
      exact PARSE_CNT_PLAN_fuel _ hp
    | ok plan => exact PARSE_FILE_loop_fuel _ _ _

/-! ### The three outcomes of a legacy binary record -/

theorem PARSE_BINARY_RECORD_BY_LEN_eof {c : Cursor} (t : Int)
    (hpos : c.position_ ≤ c.buffer_.length) (h : c.buffer_.length - c.position_ < 4) :
    PARSE_BINARY_RECORD_BY_LEN c t = .error .BinaryRecordEOF := by
  have hrem : c.remaining < 4 := by
    simp only [Cursor.remaining, Cursor.size, if_pos hpos]; exact h
  simp only [PARSE_BINARY_RECORD_BY_LEN, bind, Except.bind]
  rw [if_pos hrem]

theorem PARSE_BINARY_RECORD_BY_LEN_invalid {c : Cursor} (t : Int)
    (hpos : c.position_ ≤ c.buffer_.length) (h4 : 4 ≤ c.buffer_.length - c.position_)
    (h : READ_BE_U32 ((c.buffer_.drop c.position_).take 4) < 8 ∨
      READ_BE_U32 ((c.buffer_.drop c.position_).take 4) > c.buffer_.length - c.position_) :
    PARSE_BINARY_RECORD_BY_LEN c t = .error .InvalidBinaryLEN := by
  have hrem : c.remaining = c.buffer_.length - c.position_ := by
    simp only [Cursor.remaining, Cursor.size, if_pos hpos]
  have hs4 : c.slice c.position_ (c.position_ + 4) = .ok ((c.buffer_.drop c.position_).take 4) := by
    simp only [Cursor.slice, Cursor.size]
    rw [if_pos (by omega)]
    simp
  simp only [PARSE_BINARY_RECORD_BY_LEN, bind, Except.bind, Cursor.position]
  rw [if_neg (by omega)]
  simp only [pure, Except.pure, hs4]
  rw [if_pos (by simp only [MIN_BINARY_RECORD_SIZE]; omega)]

theorem PARSE_BINARY_RECORD_BY_LEN_ok {c : Cursor} (t : Int)
    (hpos : c.position_ ≤ c.buffer_.length) (h4 : 4 ≤ c.buffer_.length - c.position_)
    (h8 : 8 ≤ READ_BE_U32 ((c.buffer_.drop c.position_).take 4))
    (hle : READ_BE_U32 ((c.buffer_.drop c.position_).take 4) ≤ c.buffer_.length - c.position_) :
    ∃ r, PARSE_BINARY_RECORD_BY_LEN c t =
        .ok (r, c.advance (READ_BE_U32 ((c.buffer_.drop c.position_).take 4))) ∧
      r.raw_record =
        (c.buffer_.drop c.position_).take (READ_BE_U32 ((c.buffer_.drop c.position_).take 4)) ∧
      r.type = t ∧ r.is_binary_record = true ∧ r.fields = [] := by
  have hrem : c.remaining = c.buffer_.length - c.position_ := by
    simp only [Cursor.remaining, Cursor.size, if_pos hpos]
  have hs4 : c.slice c.position_ (c.position_ + 4) = .ok ((c.buffer_.drop c.position_).take 4) := by
    simp only [Cursor.slice, Cursor.size]
    rw [if_pos (by omega)]
    simp
  generalize hL : READ_BE_U32 ((c.buffer_.drop c.position_).take 4) = L at h8 hle hs4 ⊢
  have hs : (c.advance L).slice c.position_ (c.position_ + L) =
      .ok ((c.buffer_.drop c.position_).take L) := by
    simp only [Cursor.slice, Cursor.size, Cursor.advance]
    rw [if_pos (by omega)]
    simp
  simp only [PARSE_BINARY_RECORD_BY_LEN, bind, Except.bind, Cursor.position]
  rw [if_neg (by omega)]
  simp only [pure, Except.pure, hs4, hL]
  rw [if_neg (by simp only [MIN_BINARY_RECORD_SIZE]; omega)]
  simp only [hs]
  exact ⟨_, rfl, rfl, rfl, rfl, rfl⟩

/-! ### Numbers of the standard library and the record plan -/

theorem PARSE_CNT_PLAN_none {type1 : Record}
    (h : ∀ f ∈ type1.fields, f.tag ≠ ascii "1.003" ∧ f.tag ≠ ascii "1.03") :
    PARSE_CNT_PLAN type1 = .ok [] := by
  have hfind : type1.fields.find?
      (fun field => field.tag == ascii "1.003" || field.tag == ascii "1.03") = none := by
    rw [List.find?_eq_none]
    intro f hf
    have := h f hf
    simp [this.1, this.2]
  simp only [PARSE_CNT_PLAN, hfind]
  rfl

theorem isdigit_not_space {b : UInt8} (h : isdigit b = true) :
    isspace b = false ∧ (b.toNat == 45) = false ∧ (b.toNat == 43) = false := by
  simp only [isdigit, Bool.and_eq_true, decide_eq_true_eq] at h
  simp only [isspace, Bool.or_eq_false_iff, Bool.and_eq_false_iff, beq_eq_false_iff_ne,
    decide_eq_false_iff_not]
  omega

theorem takeWhile_run (p : UInt8 → Bool) (ds junk : List UInt8) (hds : ∀ d ∈ ds, p d = true)
    (hjunk : ∀ b, junk.head? = some b → p b = false) : (ds ++ junk).takeWhile p = ds := by
  induction ds with
  | nil =>
    cases junk with
    | nil => rfl
    | cons b t => simp [List.takeWhile, hjunk b rfl]
  | cons d ds ih =>
    rw [List.cons_append, List.takeWhile_cons_of_pos (hds d (List.mem_cons_self _ _)),
      ih (fun y hy => hds y (List.mem_cons_of_mem _ hy))]

/-- The subject sequence of a run of digits followed by a byte that is not a digit. -/
theorem strto_subject_digits {ds junk : List UInt8} (hne : ds ≠ [])
    (hds : ∀ d ∈ ds, isdigit d = true) (hjunk : ∀ b, junk.head? = some b → isdigit b = false) :
    strto_subject (ds ++ junk) = some (false, digits_value ds) := by
  cases ds with
  | nil => exact absurd rfl hne
  | cons d ds =>
    obtain ⟨hsp, h45, h43⟩ := isdigit_not_space (hds d (List.mem_cons_self _ _))
    have htw := takeWhile_run isdigit (d :: ds) junk hds hjunk
    simp only [List.cons_append] at htw
    simp only [strto_subject, List.cons_append, List.dropWhile, hsp, h45, h43]
    simp [htw]

/-- The subject sequence is empty when the text is empty or begins with a byte that is
not a digit, white space or a sign. -/
theorem strto_subject_none {s : List UInt8}
    (h : ∀ b, s.head? = some b →
      isdigit b = false ∧ isspace b = false ∧ b.toNat ≠ 43 ∧ b.toNat ≠ 45) :
    strto_subject s = none := by
  cases s with
  | nil => rfl
  | cons b t =>
    obtain ⟨hd, hsp, h43, h45⟩ := h b rfl
    have h45' : (b.toNat == 45) = false := by simpa using h45
    have h43' : (b.toNat == 43) = false := by simpa using h43
    simp only [strto_subject, List.dropWhile, hsp, h45', h43', List.takeWhile, hd]
    simp

theorem PARSE_LEN_FROM_FIRST_FIELD_ok {f : Field} {sf : Subfield} {rest : List Subfield}
    {item : Item} {more : List Item} {value : Nat} (hsf : f.subfields = sf :: rest)
    (hit : sf.items = item :: more)
    (htag : ends_with f.tag (ascii ".001") = true ∨ ends_with f.tag (ascii ".01") = true)
    (h : stoul item.bytes = .ok value) : PARSE_LEN_FROM_FIRST_FIELD f = value := by
  simp only [PARSE_LEN_FROM_FIRST_FIELD, hsf, hit, h]
  rcases htag with h | h <;> simp [h]

theorem PARSE_LEN_FROM_FIRST_FIELD_error {f : Field} {sf : Subfield} {rest : List Subfield}
    {item : Item} {more : List Item} {e : Error} (hsf : f.subfields = sf :: rest)
    (hit : sf.items = item :: more) (h : stoul item.bytes = .error e) :
    PARSE_LEN_FROM_FIRST_FIELD f = 0 := by
  simp only [PARSE_LEN_FROM_FIRST_FIELD, hsf, hit, h]
  split <;> rfl

/-- The subject sequence of `-` followed by a run of digits. -/
theorem strto_subject_minus {c : UInt8} {ds : List UInt8} (hc : (c.toNat == 45) = true)
    (hne : ds ≠ []) (hds : ∀ d ∈ ds, isdigit d = true) :
    strto_subject (c :: ds) = some (true, digits_value ds) := by
  have hsp : isspace c = false := by
    simp only [beq_iff_eq] at hc
    simp [isspace, hc]
  have htw := takeWhile_run isdigit ds [] hds (by simp)
  rw [List.append_nil] at htw
  simp only [strto_subject, List.dropWhile, hsp, hc, if_true, htw]
  cases ds with
  | nil => exact absurd rfl hne
  | cons d ds => simp

theorem stoi_digits {ds : List UInt8} (hne : ds ≠ []) (hds : ∀ d ∈ ds, isdigit d = true)
    (hv : digits_value ds < 2 ^ 31) : stoi ds = .ok (digits_value ds : Int) := by
  have h := @strto_subject_digits ds [] hne hds (by simp)
  rw [List.append_nil] at h
  simp only [stoi, h]
  rw [if_neg (by simp only [Bool.false_eq_true, if_false]; omega)]
  simp

theorem stoi_minus_digits {c : UInt8} {ds : List UInt8} (hc : (c.toNat == 45) = true)
    (hne : ds ≠ []) (hds : ∀ d ∈ ds, isdigit d = true) (hv : digits_value ds ≤ 2 ^ 31) :
    stoi (c :: ds) = .ok (-(digits_value ds : Int)) := by
  simp only [stoi, strto_subject_minus hc hne hds]
  rw [if_neg (by simp only [if_true]; omega)]
  simp

theorem stoi_decimal {s : List UInt8} (h : is_decimal_int s = true) :
    stoi s = .ok (decimal_int_value s) := by
  cases s with
  | nil => simp [is_decimal_int] at h
  | cons c rest =>
    by_cases hc : (c.toNat == 45) = true
    · simp only [is_decimal_int, hc, if_true, Bool.and_eq_true, Bool.not_eq_true',
        List.isEmpty_eq_false, List.all_eq_true, decide_eq_true_eq] at h
      simp only [decimal_int_value, hc, if_true]
      exact stoi_minus_digits hc (by simpa using h.1.1) h.1.2 h.2
    · simp only [is_decimal_int, hc, Bool.false_eq_true, if_false, Bool.and_eq_true,
        List.all_eq_true, decide_eq_true_eq] at h
      simp only [decimal_int_value, hc, Bool.false_eq_true, if_false]
      exact stoi_digits (by simp) h.1 h.2

theorem PARSE_CNT_PLAN_loop_reference (subfields : List Subfield) :
    ∀ plan : List (Int × Int),
      (subfields.all (fun subfield =>
        match subfield.items with
        | item0 :: item1 :: _ => is_decimal_int item0.bytes && is_decimal_int item1.bytes
        | _ => true) = true) →
      PARSE_CNT_PLAN_loop subfields plan =
        .ok (plan ++ subfields.filterMap (fun subfield =>
          match subfield.items with
          | item0 :: item1 :: _ =>
            some (decimal_int_value item0.bytes, decimal_int_value item1.bytes)
          | _ => none)) := by
  induction subfields with
  | nil => intro plan _; simp [PARSE_CNT_PLAN_loop, pure, Except.pure]
  | cons sf rest ih =>
    intro plan h
    rw [List.all_cons, Bool.and_eq_true] at h
    obtain ⟨hsf, hrest⟩ := h
    rcases hitems : sf.items with _ | ⟨item0, _ | ⟨item1, more⟩⟩
    · simp only [PARSE_CNT_PLAN_loop, hitems, List.filterMap_cons]
      exact ih plan hrest
    · simp only [PARSE_CNT_PLAN_loop, hitems, List.filterMap_cons]
      exact ih plan hrest
    · rw [hitems] at hsf
      simp only [Bool.and_eq_true] at hsf
      simp only [PARSE_CNT_PLAN_loop, hitems, List.filterMap_cons, bind, Except.bind,
        stoi_decimal hsf.1, stoi_decimal hsf.2]
      rw [ih _ hrest]
      simp

theorem UPDATE_CNT_FIELD_loop_eq (records : List Record) :
    ∀ subfields, UPDATE_CNT_FIELD_loop records subfields = subfields ++ records.map cnt_entry := by
  induction records with
  | nil => intro subfields; simp [UPDATE_CNT_FIELD_loop]
  | cons r rest ih =>
    intro subfields
    simp only [UPDATE_CNT_FIELD_loop, ih, List.map_cons, cnt_entry, List.append_assoc,
      List.singleton_append]

/-- The field that a search finds after `update_first`: when the search for `p` finds
`cnt`, a search for `q`, which accepts less than `p` and accepts the updated field,
finds the updated field. -/
theorem find_update_first {p q : Field → Bool} {f : Field → Field} {cnt : Field}
    (hqp : ∀ g, q g = true → p g = true) (hq : q (f cnt) = true) :
    ∀ fields : List Field, fields.find? p = some cnt →
      (update_first p f fields).find? q = some (f cnt) := by
  intro fields
  induction fields with
  | nil => intro h; simp at h
  | cons g rest ih =>
    intro h
    by_cases hg : p g = true
    · rw [List.find?_cons_of_pos _ hg] at h
      simp only [Option.some.injEq] at h
      subst h
      rw [update_first, if_pos hg, List.find?_cons_of_pos _ hq]
    · rw [List.find?_cons_of_neg _ hg] at h
      have hqg : ¬ q g = true := fun hc => hg (hqp g hc)
      rw [update_first, if_neg hg, List.find?_cons_of_neg _ hqg]
      exact ih h

theorem isdigit_digit : ∀ k, k < 10 → isdigit (UInt8.ofNat (48 + k)) = true := by
  decide

theorem to_string_isdigit (n : Nat) : ∀ b ∈ to_string n, isdigit b = true := by
  intro b hb
  obtain ⟨pre, h1, h2⟩ := to_string_loop_suffix (n + 1) n []
  simp only [to_string, h1, List.append_nil] at hb
  obtain ⟨k, hk, rfl⟩ := h2 b hb
  exact isdigit_digit k hk

theorem to_string_loop_value (fuel : Nat) : ∀ (n : Nat) (acc : List UInt8), n < fuel →
    digits_value (to_string_loop fuel n acc) =
      acc.foldl (fun v d => v * 10 + (d.toNat - 48)) n := by
  induction fuel with
  | zero => intro n acc h; omega
  | succ fuel ih =>
    intro n acc h
    have hd : (UInt8.ofNat (48 + n % 10)).toNat - 48 = n % 10 := by
      rw [uint8_toNat_ofNat]
      have := Nat.mod_lt n (show 0 < 10 by decide)
      omega
    simp only [to_string_loop]
    split
    · rename_i h0
      simp only [digits_value, List.foldl_cons, hd]
      congr 1
      omega
    · rename_i h0
      rw [ih (n / 10) _ (by omega)]
      simp only [List.foldl_cons, hd]
      congr 1
      omega

theorem to_string_value (n : Nat) : digits_value (to_string n) = n := by
  rw [to_string, to_string_loop_value (n + 1) n [] (by omega)]
  rfl

theorem stoi_to_string_int {v : Int} (hlo : -(2 ^ 31 : Int) ≤ v) (hhi : v < (2 ^ 31 : Int)) :
    stoi (to_string_int v) = .ok v := by
  by_cases hneg : v < 0
  · simp only [to_string_int, if_pos hneg]
    rw [stoi_minus_digits (by decide) (to_string_ne_nil _) (to_string_isdigit _)
      (by rw [to_string_value]; omega), to_string_value]
    congr 1
    omega
  · simp only [to_string_int, if_neg hneg]
    rw [stoi_digits (to_string_ne_nil _) (to_string_isdigit _)
      (by rw [to_string_value]; omega), to_string_value]
    congr 1
    omega

theorem PARSE_CNT_PLAN_loop_entries (records : List Record) :
    ∀ plan : List (Int × Int),
      (∀ r ∈ records, -(2 ^ 31 : Int) ≤ r.type ∧ r.type < (2 ^ 31 : Int) ∧
        r.idc < (2 ^ 31 : Int)) →
      PARSE_CNT_PLAN_loop (records.map cnt_entry) plan =
        .ok (plan ++ records.map (fun r => (r.type, max r.idc 0))) := by
  induction records with
  | nil => intro plan _; simp [PARSE_CNT_PLAN_loop, pure, Except.pure]
  | cons r rest ih =>
    intro plan h
    obtain ⟨hlo, hhi, hidc⟩ := h r (List.mem_cons_self _ _)
    have hmax : (if r.idc ≥ 0 then r.idc else 0) = max r.idc 0 := by
      by_cases h0 : r.idc ≥ 0
      · rw [if_pos h0, max_eq_left h0]
      · rw [if_neg h0, max_eq_right (by omega)]
    have hidc2 : stoi (to_string_int (if r.idc ≥ 0 then r.idc else 0)) = .ok (max r.idc 0) := by
      rw [hmax]
      exact stoi_to_string_int (by have := le_max_right r.idc 0; omega)
        (max_lt hidc (by decide))
    simp only [List.map_cons, cnt_entry, PARSE_CNT_PLAN_loop, bind, Except.bind,
      stoi_to_string_int hlo hhi, hidc2]
    rw [ih _ (fun r' hr' => h r' (List.mem_cons_of_mem _ hr'))]
    simp

theorem exact_cnt_is_suffix (g : Field)
    (h : (g.tag == ascii "1.003" || g.tag == ascii "1.03") = true) : is_cnt_suffix g = true := by
  simp only [Bool.or_eq_true, beq_iff_eq] at h
  rcases h with h | h <;> rw [is_cnt_suffix, h] <;> decide

/-! ### The record of the test helper -/

theorem format_06u_length (len : Nat) : (format_06u len).length = 6 := by
  simp only [format_06u, List.length_take, List.length_append, List.length_replicate]
  omega

theorem format_06u_isdigit (len : Nat) : ∀ b ∈ format_06u len, isdigit b = true := by
  intro b hb
  have hb' := List.mem_of_mem_take hb
  simp only [List.mem_append, List.mem_replicate] at hb'
  rcases hb' with ⟨_, rfl⟩ | hb'
  · decide
  · exact to_string_isdigit _ b hb'

theorem to_string_loop_length (fuel : Nat) : ∀ (n k : Nat) (acc : List UInt8),
    n < 10 ^ (k + 1) → (to_string_loop fuel n acc).length ≤ acc.length + (k + 1) := by
  induction fuel with
  | zero => intro n k acc _; simp [to_string_loop]
  | succ fuel ih =>
    intro n k acc h
    simp only [to_string_loop]
    split
    · simp only [List.length_cons]; omega
    · rename_i h0
      cases k with
      | zero => omega
      | succ k =>
        have hk : n / 10 < 10 ^ (k + 1) := by
          rw [Nat.div_lt_iff_lt_mul (by decide)]
          rw [pow_succ] at h
          exact h
        have := ih (n / 10) k (UInt8.ofNat (48 + n % 10) :: acc) hk
        simp only [List.length_cons] at this
        omega

theorem digits_value_zeros (k : Nat) (ds : List UInt8) :
    digits_value (List.replicate k (48 : UInt8) ++ ds) = digits_value ds := by
  induction k with
  | zero => simp
  | succ k ih =>
    simp only [digits_value, List.replicate_succ, List.cons_append, List.foldl_cons] at ih ⊢
    exact ih

theorem format_06u_value {len : Nat} (h : len ≤ 999999) : digits_value (format_06u len) = len := by
  have hmod : len % U32_MOD = len := Nat.mod_eq_of_lt (by simp only [U32_MOD]; omega)
  have hlen : (to_string len).length ≤ 6 := by
    have := to_string_loop_length (len + 1) len 5 [] (by omega)
    simpa [to_string] using this
  simp only [format_06u, hmod]
  rw [List.take_of_length_le (by simp only [List.length_append, List.length_replicate]; omega),
    digits_value_zeros, to_string_value]

theorem isdigit_not_delim {b : UInt8} (h : isdigit b = true) : is_delim b = false := by
  simp only [isdigit, Bool.and_eq_true, decide_eq_true_eq] at h
  have h1 : b ≠ US := by intro hc; rw [hc] at h; revert h; decide
  have h2 : b ≠ RS := by intro hc; rw [hc] at h; revert h; decide
  have h3 : b ≠ GS := by intro hc; rw [hc] at h; revert h; decide
  have h4 : b ≠ FS := by intro hc; rw [hc] at h; revert h; decide
  simp [is_delim, h1, h2, h3, h4]

/-- A `.999` field closed by GS and FS right before the record end: the strip of
`PARSE_BINARY_FIELD` removes the FS and the GS and the payload is read whole, whatever
bytes it holds. -/
theorem PARSE_FIELD_binary_gs_sees {tag payload rest : List UInt8} {c : Cursor}
    (record_end : Nat) (htag : ∀ b ∈ tag, b ≠ COLON) (h999 : ends_with tag (ascii ".999") = true)
    (hsees : c.Sees (tag ++ COLON :: (payload ++ GS :: FS :: rest)))
    (hend : record_end ≠ INVALID_INDEX)
    (hrest : ({ c with position_ := record_end } : Cursor).Sees rest) :
    ∃ c', PARSE_FIELD c record_end =
        .ok ({ tag := tag, is_binary_field := true, raw_field := payload }, c') ∧
      c'.buffer_ = c.buffer_ ∧ c'.Sees (GS :: FS :: rest) := by
  obtain ⟨c1, h1, hb1, hs1⟩ := TAKE_UNTIL_sees hsees htag
  have hs2 := hs1.advance.2
  have hb2 : c1.advance.buffer_ = c.buffer_ := by rw [hs1.advance.1, hb1]
  have hre : record_end = c1.advance.position_ + payload.length + 2 := by
    have e1 := hs2.length
    have e2 := hrest.length
    simp only [hb2] at e1
    simp at e1 e2
    omega
  have hfs : c1.advance.at (c1.advance.position_ + payload.length + 1) = .ok FS := by
    have hs3 : c1.advance.Sees ((payload ++ [GS]) ++ FS :: rest) := by simpa using hs2
    have := Cursor.at_sees hs3 c1.advance rfl
    simpa [Nat.add_assoc] using this
  have hgs : c1.advance.at (c1.advance.position_ + payload.length) = .ok GS :=
    Cursor.at_sees hs2 c1.advance rfl
  have hskip := Cursor.Sees.skip hs2
  have hslice := Cursor.slice_sees hs2
    ({ c1.advance with position_ := c1.advance.position_ + payload.length }) rfl
  refine ⟨{ c1.advance with position_ := c1.advance.position_ + payload.length }, ?_,
    hb2, hskip⟩
  simp only [PARSE_FIELD, h1, bind, Except.bind, hs1.peek.1, hs1.peek.2, h999]
  simp only [Bool.not_false, Bool.true_and, beq_self_eq_true, if_true]
  have hgt : record_end > c1.advance.position_ := by omega
  have hm1 : record_end - 1 = c1.advance.position_ + payload.length + 1 := by omega
  have hstrip1 : PARSE_BINARY_FIELD_strip c1.advance c1.advance.position_ record_end FS =
      .ok (c1.advance.position_ + payload.length + 1) := by
    simp only [PARSE_BINARY_FIELD_strip, hgt, if_true, bind, Except.bind]
    rw [hm1, hfs]
    simp only [pure, Except.pure, beq_self_eq_true, if_true]
  have hstrip2 : PARSE_BINARY_FIELD_strip c1.advance c1.advance.position_
      (c1.advance.position_ + payload.length + 1) GS =
      .ok (c1.advance.position_ + payload.length) := by
    have hpos : c1.advance.position_ + payload.length + 1 > c1.advance.position_ := by omega
    simp only [PARSE_BINARY_FIELD_strip, hpos, if_true, bind, Except.bind,
      Nat.add_sub_cancel, hgs, pure, Except.pure, beq_self_eq_true]
  simp only [PARSE_BINARY_FIELD, if_neg hend, Cursor.position, bind, Except.bind, hstrip1,
    hstrip2, pure, Except.pure, Cursor.seek, hslice]

theorem stoul_digits {ds : List UInt8} (hne : ds ≠ []) (hds : ∀ d ∈ ds, isdigit d = true)
    (hv : digits_value ds < SIZE_MOD) : stoul ds = .ok (digits_value ds) := by
  have h := @strto_subject_digits ds [] hne hds (by simp)
  rw [List.append_nil] at h
  simp only [stoul, h]
  rw [if_neg (by omega)]
  simp

theorem make_tagged_record_with_999_eq (p : List UInt8) (h : 23 + p.length ≤ 999999) :
    make_tagged_record_with_999 p =
      ascii "14.001" ++ COLON :: (format_06u (23 + p.length) ++
        GS :: (ascii "14.999" ++ COLON :: (p ++ GS :: FS :: []))) := by
  have h1 : ascii "14.001:000000" = [49, 52, 46, 48, 48, 49, 58, 48, 48, 48, 48, 48, 48] := by
    rfl
  have h2 : ascii "14.999:" = [49, 52, 46, 57, 57, 57, 58] := by rfl
  have h3 : ascii "14.001" = [49, 52, 46, 48, 48, 49] := by rfl
  have h4 : ascii "14.999" = [49, 52, 46, 57, 57, 57] := by rfl
  have hmod : (23 + p.length) % U32_MOD = 23 + p.length :=
    Nat.mod_eq_of_lt (by simp only [U32_MOD]; omega)
  simp only [make_tagged_record_with_999, h1, h2, h3, h4, COLON, List.length_append,
    List.length_cons, List.length_nil, List.cons_append, List.nil_append, List.take_succ_cons,
    List.take_zero, List.drop_succ_cons, List.drop_zero, List.append_assoc]
  have hlen : p.length + 2 + 1 + 1 + 1 + 1 + 1 + 1 + 1 + 1 + 1 + 1 + 1 + 1 + 1 + 1 + 1 + 1 + 1 +
      1 + 1 + 1 + 1 = 23 + p.length := by omega
  rw [hlen, hmod]

/-- The record of `make_tagged_record_with_999` as `PARSE_RECORD` reads it from
position 0, and the cursor it leaves on the closing FS. -/
theorem PARSE_RECORD_with_999 (p : List UInt8) (h : 23 + p.length ≤ 999999) :
    PARSE_RECORD { buffer_ := make_tagged_record_with_999 p } =
      .ok ({ fields := [{ tag := ascii "14.001",
                          subfields := [{ items := [{ bytes := format_06u (23 + p.length) }] }] },
                        { tag := ascii "14.999", is_binary_field := true, raw_field := p }] },
        { buffer_ := make_tagged_record_with_999 p, position_ := 22 + p.length }) := by
  have hx := make_tagged_record_with_999_eq p h
  generalize make_tagged_record_with_999 p = x at hx ⊢
  have hD6 := format_06u_length (23 + p.length)
  have hDd := format_06u_isdigit (23 + p.length)
  have hDv := format_06u_value h
  generalize format_06u (23 + p.length) = D at hx hD6 hDd hDv ⊢
  have hDne : D ≠ [] := by intro hc; rw [hc] at hD6; simp at hD6
  have hxlen : x.length = 23 + p.length := by
    rw [hx]
    simp only [List.length_append, List.length_cons, List.length_nil, hD6,
      show (ascii "14.001").length = 6 from rfl, show (ascii "14.999").length = 6 from rfl]
    omega
  -- the first field
  have hok0 : text_field_ok
      { tag := ascii "14.001", subfields := [{ items := [{ bytes := D }] }] } := by
    refine ⟨rfl, rfl, show ∀ b ∈ ascii "14.001", b ≠ COLON by decide,
      show ends_with (ascii "14.001") (ascii ".999") = false by decide, ?_, ?_⟩
    · intro sf hsf
      simp only [List.mem_singleton] at hsf
      subst hsf
      refine ⟨by simp, ?_⟩
      intro it hit b hb
      simp only [List.mem_singleton] at hit
      subst hit
      exact isdigit_not_delim (hDd b hb)
    · simp only [List.getLast?_singleton, ne_eq, Option.some.injEq, Subfield.mk.injEq,
        List.cons.injEq, Item.mk.injEq, and_true]
      exact hDne
  have hsees0 : ({ buffer_ := x } : Cursor).Sees
      ((ascii "14.001") ++ COLON :: (subfields_bytes [{ items := [{ bytes := D }] }] ++
        GS :: (ascii "14.999" ++ COLON :: (p ++ GS :: FS :: [])))) := by
    refine ⟨Nat.zero_le _, ?_⟩
    simp only [List.drop_zero, hx, subfields_bytes, SERIALIZE_FIELD_loop, SERIALIZE_SUBFIELD,
      SERIALIZE_SUBFIELD_loop, SERIALIZE_ITEM, List.isEmpty_nil, Bool.not_true,
      Bool.false_eq_true, if_false, List.nil_append]
  obtain ⟨c1, h1, hb1, hs1⟩ := PARSE_FIELD_text_sees hok0 INVALID_INDEX hsees0 (Or.inl rfl)
  have hb2 : c1.advance.buffer_ = x := by rw [hs1.advance.1, hb1]
  have hs2 := hs1.advance.2
  -- the declared length
  have hlen : PARSE_LEN_FROM_FIRST_FIELD
      { tag := ascii "14.001", subfields := [{ items := [{ bytes := D }] }] } =
      23 + p.length := by
    rw [← hDv]
    exact PARSE_LEN_FROM_FIRST_FIELD_ok rfl rfl
      (Or.inl (show ends_with (ascii "14.001") (ascii ".001") = true by decide))
      (stoul_digits hDne hDd (by rw [hDv]; simp only [SIZE_MOD]; omega))
  have hmod : (0 + (23 + p.length)) % SIZE_MOD = 23 + p.length := by
    rw [Nat.zero_add]
    exact Nat.mod_eq_of_lt (by simp only [SIZE_MOD]; omega)
  have hsz : c1.advance.size = 23 + p.length := by simp [Cursor.size, hb2, hxlen]
  -- the `.999` field
  have hrest : ({ c1.advance with position_ := 23 + p.length } : Cursor).Sees [] := by
    refine ⟨by simp [hb2, hxlen], ?_⟩
    simp [hb2, List.drop_eq_nil_iff, hxlen]
  have hend : 23 + p.length ≠ INVALID_INDEX := by simp only [INVALID_INDEX, SIZE_MOD]; omega
  obtain ⟨c3, h3, hb3, hs3⟩ := PARSE_FIELD_binary_gs_sees (23 + p.length) (by decide)
    (by decide) hs2 hend hrest
  have hs4 := hs3.advance.2
  have hp2 : c1.advance.position_ = 14 := by
    have e := hs2.length
    simp only [hb2, hxlen, List.length_append, List.length_cons, List.length_nil,
      show (ascii "14.999").length = 6 from rfl] at e
    omega
  have hp4 : c3.advance = { buffer_ := x, position_ := 22 + p.length } := by
    have e := hs4.length
    have hb4 : c3.advance.buffer_ = x := by rw [hs3.advance.1, hb3, hb2]
    simp only [hb4, hxlen, List.length_cons, List.length_nil] at e
    cases hc : c3.advance with
    | mk b q =>
      rw [hc] at e hb4
      simp only at e hb4
      subst hb4
      congr
      omega
  have hcond2 : (!c1.advance.done && c1.advance.peek != FS) = true := by
    simp only [show ascii "14.999" = [49, 52, 46, 57, 57, 57] from rfl, List.cons_append,
      List.nil_append] at hs2
    have hp := hs2.peek
    rw [hp.1, hp.2]
    decide
  have hloop : PARSE_RECORD_loop (23 + p.length) (23 + p.length + 1) c1.advance
      { fields := [{ tag := ascii "14.001", subfields := [{ items := [{ bytes := D }] }] }] } =
      .ok ({ fields := [{ tag := ascii "14.001", subfields := [{ items := [{ bytes := D }] }] },
                        { tag := ascii "14.999", is_binary_field := true, raw_field := p }] },
        c3.advance) := by
    rw [show 23 + p.length + 1 = (22 + p.length) + 1 + 1 by omega]
    rw [PARSE_RECORD_loop, if_pos hcond2, h3]
    simp only [bind, Except.bind, hs3.peek.1, hs3.peek.2, Bool.not_false, Bool.true_and,
      beq_self_eq_true, if_true, List.singleton_append]
    rw [PARSE_RECORD_loop]
    simp [hs4.peek.1, hs4.peek.2, pure, Except.pure]
  simp only [PARSE_RECORD, Cursor.position, bind, Except.bind, h1, hs1.peek.1, hs1.peek.2,
    Bool.not_false, Bool.true_and, beq_self_eq_true, if_true, hlen, hmod, hsz]
  rw [if_pos ⟨by omega, Nat.le_refl _⟩, hloop, hp4]

/-! ### The offsets of the records -/

theorem SKIP_SEPARATORS_position (c : Cursor) (h : c.position_ ≤ c.buffer_.length) :
    (SKIP_SEPARATORS c).buffer_ = c.buffer_ ∧ c.position_ ≤ (SKIP_SEPARATORS c).position_ ∧
      (SKIP_SEPARATORS c).position_ ≤ c.buffer_.length := by
  have hpos : (SKIP_SEPARATORS c).position_ =
      c.position_ + ((c.buffer_.drop c.position_).takeWhile (fun b => b == FS || b == GS)).length := by
    simp [SKIP_SEPARATORS, Cursor.advance_while, scan_from_takeWhile]
  have hle := (List.takeWhile_sublist (fun b => b == FS || b == GS)
    (l := c.buffer_.drop c.position_)).length_le
  rw [List.length_drop] at hle
  exact ⟨rfl, by omega, by omega⟩

theorem SYNC_TO_LEN_IF_PRESENT_position (c : Cursor) (s : Nat) (r : Record)
    (h : c.position_ ≤ c.buffer_.length) :
    (SYNC_TO_LEN_IF_PRESENT c s r).buffer_ = c.buffer_ ∧
      (SYNC_TO_LEN_IF_PRESENT c s r).position_ ≤ c.buffer_.length ∧
      ∀ f0, r.fields.head? = some f0 → 0 < PARSE_LEN_FROM_FIRST_FIELD f0 →
        s + PARSE_LEN_FROM_FIRST_FIELD f0 ≤ c.buffer_.length → c.buffer_.length < SIZE_MOD →
        (SYNC_TO_LEN_IF_PRESENT c s r).position_ = s + PARSE_LEN_FROM_FIRST_FIELD f0 := by
  cases hf : r.fields with
  | nil =>
    simp only [SYNC_TO_LEN_IF_PRESENT, hf]
    exact ⟨trivial, h, fun f0 hc => by simp at hc⟩
  | cons g rest =>
    simp only [SYNC_TO_LEN_IF_PRESENT, hf, Cursor.size]
    split
    · rename_i hc
      refine ⟨rfl, hc.2, ?_⟩
      intro f0 hf0 _ hle hsize
      simp only [List.head?_cons, Option.some.injEq] at hf0
      subst hf0
      simp only [Cursor.seek]
      exact Nat.mod_eq_of_lt (by omega)
    · rename_i hc
      refine ⟨rfl, h, ?_⟩
      intro f0 hf0 hpos hle hsize
      simp only [List.head?_cons, Option.some.injEq] at hf0
      subst hf0
      exfalso
      apply hc
      rw [Nat.mod_eq_of_lt (by omega)]
      exact ⟨hpos, hle⟩

/-- The file of `PARSE_FILE_loop_starts` is the file of `PARSE_FILE_loop`. -/
theorem PARSE_FILE_loop_starts_file (plan : List (Int × Int)) :
    ∀ (c : Cursor) (file F : File) (starts : List Nat), PARSE_FILE_loop plan c file = .ok F →
      ∃ starts', PARSE_FILE_loop_starts plan c file starts = .ok (F, starts') := by
  induction plan with
  | nil =>
    intro c file F starts h
    simp only [PARSE_FILE_loop, pure, Except.pure, Except.ok.injEq] at h
    subst h
    exact ⟨starts, rfl⟩
  | cons p plan ih =>
    intro c file F starts h
    obtain ⟨t, i⟩ := p
    rw [PARSE_FILE_loop] at h
    rw [PARSE_FILE_loop_starts]
    by_cases hrem : c.remaining < 4
    · simp only [hrem, if_true, pure, Except.pure, Except.ok.injEq] at h ⊢
      subst h
      exact ⟨starts, rfl⟩
    · simp only [hrem, if_false, bind, Except.bind] at h ⊢
      by_cases hleg : IS_LEGACY_BINARY_TYPE t = true
      · simp only [hleg, if_true] at h ⊢
        cases hb : PARSE_BINARY_RECORD_BY_LEN c t with
        | error e => rw [hb] at h; simp at h
        | ok v =>
          obtain ⟨r, c1⟩ := v
          rw [hb] at h
          simp only at h ⊢
          exact ih _ _ _ _ h
      · simp only [hleg, Bool.false_eq_true, if_false] at h ⊢
        cases hb : PARSE_RECORD c with
        | error e => rw [hb] at h; simp at h
        | ok v =>
          obtain ⟨r, c1⟩ := v
          rw [hb] at h
          simp only [pure, Except.pure] at h ⊢
          exact ih _ _ _ _ h

/-- The file of `PARSE_FILE_starts` is the file of `PARSE_FILE`. -/
theorem PARSE_FILE_starts_file {x : List UInt8} {F : File} (h : PARSE_FILE x = .ok F) :
    ∃ starts, PARSE_FILE_starts x = .ok (F, starts) := by
  simp only [PARSE_FILE, bind, Except.bind] at h
  simp only [PARSE_FILE_starts, bind, Except.bind]
  cases hb : PARSE_RECORD { buffer_ := x } with
  | error e => rw [hb] at h; simp at h
  | ok v =>
    obtain ⟨r, c1⟩ := v
    rw [hb] at h
    simp only at h ⊢
    cases hp : PARSE_CNT_PLAN { r with type := 1, idc := -1 } with
    | error e => rw [hp] at h; simp at h
    | ok plan =>
      rw [hp] at h
      simp only at h ⊢
      exact PARSE_FILE_loop_starts_file plan _ _ _ _ h

/-- The offsets that `PARSE_FILE_loop_starts` records: one for each record it adds, each
inside the buffer, the first one the position of the cursor; and when a tagged record
declares a positive length `L` with `s + L` inside the buffer, the next record starts at
`s + L` or later. -/
theorem PARSE_FILE_loop_starts_inv (plan : List (Int × Int)) :
    ∀ (c : Cursor) (file F : File) (starts starts' : List Nat),
      PARSE_FILE_loop_starts plan c file starts = .ok (F, starts') →
      c.position_ ≤ c.buffer_.length → c.buffer_.length < SIZE_MOD →
      ∃ news newstarts, F.records = file.records ++ news ∧ starts' = starts ++ newstarts ∧
        news.length = newstarts.length ∧ (∀ s ∈ newstarts, s ≤ c.buffer_.length) ∧
        (∀ s', newstarts.head? = some s' → s' = c.position_) ∧
        ∀ (i : Nat) (r : Record) (s : Nat) (f0 : Field), news[i]? = some r →
          newstarts[i]? = some s → r.is_binary_record = false → r.fields.head? = some f0 →
          0 < PARSE_LEN_FROM_FIRST_FIELD f0 →
          s + PARSE_LEN_FROM_FIRST_FIELD f0 ≤ c.buffer_.length →
          ∀ s', newstarts[i + 1]? = some s' → s + PARSE_LEN_FROM_FIRST_FIELD f0 ≤ s' := by
  induction plan with
  | nil =>
    intro c file F starts starts' h _ _
    simp only [PARSE_FILE_loop_starts, pure, Except.pure, Except.ok.injEq, Prod.mk.injEq] at h
    obtain ⟨h1, h2⟩ := h
    subst h1 h2
    exact ⟨[], [], by simp, by simp, rfl, by simp, by simp, by simp⟩
  | cons p plan ih =>
    intro c file F starts starts' h hpos hsize
    obtain ⟨t, idc⟩ := p
    rw [PARSE_FILE_loop_starts] at h
    by_cases hrem : c.remaining < 4
    · simp only [hrem, if_true, pure, Except.pure, Except.ok.injEq, Prod.mk.injEq] at h
      obtain ⟨h1, h2⟩ := h
      subst h1 h2
      exact ⟨[], [], by simp, by simp, rfl, by simp, by simp, by simp⟩
    · simp only [hrem, if_false, bind, Except.bind, Cursor.position] at h
      -- one step of the loop: the record, and the cursor in front of the next record
      have hstep : ∃ (r : Record) (c2 : Cursor),
          PARSE_FILE_loop_starts plan c2
            { records := file.records ++ [{ r with type := t, idc := idc }] }
            (starts ++ [c.position_]) = .ok (F, starts') ∧
          c2.buffer_ = c.buffer_ ∧ c2.position_ ≤ c.buffer_.length ∧
          (r.is_binary_record = false → ∀ f0, r.fields.head? = some f0 →
            0 < PARSE_LEN_FROM_FIRST_FIELD f0 →
            c.position_ + PARSE_LEN_FROM_FIRST_FIELD f0 ≤ c.buffer_.length →
            c.position_ + PARSE_LEN_FROM_FIRST_FIELD f0 ≤ c2.position_) := by
        by_cases hleg : IS_LEGACY_BINARY_TYPE t = true
        · simp only [hleg, if_true] at h
          cases hb : PARSE_BINARY_RECORD_BY_LEN c t with
          | error e => rw [hb] at h; simp at h
          | ok v =>
            obtain ⟨r, c1⟩ := v
            rw [hb] at h
            simp only at h
            obtain ⟨hb1, _, e3, _, _, _, _, e8, e9, _⟩ := PARSE_BINARY_RECORD_BY_LEN_inv hb
            have hsk := SKIP_SEPARATORS_position c1 (by rw [hb1, e9]; exact e8)
            refine ⟨r, SKIP_SEPARATORS c1, h, by rw [hsk.1, hb1], by
              have := hsk.2.2; rw [hb1] at this; exact this, ?_⟩
            intro hc
            rw [e3] at hc
            exact absurd hc (by decide)
        · simp only [hleg, Bool.false_eq_true, if_false] at h
          cases hb : PARSE_RECORD c with
          | error e => rw [hb] at h; simp at h
          | ok v =>
            obtain ⟨r, c1⟩ := v
            rw [hb] at h
            simp only [pure, Except.pure] at h
            obtain ⟨hb1, _, hle1⟩ := (PARSE_RECORD_fuel c).2 r c1 hb
            have hsy := SYNC_TO_LEN_IF_PRESENT_position c1 c.position_ r (by rw [hb1]; exact hle1)
            have hsk := SKIP_SEPARATORS_position (SYNC_TO_LEN_IF_PRESENT c1 c.position_ r)
              (by rw [hsy.1]; exact hsy.2.1)
            refine ⟨r, SKIP_SEPARATORS (SYNC_TO_LEN_IF_PRESENT c1 c.position_ r), h,
              by rw [hsk.1, hsy.1, hb1], by
                have := hsk.2.2; rw [hsy.1, hb1] at this; exact this, ?_⟩
            intro _ f0 hf0 hL hle
            have := hsy.2.2 f0 hf0 hL (by rw [hb1]; exact hle) (by rw [hb1]; exact hsize)
            have h2 := hsk.2.1
            omega
      obtain ⟨r, c2, hrec, hb2, hp2, hsync⟩ := hstep
      obtain ⟨news, newstarts, h1, h2, h3, h4, h5, h6⟩ :=
        ih c2 _ F _ starts' hrec (by rw [hb2]; exact hp2) (by rw [hb2]; exact hsize)
      refine ⟨{ r with type := t, idc := idc } :: news, c.position_ :: newstarts,
        by simpa using h1, by simpa using h2, by simp [h3], ?_, by simp, ?_⟩
      · intro s hs
        simp only [List.mem_cons] at hs
        rcases hs with rfl | hs
        · exact hpos
        · have := h4 s hs
          rw [hb2] at this
          exact this
      · intro i r' s f0 hr hs hbin hf0 hL hle s' hs'
        cases i with
        | zero =>
          simp only [List.getElem?_cons_zero, Option.some.injEq] at hr hs
          subst hr hs
          simp only [Nat.zero_add, List.getElem?_cons_succ] at hs'
          have hhead : newstarts.head? = some s' := by
            rw [List.head?_eq_getElem?]; exact hs'
          rw [h5 s' hhead]
          exact hsync hbin f0 hf0 hL hle
        | succ j =>
          simp only [List.getElem?_cons_succ] at hr hs hs'
          exact h6 j r' s f0 hr hs hbin hf0 hL (by rw [hb2]; exact hle) s' hs'

/-! ### The length prefix of a legacy binary record -/

theorem be_byte (n k : Nat) :
    (UInt8.ofNat ((n >>> k) &&& BYTE_MASK)).toNat = n / 2 ^ k % 256 := by
  have hm : BYTE_MASK = 2 ^ 8 - 1 := by decide
  rw [uint8_toNat_ofNat, Nat.shiftRight_eq_div_pow, hm, Nat.and_pow_two_sub_one_eq_mod]
  omega

/-- What `UPDATE_ALL_LENGTHS` leaves of a legacy binary record of `n` bytes,
`4 ≤ n < 2 ^ 32`: the size is `n`, the first four bytes read as `n`, and the bytes from
index 4 on are the same. -/
theorem UPDATE_ALL_LENGTHS_record_patch {r : Record} (hbin : r.is_binary_record = true)
    (h4 : 4 ≤ r.raw_record.length) (hlt : r.raw_record.length < 2 ^ 32) :
    ∃ r', UPDATE_ALL_LENGTHS_record r = .ok r' ∧ r'.is_binary_record = true ∧
      r'.type = r.type ∧ r'.idc = r.idc ∧ r'.fields = r.fields ∧
      r'.raw_record.length = r.raw_record.length ∧
      READ_BE_U32 (r'.raw_record.take 4) = r.raw_record.length ∧
      ∀ i, 4 ≤ i → r'.raw_record[i]? = r.raw_record[i]? := by
  have hmod : r.raw_record.length % U32_MOD = r.raw_record.length :=
    Nat.mod_eq_of_lt (by simp only [U32_MOD]; exact hlt)
  have h4' : ¬ r.raw_record.length < 4 := by omega
  simp only [UPDATE_ALL_LENGTHS_record, hbin, if_true, hmod, h4', if_false]
  refine ⟨_, rfl, rfl, rfl, rfl, rfl, by simp, ?_, ?_⟩
  · match hr : r.raw_record, h4 with
    | b0 :: b1 :: b2 :: b3 :: t, _ =>
      simp only [List.set_cons_zero, List.set_cons_succ, List.take_succ_cons, List.take_zero]
      rw [READ_BE_U32_eq, be_byte, be_byte, be_byte]
      have e3 : (UInt8.ofNat ((b0 :: b1 :: b2 :: b3 :: t).length &&& BYTE_MASK)).toNat =
          (b0 :: b1 :: b2 :: b3 :: t).length % 256 := by
        have := be_byte (b0 :: b1 :: b2 :: b3 :: t).length 0
        simpa using this
      rw [e3]
      simp only [SHIFT_24, SHIFT_16, SHIFT_8]
      rw [hr] at hlt
      omega
  · intro i hi
    obtain ⟨j, rfl⟩ : ∃ j, i = j + 4 := ⟨i - 4, by omega⟩
    match hr : r.raw_record, h4 with
    | b0 :: b1 :: b2 :: b3 :: t, _ =>
      simp only [List.set_cons_zero, List.set_cons_succ, List.getElem?_cons_succ]

theorem UPDATE_ALL_LENGTHS_loop_patch (rs : List Record)
    (h : ∀ r ∈ rs, r.is_binary_record = true →
      4 ≤ r.raw_record.length ∧ r.raw_record.length < 2 ^ 32) :
    ∃ rs', UPDATE_ALL_LENGTHS_loop rs = .ok rs' ∧
      List.Forall₂ (fun r r' => r.is_binary_record = true →
        r'.is_binary_record = true ∧ r'.raw_record.length = r.raw_record.length ∧
        READ_BE_U32 (r'.raw_record.take 4) = r.raw_record.length ∧
        ∀ i, 4 ≤ i → r'.raw_record[i]? = r.raw_record[i]?) rs rs' := by
  obtain ⟨rs', hrs'⟩ := UPDATE_ALL_LENGTHS_loop_ok rs (fun r hr hb => (h r hr hb).1)
  refine ⟨rs', hrs', ?_⟩
  refine forall₂_imp_mem (UPDATE_ALL_LENGTHS_loop_forall rs rs' hrs') ?_
  intro r r' hr hupd hbin
  obtain ⟨r'', h1, h2, _, _, _, h3, h4, h5⟩ :=
    UPDATE_ALL_LENGTHS_record_patch hbin (h r hr hbin).1 (h r hr hbin).2
  rw [hupd] at h1
  simp only [Except.ok.injEq] at h1
  subst h1
  exact ⟨h2, h3, h4, h5⟩

/-! ### The cursor after a `.999` field -/

theorem strip_end_le (buffer : List UInt8) (s e : Nat) (sep : UInt8) :
    strip_end buffer s e sep ≤ e ∧ e ≤ strip_end buffer s e sep + 1 ∧
      (s ≤ e → s ≤ strip_end buffer s e sep) := by
  unfold strip_end
  split
  · rename_i h
    omega
  · omega

theorem PARSE_BINARY_FIELD_strip_eq (c : Cursor) (s e : Nat) (sep : UInt8)
    (he : e ≤ c.buffer_.length) :
    PARSE_BINARY_FIELD_strip c s e sep = .ok (strip_end c.buffer_ s e sep) := by
  unfold PARSE_BINARY_FIELD_strip strip_end
  by_cases hgt : e > s
  · have hlt : e - 1 < c.buffer_.length := by omega
    have hget : c.buffer_[e - 1]? = some (c.buffer_[e - 1]) := List.getElem?_eq_getElem hlt
    simp only [hgt, if_true, true_and, Cursor.at, hget, bind, Except.bind, pure, Except.pure,
      Option.some.injEq]
    by_cases hb : c.buffer_[e - 1] = sep
    · simp [hb]
    · have : (c.buffer_[e - 1] == sep) = false := by simpa using hb
      simp [this, hb]
  · simp [hgt, pure, Except.pure]

/-- `PARSE_BINARY_FIELD` with a known record end between the cursor and the end of the
buffer: the payload runs to `payload_end` and the cursor is left there. -/
theorem PARSE_BINARY_FIELD_known (c : Cursor) (record_end : Nat)
    (h1 : c.position_ ≤ record_end) (h2 : record_end ≤ c.buffer_.length)
    (h3 : record_end ≠ INVALID_INDEX) :
    PARSE_BINARY_FIELD c record_end =
      .ok ({ is_binary_field := true,
             raw_field := (c.buffer_.drop c.position_).take
               (payload_end c.buffer_ c.position_ record_end - c.position_) },
        { c with position_ := payload_end c.buffer_ c.position_ record_end }) := by
  have b1 := strip_end_le c.buffer_ c.position_ record_end FS
  have b2 := strip_end_le c.buffer_ c.position_ (strip_end c.buffer_ c.position_ record_end FS) GS
  have hs1 := PARSE_BINARY_FIELD_strip_eq c c.position_ record_end FS h2
  have hs2 := PARSE_BINARY_FIELD_strip_eq c c.position_
    (strip_end c.buffer_ c.position_ record_end FS) GS (by omega)
  have hslice : (c.seek (payload_end c.buffer_ c.position_ record_end)).slice c.position_
      (payload_end c.buffer_ c.position_ record_end) =
      .ok ((c.buffer_.drop c.position_).take
        (payload_end c.buffer_ c.position_ record_end - c.position_)) := by
    simp only [Cursor.slice, Cursor.seek, Cursor.size, payload_end]
    rw [if_pos ⟨by have := b1.2.2 h1; omega, by omega⟩]
  simp only [PARSE_BINARY_FIELD, if_neg h3, Cursor.position, bind, Except.bind, hs1, hs2, pure,
    Except.pure]
  rw [show strip_end c.buffer_ c.position_ (strip_end c.buffer_ c.position_ record_end FS) GS =
    payload_end c.buffer_ c.position_ record_end from rfl, hslice]
  rfl

/-! ### A record of textual fields is read back -/

theorem fields_bytes_text_only (fs : List Field) (h : ∀ f ∈ fs, f.is_binary_field = false) :
    fields_bytes (fs.map text_only) = fields_bytes fs := by
  induction fs with
  | nil => rfl
  | cons f rest ih =>
    rw [List.map_cons, fields_bytes_cons, fields_bytes_cons,
      ih (fun g hg => h g (List.mem_cons_of_mem _ hg)),
      field_bytes_text (h f (List.mem_cons_self _ _)), field_bytes_text (f := text_only f) rfl]
    simp [text_only]

theorem field_bytes_text_ne_nil {f : Field} (h : f.is_binary_field = false) (last : Bool) :
    ∃ b t, field_bytes f last = b :: t ∧ (f.tag.head? ≠ some FS → b ≠ FS) := by
  rw [field_bytes_text h]
  cases htag : f.tag with
  | nil => exact ⟨COLON, _, rfl, fun _ => by decide⟩
  | cons b t => exact ⟨b, _, rfl, fun hb hc => hb (by simp [hc])⟩

theorem text_fields_length (fs : List Field) (h : ∀ f ∈ fs, f.is_binary_field = false) :
    fs.length ≤ (fields_bytes fs).length := by
  induction fs with
  | nil => simp
  | cons f rest ih =>
    rw [fields_bytes_cons]
    obtain ⟨b, t, hbt, _⟩ := field_bytes_text_ne_nil (h f (List.mem_cons_self _ _)) rest.isEmpty
    have := ih (fun g hg => h g (List.mem_cons_of_mem _ hg))
    rw [hbt]
    simp only [List.length_cons, List.length_append]
    omega

/-- The loop of `PARSE_RECORD` on the bytes of textual fields, whatever `record_end`. -/
theorem PARSE_RECORD_loop_text_sees (fs : List Field) :
    ∀ (fuel : Nat) (c : Cursor) (acc : Record) (rest : List UInt8) (record_end : Nat),
      fs.length < fuel → c.Sees (fields_bytes fs ++ FS :: rest) →
      (∀ f ∈ fs, text_field_ok f ∧ f.tag.head? ≠ some FS) →
      ∃ c', PARSE_RECORD_loop record_end fuel c acc =
          .ok ({ acc with fields := acc.fields ++ fs }, c') ∧
        c'.buffer_ = c.buffer_ ∧ c'.Sees (FS :: rest) := by
  induction fs with
  | nil =>
    intro fuel c acc rest record_end hfuel hsees _
    obtain ⟨fuel, rfl⟩ : ∃ f, fuel = f + 1 := ⟨fuel - 1, by simp at hfuel; omega⟩
    simp only [fields_bytes, SERIALIZE_RECORD_loop, List.nil_append] at hsees
    refine ⟨c, ?_, rfl, hsees⟩
    simp [PARSE_RECORD_loop, hsees.peek.1, hsees.peek.2, pure, Except.pure]
  | cons f more ih =>
    intro fuel c acc rest record_end hfuel hsees hok
    obtain ⟨fuel, rfl⟩ : ∃ f, fuel = f + 1 := ⟨fuel - 1, by simp at hfuel; omega⟩
    obtain ⟨ht, hhead⟩ := hok f (List.mem_cons_self _ _)
    rw [fields_bytes_cons] at hsees
    have hcond : (!c.done && c.peek != FS) = true := by
      obtain ⟨b, t, hbt, hb⟩ := field_bytes_text_ne_nil ht.1 more.isEmpty
      rw [hbt] at hsees
      simp only [List.cons_append] at hsees
      have hp := hsees.peek
      simp [hp.1, hp.2, hb hhead]
    rw [field_bytes_text ht.1] at hsees
    cases more with
    | nil =>
      simp only [List.isEmpty_nil, if_true, List.append_nil, List.append_assoc,
        List.cons_append, fields_bytes, SERIALIZE_RECORD_loop, List.nil_append] at hsees
      obtain ⟨c1, h1, hb1, hs1⟩ := PARSE_FIELD_text_sees ht record_end hsees (Or.inr rfl)
      refine ⟨c1, ?_, hb1, hs1⟩
      rw [PARSE_RECORD_loop, if_pos hcond, h1]
      simp [bind, Except.bind, pure, Except.pure, hs1.peek.1, hs1.peek.2]
      intro hc
      exact absurd hc (by decide)
    | cons g more2 =>
      simp only [List.isEmpty_cons, Bool.false_eq_true, if_false, List.append_assoc,
        List.cons_append, List.nil_append] at hsees
      obtain ⟨c1, h1, hb1, hs1⟩ := PARSE_FIELD_text_sees ht record_end hsees (Or.inl rfl)
      obtain ⟨c2, h2, hb2, hs2⟩ := ih fuel c1.advance
        { acc with fields := acc.fields ++ [f] } rest record_end
        (by simp at hfuel ⊢; omega) hs1.advance.2
        (fun x hx => hok x (List.mem_cons_of_mem _ hx))
      refine ⟨c2, ?_, by rw [hb2, hs1.advance.1, hb1], hs2⟩
      rw [PARSE_RECORD_loop, if_pos hcond, h1]
      simp [bind, Except.bind, pure, Except.pure, hs1.peek.1, hs1.peek.2]
      simpa using h2

/-- `PARSE_RECORD` on the bytes of a non-empty list of textual fields and a closing FS. -/
theorem PARSE_RECORD_text_sees {f0 : Field} {others : List Field} {c : Cursor}
    {rest : List UInt8}
    (hok : ∀ f ∈ f0 :: others, text_field_ok f ∧ f.tag.head? ≠ some FS)
    (hsees : c.Sees (fields_bytes (f0 :: others) ++ FS :: rest)) :
    ∃ c', PARSE_RECORD c = .ok ({ fields := f0 :: others }, c') ∧ c'.buffer_ = c.buffer_ ∧
      c'.Sees (FS :: rest) := by
  obtain ⟨ht, _⟩ := hok f0 (List.mem_cons_self _ _)
  have hothers : ∀ f ∈ others, text_field_ok f ∧ f.tag.head? ≠ some FS :=
    fun f hf => hok f (List.mem_cons_of_mem _ hf)
  -- the first field, and the GS after it
  have hfirst : ∃ c2, (do
        let (first_field, cursor) ← PARSE_FIELD c INVALID_INDEX
        pure (first_field, if !cursor.done && cursor.peek == GS then cursor.advance else cursor)
          : Except Error (Field × Cursor)) = .ok (f0, c2) ∧
      c2.buffer_ = c.buffer_ ∧ c2.Sees (fields_bytes others ++ FS :: rest) := by
    rw [fields_bytes_cons, field_bytes_text ht.1] at hsees
    cases others with
    | nil =>
      simp only [List.isEmpty_nil, if_true, List.append_nil, List.append_assoc,
        List.cons_append, fields_bytes, SERIALIZE_RECORD_loop, List.nil_append] at hsees
      obtain ⟨c1, h1, hb1, hs1⟩ := PARSE_FIELD_text_sees ht INVALID_INDEX hsees (Or.inr rfl)
      refine ⟨c1, ?_, hb1, by simpa [fields_bytes, SERIALIZE_RECORD_loop] using hs1⟩
      simp [h1, bind, Except.bind, pure, Except.pure, hs1.peek.1, hs1.peek.2]
      intro hc
      exact absurd hc (by decide)
    | cons g more =>
      simp only [List.isEmpty_cons, Bool.false_eq_true, if_false, List.append_assoc,
        List.cons_append, List.nil_append] at hsees
      obtain ⟨c1, h1, hb1, hs1⟩ := PARSE_FIELD_text_sees ht INVALID_INDEX hsees (Or.inl rfl)
      refine ⟨c1.advance, ?_, by rw [hs1.advance.1, hb1], hs1.advance.2⟩
      simp [h1, bind, Except.bind, pure, Except.pure, hs1.peek.1, hs1.peek.2]
  obtain ⟨c2, h2, hb2, hs2⟩ := hfirst
  have hfuel : others.length < c2.size + 1 := by
    have h1 := hs2.length
    have h3 := text_fields_length others (fun f hf => (hothers f hf).1.1)
    simp only [List.length_append, List.length_cons] at h1
    simp only [Cursor.size]
    omega
  simp only [PARSE_RECORD, Cursor.position]
  simp only [bind, Except.bind, pure, Except.pure] at h2 ⊢
  cases hpf : PARSE_FIELD c INVALID_INDEX with
  | error e => rw [hpf] at h2; simp at h2
  | ok v =>
    rw [hpf] at h2
    simp only [Except.ok.injEq, Prod.mk.injEq] at h2
    obtain ⟨hv1, hv2⟩ := h2
    simp only [hv1, hv2]
    obtain ⟨c3, h3, hb3, hs3⟩ := PARSE_RECORD_loop_text_sees others (c2.size + 1) c2
      { fields := [f0] } rest
      (if PARSE_LEN_FROM_FIRST_FIELD f0 > 0 ∧
          (c.position_ + PARSE_LEN_FROM_FIRST_FIELD f0) % SIZE_MOD ≤ c2.size then
        (c.position_ + PARSE_LEN_FROM_FIRST_FIELD f0) % SIZE_MOD
      else INVALID_INDEX) hfuel hs2 hothers
    exact ⟨c3, by simpa using h3, by rw [hb3, hb2], hs3⟩

/-! ### A file is read back from the bytes `SERIALIZE_FILE` writes -/

/-- The file of `empty_subfields_input "12" 1`, whose second field has a single empty item
as its only subfield, is not `records_ready`; the file `settle` makes of it is. -/
theorem settle_empty_subfields :
    ¬ records_ready true (empty_subfields_file "12" 1).records ∧
      records_ready true (settle (empty_subfields_file "12" 1)).records := by
  decide

/-! ## The claims -/

set_option maxRecDepth 8000 in
/-- C1 (the code at the failing input): `two_record_bytes "95"` is a file of two records
whose lengths are right, 95 and 10 bytes. `PARSE_FILE` reads it, `SERIALIZE_FILE` leaves 96
in the length field of the Type-1 record and writes that record in 95 bytes, and
`PARSE_FILE` on the bytes written throws `Invalid binary LEN`: there is no file `B`. -/
theorem C1_roundtrip_throws :
    PARSE_FILE (two_record_bytes "95") = .ok (two_record_file "95") ∧
      (two_record_file "95").records.map (fun r => (SERIALIZE_RECORD [] r).length) = [95, 10] ∧
      SERIALIZE_FILE (two_record_file "95") =
        .ok (two_record_file "96", two_record_bytes "96") ∧
      (two_record_file "96").records.map (fun r => (SERIALIZE_RECORD [] r).length) = [95, 10] ∧
      PARSE_FILE (two_record_bytes "96") = .error .InvalidBinaryLEN :=
  ⟨by rfl, by rfl, by rfl, by rfl, by rfl⟩

/-- C4 (the code at the failing input): `short_len_input` is a record of 8 bytes whose
length field says 8; `SERIALIZE_FILE` leaves the length field at 9 and emits 8 bytes. -/
theorem C4_length_field_off_by_one :
    PARSE_FILE short_len_input = .ok (short_len_file "8") ∧
      SERIALIZE_FILE (short_len_file "8") = .ok (short_len_file "9", ascii "1.001:9\x1c") ∧
      (short_len_file "9").records.map (fun r => r.fields.map PARSE_LEN_FROM_FIRST_FIELD) =
        [[9]] ∧
      (short_len_file "9").records.map (fun r => (SERIALIZE_RECORD [] r).length) = [8] :=
  ⟨by rfl, by rfl, by rfl, by rfl⟩

/-- C5 (the code at the failing input): `cnt_input` parses to one record with a CNT field;
after a tagged record of type 2 is appended, `SERIALIZE_FILE` leaves the CNT field as it
was, and the re-parse of its bytes has one record, the count 1 and an empty plan. -/
theorem C5_serialize_leaves_cnt :
    PARSE_FILE cnt_input = .ok { records := [cnt_type1] } ∧
      SERIALIZE_FILE { records := [cnt_type1, appended_record "19"] } =
        .ok ({ records := [cnt_type1, appended_record "19"] },
          ascii "1.001:17\x1d1.003:1\x1c2.001:19\x1d2.002:DOE\x1c") ∧
      PARSE_FILE (ascii "1.001:17\x1d1.003:1\x1c2.001:19\x1d2.002:DOE\x1c") =
        .ok { records := [cnt_type1] } ∧
      cnt_type1.fields.map (fun f => f.subfields.map (fun s => s.items.map (fun i => i.bytes))) =
        [[[ascii "17"]], [[ascii "1"]]] ∧
      PARSE_CNT_PLAN cnt_type1 = .ok [] :=
  ⟨by rfl, by rfl, by rfl, by rfl, by rfl⟩

/-- C6: every file `PARSE_FILE` returns has a first record, and that record is tagged, of
type 1 and with idc -1. -/
theorem C6_first_record_is_type1 (x : List UInt8) (F : File) (h : PARSE_FILE x = .ok F) :
    ∃ t1 rest, F.records = t1 :: rest ∧
      t1.is_binary_record = false ∧ t1.type = 1 ∧ t1.idc = -1 := by
  obtain ⟨t1, rs, plan, tail, hF, ht, hi, hinv1, _⟩ := PARSE_FILE_inv h
  exact ⟨t1, rs, hF, hinv1.1, ht, hi⟩

/-- C6, witness: the three-record file `sample_input`. -/
theorem C6_first_record_is_type1_witness :
    PARSE_FILE sample_input = .ok sample_parsed ∧
      ∃ t1 rest, sample_parsed.records = t1 :: rest ∧
        t1.is_binary_record = false ∧ t1.type = 1 ∧ t1.idc = -1 :=
  ⟨by rfl, C6_first_record_is_type1 sample_input sample_parsed (by rfl)⟩

/-- C7: on every file `F` that `PARSE_FILE` returns, `PARSE_CNT_PLAN` of the first record
returns a plan, `F` has at most `1 + |plan|` records, and the record at index `i + 1` has
the type and the idc of the plan entry at index `i`. -/
theorem C7_records_follow_plan (x : List UInt8) (F : File) (h : PARSE_FILE x = .ok F) :
    ∃ t1 plan, F.records.head? = some t1 ∧ PARSE_CNT_PLAN t1 = .ok plan ∧
      F.records.length ≤ 1 + plan.length ∧
      ∀ (i : Nat) (r : Record), F.records[i + 1]? = some r →
        plan[i]? = some (r.type, r.idc) := by
  obtain ⟨t1, rs, plan, tail, hF, _, _, _, hplan, hpl, _⟩ := PARSE_FILE_inv h
  refine ⟨t1, plan, by rw [hF]; rfl, hplan, ?_, ?_⟩
  · rw [hF, hpl]
    simp
    omega
  · intro i r hr
    rw [hF] at hr
    simp only [List.getElem?_cons_succ] at hr
    have hi : i < rs.length := by
      by_contra hc
      rw [List.getElem?_eq_none (by omega)] at hr
      simp at hr
    rw [hpl, List.getElem?_append_left (by simpa using hi), List.getElem?_map, hr]
    rfl

/-- C7, witness: the three-record file `sample_input`. -/
theorem C7_records_follow_plan_witness :
    PARSE_FILE sample_input = .ok sample_parsed ∧
      ∃ t1 plan, sample_parsed.records.head? = some t1 ∧ PARSE_CNT_PLAN t1 = .ok plan ∧
        sample_parsed.records.length ≤ 1 + plan.length ∧
        ∀ (i : Nat) (r : Record), sample_parsed.records[i + 1]? = some r →
          plan[i]? = some (r.type, r.idc) :=
  ⟨by rfl, C7_records_follow_plan sample_input sample_parsed (by rfl)⟩

/-- C8: in every file `PARSE_FILE` returns, a record is binary exactly when its type is one
of 3, 4, 5, 6, 7, 8 (that is, `IS_LEGACY_BINARY_TYPE` of its type); a binary record has no
fields and a tagged record has an empty `raw_record`. -/
theorem C8_binary_iff_legacy_type (x : List UInt8) (F : File) (h : PARSE_FILE x = .ok F) :
    ∀ r ∈ F.records,
      (r.is_binary_record = true ↔ r.type ∈ [3, 4, 5, 6, 7, 8]) ∧
        r.is_binary_record = IS_LEGACY_BINARY_TYPE r.type ∧
        (r.is_binary_record = true → r.fields = []) ∧
        (r.is_binary_record = false → r.raw_record = []) := by
  intro r hr
  obtain ⟨hk, hb, ht⟩ := parsed_record_kind h r hr
  refine ⟨?_, hk, fun h1 => (hb h1).1, ht⟩
  rw [hk]
  simp only [IS_LEGACY_BINARY_TYPE, Bool.or_eq_true, beq_iff_eq, List.mem_cons,
    List.mem_singleton, List.not_mem_nil, or_false, or_assoc]

/-- C8, witness: the three-record file `sample_input`. -/
theorem C8_binary_iff_legacy_type_witness :
    PARSE_FILE sample_input = .ok sample_parsed ∧
      ∀ r ∈ sample_parsed.records,
        (r.is_binary_record = true ↔ r.type ∈ [3, 4, 5, 6, 7, 8]) ∧
          r.is_binary_record = IS_LEGACY_BINARY_TYPE r.type ∧
          (r.is_binary_record = true → r.fields = []) ∧
          (r.is_binary_record = false → r.raw_record = []) :=
  ⟨by rfl, C8_binary_iff_legacy_type sample_input sample_parsed (by rfl)⟩

/-- C9: in every file `PARSE_FILE` returns, `READ_BE_U32` of the first four bytes of the
`raw_record` of a binary record is the size of the `raw_record`, and that size is at
least 8. -/
theorem C9_binary_length_prefix (x : List UInt8) (F : File) (h : PARSE_FILE x = .ok F) :
    ∀ r ∈ F.records, r.is_binary_record = true →
      READ_BE_U32 (r.raw_record.take 4) = r.raw_record.length ∧ r.raw_record.length ≥ 8 := by
  intro r hr hb
  obtain ⟨_, h1, _⟩ := parsed_record_kind h r hr
  obtain ⟨_, h2, h3⟩ := h1 hb
  exact ⟨by rw [READ_BE_U32_take _ (by omega)]; exact h2, h3⟩

/-- C9, witness: the three-record file `sample_input`. -/
theorem C9_binary_length_prefix_witness :
    PARSE_FILE sample_input = .ok sample_parsed ∧
      ∀ r ∈ sample_parsed.records, r.is_binary_record = true →
        READ_BE_U32 (r.raw_record.take 4) = r.raw_record.length ∧ r.raw_record.length ≥ 8 :=
  ⟨by rfl, C9_binary_length_prefix sample_input sample_parsed (by rfl)⟩

/-- C10: on every file `A` that `PARSE_FILE` returns, `SERIALIZE_FILE` succeeds; it leaves
every binary record of `A` as it was, and the `raw_record` of every binary record of `A`
is a contiguous part of the bytes it returns. -/
theorem C10_binary_records_verbatim (x : List UInt8) (A : File) (h : PARSE_FILE x = .ok A) :
    ∃ A' bytes, SERIALIZE_FILE A = .ok (A', bytes) ∧
      List.Forall₂ (fun r r' => r.is_binary_record = true → r' = r) A.records A'.records ∧
      ∀ r ∈ A.records, r.is_binary_record = true →
        ∃ pre post, bytes = pre ++ r.raw_record ++ post := by
  have hkind := parsed_record_kind h
  obtain ⟨rs', hrs'⟩ := UPDATE_ALL_LENGTHS_loop_ok A.records (fun r hr hb => by
    have := ((hkind r hr).2.1 hb).2.2
    omega)
  have hser : SERIALIZE_FILE A = .ok ({ records := rs' }, records_bytes rs') := by
    simp [SERIALIZE_FILE, UPDATE_ALL_LENGTHS, bind, Except.bind, hrs', pure, Except.pure,
      records_bytes]
  have hfa := UPDATE_ALL_LENGTHS_loop_forall _ _ hrs'
  have hsame : ∀ r r', r ∈ A.records → UPDATE_ALL_LENGTHS_record r = .ok r' →
      r.is_binary_record = true → r' = r := by
    intro r r' hr hupd hb
    obtain ⟨_, h2, h3⟩ := (hkind r hr).2.1 hb
    rw [UPDATE_ALL_LENGTHS_record_binary hb h2 (by omega)] at hupd
    simp only [Except.ok.injEq] at hupd
    exact hupd.symm
  refine ⟨{ records := rs' }, records_bytes rs', hser, ?_, ?_⟩
  · exact forall₂_imp_mem hfa (fun r r' hr hupd hb => hsame r r' hr hupd hb)
  · intro r hr hb
    obtain ⟨r', hr', hupd⟩ := forall₂_mem_left hfa r hr
    have := hsame r r' hr hupd hb
    subst this
    obtain ⟨pre, post, hpp⟩ := records_bytes_mem hr'
    exact ⟨pre, post, by rw [hpp, record_bytes_binary hb]⟩

/-- C10, witness: the three-record file `sample_input`. -/
theorem C10_binary_records_verbatim_witness :
    PARSE_FILE sample_input = .ok sample_parsed ∧
      ∃ A' bytes, SERIALIZE_FILE sample_parsed = .ok (A', bytes) ∧
        List.Forall₂ (fun r r' => r.is_binary_record = true → r' = r)
          sample_parsed.records A'.records ∧
        ∀ r ∈ sample_parsed.records, r.is_binary_record = true →
          ∃ pre post, bytes = pre ++ r.raw_record ++ post :=
  ⟨by rfl, C10_binary_records_verbatim sample_input sample_parsed (by rfl)⟩

/-- C11: on a cursor inside its buffer, with `remaining` bytes left and `L` the
big-endian 32-bit value of the next four bytes, `PARSE_BINARY_RECORD_BY_LEN` throws
"Binary record EOF" when `remaining < 4`, throws "Invalid binary LEN" when `L < 8` or
`L > remaining`, and otherwise returns a record whose `raw_record` is exactly the `L`
bytes at the cursor, with the cursor advanced by `L`; it fails if and only if one of
the two error conditions holds. -/
theorem C11_binary_record_by_len (c : Cursor) (t : Int) (remaining L : Nat)
    (hpos : c.position_ ≤ c.buffer_.length)
    (hrem : remaining = c.buffer_.length - c.position_)
    (hL : L = READ_BE_U32 ((c.buffer_.drop c.position_).take 4)) :
    (remaining < 4 → PARSE_BINARY_RECORD_BY_LEN c t = .error .BinaryRecordEOF) ∧
      (4 ≤ remaining → (L < 8 ∨ L > remaining) →
        PARSE_BINARY_RECORD_BY_LEN c t = .error .InvalidBinaryLEN) ∧
      (4 ≤ remaining → 8 ≤ L → L ≤ remaining →
        ∃ r c', PARSE_BINARY_RECORD_BY_LEN c t = .ok (r, c') ∧
          r.raw_record = (c.buffer_.drop c.position_).take L ∧ r.raw_record.length = L ∧
          c'.buffer_ = c.buffer_ ∧ c'.position_ = c.position_ + L ∧
          r.type = t ∧ r.is_binary_record = true) ∧
      ((∃ e, PARSE_BINARY_RECORD_BY_LEN c t = .error e) ↔
        (remaining < 4 ∨ (4 ≤ remaining ∧ (L < 8 ∨ L > remaining)))) := by
  subst hrem hL
  have hok : 4 ≤ c.buffer_.length - c.position_ →
      8 ≤ READ_BE_U32 ((c.buffer_.drop c.position_).take 4) →
      READ_BE_U32 ((c.buffer_.drop c.position_).take 4) ≤ c.buffer_.length - c.position_ →
      ∃ r c', PARSE_BINARY_RECORD_BY_LEN c t = .ok (r, c') ∧
        r.raw_record = (c.buffer_.drop c.position_).take
          (READ_BE_U32 ((c.buffer_.drop c.position_).take 4)) ∧
        r.raw_record.length = READ_BE_U32 ((c.buffer_.drop c.position_).take 4) ∧
        c'.buffer_ = c.buffer_ ∧
        c'.position_ = c.position_ + READ_BE_U32 ((c.buffer_.drop c.position_).take 4) ∧
        r.type = t ∧ r.is_binary_record = true := by
    intro h4 h8 hle
    obtain ⟨r, hr, hraw, htype, hbin, -⟩ := PARSE_BINARY_RECORD_BY_LEN_ok t hpos h4 h8 hle
    refine ⟨r, _, hr, hraw, ?_, rfl, rfl, htype, hbin⟩
    rw [hraw, List.length_take, List.length_drop]
    omega
  refine ⟨PARSE_BINARY_RECORD_BY_LEN_eof t hpos,
    PARSE_BINARY_RECORD_BY_LEN_invalid t hpos, hok, ?_, ?_⟩
  · rintro ⟨e, he⟩
    by_contra hcon
    have h4 : 4 ≤ c.buffer_.length - c.position_ := by omega
    obtain ⟨r, c', hr, -⟩ := hok h4 (by omega) (by omega)
    rw [hr] at he
    cases he
  · rintro (h | ⟨h4, h⟩)
    · exact ⟨_, PARSE_BINARY_RECORD_BY_LEN_eof t hpos h⟩
    · exact ⟨_, PARSE_BINARY_RECORD_BY_LEN_invalid t hpos h4 h⟩

/-- C11, witness: the legacy binary record of `sample_input`, which starts at offset 26
and declares 10 bytes. -/
theorem C11_binary_record_by_len_witness :
    (26 : Nat) ≤ sample_input.length ∧
      ∃ r c', PARSE_BINARY_RECORD_BY_LEN { buffer_ := sample_input, position_ := 26 } 4 =
          .ok (r, c') ∧
        r.raw_record = (sample_input.drop 26).take 10 ∧ r.raw_record.length = 10 ∧
        c'.buffer_ = sample_input ∧ c'.position_ = 26 + 10 ∧
        r.type = 4 ∧ r.is_binary_record = true :=
  ⟨by decide,
    (C11_binary_record_by_len { buffer_ := sample_input, position_ := 26 } 4
      (sample_input.length - 26) 10 (by decide) rfl (by rfl)).2.2.1
      (by decide) (by decide) (by decide)⟩

/-- C12 (the code at the failing input): the buffer `empty_idc_input` holds
one tagged record and no legacy binary type; `PARSE_RECORD` reads the Type-1 record, and
`std::stoi` of the empty IDC item throws `std::invalid_argument` out of `PARSE_CNT_PLAN`
and so out of `PARSE_FILE`: an error that does not come from legacy binary parsing. -/
theorem C12_cnt_item_throws :
    PARSE_RECORD { buffer_ := empty_idc_input } =
        .ok ({ empty_idc_type1 with type := -1 }, { buffer_ := empty_idc_input, position_ := 19 }) ∧
      PARSE_CNT_PLAN empty_idc_type1 = .error .InvalidArgument ∧
      PARSE_FILE empty_idc_input = .error .InvalidArgument :=
  ⟨by rfl, by rfl, by rfl⟩

/-- C13: when the record `PARSE_RECORD` reads at the start of a buffer has no field with
tag exactly `1.003` or `1.03`, `PARSE_CNT_PLAN` of the Type-1 record is the empty plan and
`PARSE_FILE` returns exactly that record (with type 1 and idc -1), whatever the buffer
holds after it. -/
theorem C13_missing_cnt (x : List UInt8) (type_one : Record) (c' : Cursor)
    (hrec : PARSE_RECORD { buffer_ := x } = .ok (type_one, c'))
    (hcnt : ∀ f ∈ type_one.fields, f.tag ≠ ascii "1.003" ∧ f.tag ≠ ascii "1.03") :
    PARSE_CNT_PLAN { type_one with type := 1, idc := -1 } = .ok [] ∧
      PARSE_FILE x = .ok { records := [{ type_one with type := 1, idc := -1 }] } := by
  have hplan : PARSE_CNT_PLAN { type_one with type := 1, idc := -1 } = .ok [] :=
    PARSE_CNT_PLAN_none hcnt
  refine ⟨hplan, ?_⟩
  simp only [PARSE_FILE, bind, Except.bind, hrec, hplan]
  rfl

/-- C13, witness: the first scenario of the test suite followed by eight more bytes. -/
theorem C13_missing_cnt_witness :
    PARSE_RECORD { buffer_ := no_cnt_input } =
        .ok (no_cnt_record, { buffer_ := no_cnt_input, position_ := 19 }) ∧
      (∀ f ∈ no_cnt_record.fields, f.tag ≠ ascii "1.003" ∧ f.tag ≠ ascii "1.03") ∧
      PARSE_CNT_PLAN { no_cnt_record with type := 1, idc := -1 } = .ok [] ∧
      PARSE_FILE no_cnt_input = .ok { records := [{ no_cnt_record with type := 1, idc := -1 }] } :=
  ⟨by rfl, by decide,
    C13_missing_cnt no_cnt_input no_cnt_record { buffer_ := no_cnt_input, position_ := 19 }
      (by rfl) (by decide)⟩

/-- C14 (amended): `PARSE_FILE` of the empty buffer returns a single Type-1 record
(type 1, idc -1, not binary) with exactly one field; that field has an empty tag, no
subfield, no raw bytes and is not binary. -/
theorem C14_empty_buffer : PARSE_FILE [] = .ok empty_buffer_file := by
  rfl

/-- C14, counterexample: the record list `PARSE_FILE` returns on the empty buffer is not
empty, and its single record has a field. -/
theorem C14_counterexample :
    ∃ F, PARSE_FILE [] = .ok F ∧ F.records ≠ [] ∧
      ¬ ∃ type_one, F.records = [type_one] ∧ type_one.fields = [] :=
  ⟨empty_buffer_file, by rfl, by decide, by
    rintro ⟨t, ht, hf⟩
    simp only [empty_buffer_file, List.cons.injEq, and_true] at ht
    subst ht
    simp at hf⟩

/-- C15: for every payload `p` with `23 + |p| ≤ 999999`, the buffer of the test helper,
`14.001:` then the total length in six digits, GS, `14.999:`, `p`, GS, FS, is parsed by
`PARSE_FILE` into exactly one record with two fields; the second field has the tag
`14.999`, is binary, has no subfield, and its `raw_field` is `p`, whatever bytes `p`
holds. -/
theorem C15_binary_999_exact_payload (p : List UInt8) (h : 23 + p.length ≤ 999999) :
    make_tagged_record_with_999 p =
        ascii "14.001:" ++ format_06u (23 + p.length) ++ [GS] ++ ascii "14.999:" ++ p ++
          [GS, FS] ∧
      ∃ r f0 f1, PARSE_FILE (make_tagged_record_with_999 p) = .ok { records := [r] } ∧
        r.fields = [f0, f1] ∧ f1.tag = ascii "14.999" ∧ f1.is_binary_field = true ∧
        f1.subfields = [] ∧ f1.raw_field = p := by
  constructor
  · rw [make_tagged_record_with_999_eq p h]
    simp only [show ascii "14.001:" = ascii "14.001" ++ [COLON] from rfl,
      show ascii "14.999:" = ascii "14.999" ++ [COLON] from rfl, List.append_assoc,
      List.cons_append, List.nil_append]
  · have hplan : PARSE_CNT_PLAN
        { type := 1, idc := -1,
          fields := [{ tag := ascii "14.001",
                       subfields := [{ items := [{ bytes := format_06u (23 + p.length) }] }] },
                     { tag := ascii "14.999", is_binary_field := true, raw_field := p }] } =
        .ok [] := by
      apply PARSE_CNT_PLAN_none
      intro f hf
      simp only [List.mem_cons, List.mem_singleton, List.not_mem_nil, or_false] at hf
      rcases hf with rfl | rfl
      · exact ⟨show ascii "14.001" ≠ ascii "1.003" by decide,
          show ascii "14.001" ≠ ascii "1.03" by decide⟩
      · exact ⟨show ascii "14.999" ≠ ascii "1.003" by decide,
          show ascii "14.999" ≠ ascii "1.03" by decide⟩
    refine ⟨⟨1, -1, false, [], [⟨false, [], ascii "14.001", [⟨[⟨format_06u (23 + p.length)⟩]⟩]⟩,
        ⟨true, p, ascii "14.999", []⟩]⟩, _, _, ?_, rfl, rfl, rfl, rfl, rfl⟩
    simp only [PARSE_FILE, bind, Except.bind, PARSE_RECORD_with_999 p h, hplan, PARSE_FILE_loop]
    rfl

/-- C15, witness: the payload `AA BB CC DD` of the test
`NIST_Parse_Binary999_Field_Bounded`. -/
theorem C15_binary_999_exact_payload_witness :
    23 + [(0xAA : UInt8), 0xBB, 0xCC, 0xDD].length ≤ 999999 ∧
      make_tagged_record_with_999 [0xAA, 0xBB, 0xCC, 0xDD] =
        ascii "14.001:" ++ format_06u (23 + [(0xAA : UInt8), 0xBB, 0xCC, 0xDD].length) ++ [GS] ++
          ascii "14.999:" ++ [0xAA, 0xBB, 0xCC, 0xDD] ++ [GS, FS] ∧
      ∃ r f0 f1, PARSE_FILE (make_tagged_record_with_999 [0xAA, 0xBB, 0xCC, 0xDD]) =
          .ok { records := [r] } ∧
        r.fields = [f0, f1] ∧ f1.tag = ascii "14.999" ∧ f1.is_binary_field = true ∧
        f1.subfields = [] ∧ f1.raw_field = [0xAA, 0xBB, 0xCC, 0xDD] :=
  ⟨by decide, C15_binary_999_exact_payload [0xAA, 0xBB, 0xCC, 0xDD] (by decide)⟩

/-- C16 (amended): for every buffer (of fewer than `2 ^ 64` bytes) on which `PARSE_FILE`
returns, with `s` the offset at which the parse of a record started: `s` lies within the
buffer; and for a tagged record whose first field yields the declared length `L > 0`, when
the span `[s, s + L)` lies within the buffer the parser takes it as the extent of the
record, the parse of the next record starts at `s + L` or later. The span need not lie
within the buffer: a declared length with `s + L` beyond the buffer is ignored. -/
theorem C16_declared_span (x : List UInt8) (F : File) (hsize : x.length < SIZE_MOD)
    (h : PARSE_FILE x = .ok F) :
    ∃ starts, PARSE_FILE_starts x = .ok (F, starts) ∧ starts.length = F.records.length ∧
      (∀ s ∈ starts, s ≤ x.length) ∧
      ∀ (i : Nat) (r : Record) (s : Nat) (f0 : Field), F.records[i]? = some r →
        starts[i]? = some s → r.is_binary_record = false → r.fields.head? = some f0 →
        0 < PARSE_LEN_FROM_FIRST_FIELD f0 → s + PARSE_LEN_FROM_FIRST_FIELD f0 ≤ x.length →
        ∀ s', starts[i + 1]? = some s' → s + PARSE_LEN_FROM_FIRST_FIELD f0 ≤ s' := by
  obtain ⟨starts, hst⟩ := PARSE_FILE_starts_file h
  refine ⟨starts, hst, ?_⟩
  simp only [PARSE_FILE_starts, bind, Except.bind, Cursor.position] at hst
  cases hb : PARSE_RECORD { buffer_ := x } with
  | error e => rw [hb] at hst; simp at hst
  | ok v =>
    obtain ⟨r, c1⟩ := v
    rw [hb] at hst
    simp only at hst
    cases hp : PARSE_CNT_PLAN { r with type := 1, idc := -1 } with
    | error e => rw [hp] at hst; simp at hst
    | ok plan =>
      rw [hp] at hst
      simp only at hst
      obtain ⟨hb1, _, hle1⟩ := (PARSE_RECORD_fuel { buffer_ := x }).2 r c1 hb
      simp only at hb1 hle1
      have hsy := SYNC_TO_LEN_IF_PRESENT_position c1 0 { r with type := 1, idc := -1 }
        (by rw [hb1]; exact hle1)
      have hsk := SKIP_SEPARATORS_position
        (SYNC_TO_LEN_IF_PRESENT c1 0 { r with type := 1, idc := -1 })
        (by rw [hsy.1]; exact hsy.2.1)
      have hbuf : (SKIP_SEPARATORS
          (SYNC_TO_LEN_IF_PRESENT c1 0 { r with type := 1, idc := -1 })).buffer_ = x := by
        rw [hsk.1, hsy.1, hb1]
      obtain ⟨news, newstarts, h1, h2, h3, h4, h5, h6⟩ :=
        PARSE_FILE_loop_starts_inv plan _ _ F _ starts hst
          (by have := hsk.2.2; rw [hsy.1, hb1] at this; rw [hbuf]; exact this)
          (by rw [hbuf]; exact hsize)
      rw [hbuf] at h4 h6
      simp only [List.singleton_append] at h1 h2
      rw [h1, h2]
      refine ⟨by simp [h3], ?_, ?_⟩
      · intro s hs
        simp only [List.mem_cons] at hs
        rcases hs with rfl | hs
        · exact Nat.zero_le _
        · exact h4 s hs
      · intro i r' s f0 hr hs hbin hf0 hL hle s' hs'
        cases i with
        | zero =>
          simp only [List.getElem?_cons_zero, Option.some.injEq] at hr hs
          subst hr hs
          simp only [Nat.zero_add, List.getElem?_cons_succ] at hs'
          have hhead : newstarts.head? = some s' := by
            rw [List.head?_eq_getElem?]; exact hs'
          rw [h5 s' hhead]
          have := hsy.2.2 f0 hf0 hL (by rw [hb1]; exact hle) (by rw [hb1]; exact hsize)
          have h2 := hsk.2.1
          omega
        | succ j =>
          simp only [List.getElem?_cons_succ] at hr hs hs'
          exact h6 j r' s f0 hr hs hbin hf0 hL hle s' hs'

/-- C16, witness: the three-record file `sample_input`, whose records start at the
offsets 0, 26 and 36. -/
theorem C16_declared_span_witness :
    sample_input.length < SIZE_MOD ∧ PARSE_FILE sample_input = .ok sample_parsed ∧
      ∃ starts, PARSE_FILE_starts sample_input = .ok (sample_parsed, starts) ∧
        starts.length = sample_parsed.records.length ∧ (∀ s ∈ starts, s ≤ sample_input.length) ∧
        ∀ (i : Nat) (r : Record) (s : Nat) (f0 : Field), sample_parsed.records[i]? = some r →
          starts[i]? = some s → r.is_binary_record = false → r.fields.head? = some f0 →
          0 < PARSE_LEN_FROM_FIRST_FIELD f0 →
          s + PARSE_LEN_FROM_FIRST_FIELD f0 ≤ sample_input.length →
          ∀ s', starts[i + 1]? = some s' → s + PARSE_LEN_FROM_FIRST_FIELD f0 ≤ s' :=
  ⟨by decide, by rfl, C16_declared_span sample_input sample_parsed (by decide) (by rfl)⟩

/-- C16, counterexample: the record of `declared_100_input` starts at offset 0, its first
field has the tag `1.001` and the decimal value 100, `PARSE_FILE` returns it, and the
buffer has 20 bytes. -/
theorem C16_counterexample :
    PARSE_FILE declared_100_input = .ok declared_100_file ∧
      PARSE_FILE_starts declared_100_input = .ok (declared_100_file, [0]) ∧
      declared_100_file.records.map (fun r => r.fields.head?.map
        (fun f0 => (r.is_binary_record, ends_with f0.tag (ascii ".001"),
          PARSE_LEN_FROM_FIRST_FIELD f0))) = [some (false, true, 100)] ∧
      declared_100_input.length = 20 ∧ ¬ (0 + 100 ≤ declared_100_input.length) :=
  ⟨by rfl, by rfl, by decide, by decide, by decide⟩

/-- C17 (amended): in a file returned by `PARSE_FILE`, every legacy binary record has at
least 5 bytes (at least 8) and its `idc` is the IDC of its entry in the plan of the Type-1
record; `PARSE_BINARY_RECORD_BY_LEN` itself returns a record whose `idc` is
`raw_record[4]`, and `PARSE_FILE` replaces that value by the one of the plan. -/
theorem C17_binary_idc_from_plan (x : List UInt8) (F : File) (h : PARSE_FILE x = .ok F) :
    (∃ type_one plan, F.records.head? = some type_one ∧ type_one.is_binary_record = false ∧
      PARSE_CNT_PLAN type_one = .ok plan ∧
      ∀ (i : Nat) (r : Record), F.records[i + 1]? = some r → r.is_binary_record = true →
        5 ≤ r.raw_record.length ∧ ∃ entry, plan[i]? = some entry ∧ r.idc = entry.2) ∧
      ∀ (c c' : Cursor) (t : Int) (r : Record), PARSE_BINARY_RECORD_BY_LEN c t = .ok (r, c') →
        ∃ b, r.raw_record[4]? = some b ∧ r.idc = (b.toNat : Int) := by
  constructor
  · obtain ⟨t1, rs, plan, tail, hF, _, _, hinv1, hplan, hpl, hrs⟩ := PARSE_FILE_inv h
    refine ⟨t1, plan, by rw [hF]; rfl, hinv1.1, hplan, ?_⟩
    intro i r hr hbin
    rw [hF] at hr
    simp only [List.getElem?_cons_succ] at hr
    have hi : i < rs.length := by
      by_contra hc
      rw [List.getElem?_eq_none (by omega)] at hr
      simp at hr
    have hmem : r ∈ rs := List.getElem?_mem hr
    have h8 := ((hrs r hmem).2.1 hbin).2.2.1
    refine ⟨by omega, (r.type, r.idc), ?_, rfl⟩
    rw [hpl, List.getElem?_append_left (by simpa using hi), List.getElem?_map, hr]
    rfl
  · intro c c' t r hr
    obtain ⟨_, _, _, _, _, h8, _, _, _, hidc⟩ := PARSE_BINARY_RECORD_BY_LEN_inv hr
    have h4 : 4 < r.raw_record.length := by omega
    refine ⟨r.raw_record[4], List.getElem?_eq_getElem h4, ?_⟩
    rw [hidc, List.getElem?_eq_getElem h4]

/-- C17, witness: the three-record file `sample_input`. -/
theorem C17_binary_idc_from_plan_witness :
    PARSE_FILE sample_input = .ok sample_parsed ∧
      (∃ type_one plan, sample_parsed.records.head? = some type_one ∧
        type_one.is_binary_record = false ∧ PARSE_CNT_PLAN type_one = .ok plan ∧
        ∀ (i : Nat) (r : Record), sample_parsed.records[i + 1]? = some r →
          r.is_binary_record = true →
          5 ≤ r.raw_record.length ∧ ∃ entry, plan[i]? = some entry ∧ r.idc = entry.2) ∧
      ∀ (c c' : Cursor) (t : Int) (r : Record), PARSE_BINARY_RECORD_BY_LEN c t = .ok (r, c') →
        ∃ b, r.raw_record[4]? = some b ∧ r.idc = (b.toNat : Int) :=
  ⟨by rfl, C17_binary_idc_from_plan sample_input sample_parsed (by rfl)⟩

/-- C17, counterexample: the plan of `idc_mismatch_input` gives IDC 7 to a legacy binary
record whose byte 4 is 1; `PARSE_FILE` returns the record with `idc = 7`. -/
theorem C17_counterexample :
    PARSE_FILE idc_mismatch_input = .ok idc_mismatch_file ∧
      ∃ r ∈ idc_mismatch_file.records, r.is_binary_record = true ∧
        r.raw_record[4]? = some 1 ∧ r.idc = 7 ∧ r.idc ≠ ((1 : UInt8).toNat : Int) :=
  ⟨by rfl, _, List.mem_cons_of_mem _ (List.mem_cons_self _ _), by decide, by decide, by decide,
    by decide⟩

/-- C18: for every Type-1 record whose CNT items are decimal integers (of the type `int`),
`PARSE_CNT_PLAN` returns the plan of the reference definition `PARSE_CNT_PLAN_reference`:
the first field with tag exactly `1.003` or `1.03`, its first subfield ignored, and of
each later subfield with at least two items the pair of the values of item 0 and item 1,
in order. -/
theorem C18_cnt_plan_reference (type1 : Record) (h : cnt_items_decimal type1 = true) :
    PARSE_CNT_PLAN type1 = .ok (PARSE_CNT_PLAN_reference type1) := by
  have hpred : (fun field : Field => field.tag == ascii "1.003" || field.tag == ascii "1.03") =
      (fun field : Field => decide (field.tag = ascii "1.003" ∨ field.tag = ascii "1.03")) := by
    funext field
    rw [Bool.eq_iff_iff]
    simp
  simp only [PARSE_CNT_PLAN, PARSE_CNT_PLAN_reference, cnt_items_decimal, hpred] at h ⊢
  cases hfind : type1.fields.find?
      (fun field : Field => decide (field.tag = ascii "1.003" ∨ field.tag = ascii "1.03")) with
  | none => rfl
  | some cnt =>
    rw [hfind] at h
    simp only at h ⊢
    rw [List.drop_one, PARSE_CNT_PLAN_loop_reference _ [] h]
    simp

/-- C18, witness: the record `cnt_reference_type1`, whose plan is `(4, 1), (14, 2),
(-1, 0)`. -/
theorem C18_cnt_plan_reference_witness :
    cnt_items_decimal cnt_reference_type1 = true ∧
      PARSE_CNT_PLAN_reference cnt_reference_type1 = [(4, 1), (14, 2), (-1, 0)] ∧
      PARSE_CNT_PLAN cnt_reference_type1 = .ok (PARSE_CNT_PLAN_reference cnt_reference_type1) :=
  ⟨by decide, by decide, C18_cnt_plan_reference cnt_reference_type1 (by decide)⟩

/-- C19 (amended): for every file with at least one record, whose record types and IDCs
are `int` values, in which the first field of `records[0]` with a tag ending in `.003` or
`.03` has the tag exactly `1.003` or `1.03`: after `UPDATE_CNT_FIELD` that field keeps its
tag, its first subfield is the single item holding the decimal of `records.size()`, and
`PARSE_CNT_PLAN` of `records[0]` is the list of `(type, max(idc, 0))` of the records 1 ..
in order. -/
theorem C19_cnt_write_read (file : File) (type1 : Record) (others : List Record) (cnt : Field)
    (hrec : file.records = type1 :: others)
    (hcnt : type1.fields.find? is_cnt_suffix = some cnt)
    (htag : cnt.tag = ascii "1.003" ∨ cnt.tag = ascii "1.03")
    (hint : ∀ r ∈ others, -(2 ^ 31 : Int) ≤ r.type ∧ r.type < (2 ^ 31 : Int) ∧
      r.idc < (2 ^ 31 : Int)) :
    ∃ type1' cnt', (UPDATE_CNT_FIELD file).records = type1' :: others ∧
      type1'.fields.find? is_cnt_suffix = some cnt' ∧ cnt'.tag = cnt.tag ∧
      cnt'.subfields.head? = some { items := [{ bytes := to_string file.records.length }] } ∧
      PARSE_CNT_PLAN type1' = .ok (others.map (fun r => (r.type, max r.idc 0))) := by
  have hsuf : is_cnt_suffix cnt = true := by
    have := List.find?_some hcnt
    exact this
  have hexact : (cnt.tag == ascii "1.003" || cnt.tag == ascii "1.03") = true := by
    simp only [Bool.or_eq_true, beq_iff_eq]
    exact htag
  refine ⟨{ type1 with fields := update_first is_cnt_suffix (cnt_rebuild others) type1.fields },
    cnt_rebuild others cnt, ?_, ?_, rfl, ?_, ?_⟩
  · simp only [UPDATE_CNT_FIELD, hrec]
    rfl
  · exact find_update_first (fun g hg => hg) hsuf _ hcnt
  · simp only [cnt_rebuild, UPDATE_CNT_FIELD_loop_eq, hrec]
    rfl
  · have hfind := find_update_first
      (q := fun field => field.tag == ascii "1.003" || field.tag == ascii "1.03")
      (f := cnt_rebuild others) exact_cnt_is_suffix hexact _ hcnt
    simp only [PARSE_CNT_PLAN, hfind]
    simp only [cnt_rebuild, UPDATE_CNT_FIELD_loop_eq, List.singleton_append,
      List.drop_succ_cons, List.drop_zero]
    rw [PARSE_CNT_PLAN_loop_entries others [] hint]
    simp

/-- C19, witness: the file of `cnt_type1` (fields `1.001` and `1.003`) and one appended
record of type 2. -/
theorem C19_cnt_write_read_witness :
    cnt_type1.fields.find? is_cnt_suffix = some (field1 "1.003" "1") ∧
      (∀ r ∈ [appended_record "19"], -(2 ^ 31 : Int) ≤ r.type ∧ r.type < (2 ^ 31 : Int) ∧
        r.idc < (2 ^ 31 : Int)) ∧
      ∃ type1' cnt',
        (UPDATE_CNT_FIELD cnt_appended_file).records = type1' :: [appended_record "19"] ∧
        type1'.fields.find? is_cnt_suffix = some cnt' ∧ cnt'.tag = (field1 "1.003" "1").tag ∧
        cnt'.subfields.head? =
          some { items := [{ bytes := to_string cnt_appended_file.records.length }] } ∧
        PARSE_CNT_PLAN type1' =
          .ok ([appended_record "19"].map (fun r => (r.type, max r.idc 0))) :=
  ⟨by decide, by decide,
    C19_cnt_write_read cnt_appended_file cnt_type1
      [appended_record "19"] (field1 "1.003" "1") rfl (by decide) (Or.inl (by decide))
      (by decide)⟩

/-- C19, counterexample: `records[0]` of `cnt_suffix_file` has a field with the tag
`2.003`; `UPDATE_CNT_FIELD` rewrites that field with the count 2 and the entry `2, 0`, and
`PARSE_CNT_PLAN` of the rewritten record is the empty plan, not `(2, 0)`. -/
theorem C19_counterexample :
    (∃ f ∈ (cnt_suffix_file.records.map (fun r => r.fields)).headD [],
        ends_with f.tag (ascii ".003") = true) ∧
      UPDATE_CNT_FIELD cnt_suffix_file = cnt_suffix_updated ∧
      cnt_suffix_updated.records.head?.map PARSE_CNT_PLAN = some (.ok []) ∧
      (cnt_suffix_file.records.drop 1).map (fun r => (r.type, max r.idc 0)) = [(2, 0)] :=
  ⟨by decide, by decide, by rfl, by decide⟩

/-- C20 (amended): `PARSE_LEN_FROM_FIRST_FIELD` returns 0 when the field has no
subfield, when its first subfield has no item, when its tag ends in neither `.001` nor
`.01`, and when the first item is empty or begins with a byte that is not a decimal
digit, white space or a sign; under a `.001` / `.01` tag, for a first item that begins
with a non-empty run `ds` of decimal digits followed by no digit (whatever bytes follow
the run), it returns the decimal value of `ds` when that is below `2 ^ 64` and 0
otherwise. -/
theorem C20_len_from_first_field (f : Field) :
    (f.subfields = [] → PARSE_LEN_FROM_FIRST_FIELD f = 0) ∧
      (∀ sf rest, f.subfields = sf :: rest → sf.items = [] →
        PARSE_LEN_FROM_FIRST_FIELD f = 0) ∧
      (ends_with f.tag (ascii ".001") = false → ends_with f.tag (ascii ".01") = false →
        PARSE_LEN_FROM_FIRST_FIELD f = 0) ∧
      (∀ sf rest item more, f.subfields = sf :: rest → sf.items = item :: more →
        (∀ b, item.bytes.head? = some b →
          isdigit b = false ∧ isspace b = false ∧ b.toNat ≠ 43 ∧ b.toNat ≠ 45) →
        PARSE_LEN_FROM_FIRST_FIELD f = 0) ∧
      (∀ sf rest item more ds junk, f.subfields = sf :: rest → sf.items = item :: more →
        (ends_with f.tag (ascii ".001") = true ∨ ends_with f.tag (ascii ".01") = true) →
        item.bytes = ds ++ junk → ds ≠ [] → (∀ d ∈ ds, isdigit d = true) →
        (∀ b, junk.head? = some b → isdigit b = false) →
        PARSE_LEN_FROM_FIRST_FIELD f = if digits_value ds < SIZE_MOD then digits_value ds else 0) := by
  refine ⟨?_, ?_, ?_, ?_, ?_⟩
  · intro h
    simp [PARSE_LEN_FROM_FIRST_FIELD, h]
  · intro sf rest h hi
    simp [PARSE_LEN_FROM_FIRST_FIELD, h, hi]
  · intro h1 h2
    simp only [PARSE_LEN_FROM_FIRST_FIELD]
    split
    · rfl
    · split
      · rfl
      · simp [h1, h2]
  · intro sf rest item more hsf hit hb
    have herr : stoul item.bytes = .error .InvalidArgument := by
      simp only [stoul, strto_subject_none hb]
    exact PARSE_LEN_FROM_FIRST_FIELD_error hsf hit herr
  · intro sf rest item more ds junk hsf hit htag hbytes hne hds hjunk
    by_cases hlt : digits_value ds < SIZE_MOD
    · rw [if_pos hlt]
      refine PARSE_LEN_FROM_FIRST_FIELD_ok hsf hit htag ?_
      simp only [hbytes, stoul, strto_subject_digits hne hds hjunk]
      rw [if_neg (by omega)]
      simp
    · rw [if_neg hlt]
      have herr : stoul item.bytes = .error .OutOfRange := by
        simp only [hbytes, stoul, strto_subject_digits hne hds hjunk]
        rw [if_pos (by omega)]
      exact PARSE_LEN_FROM_FIRST_FIELD_error hsf hit herr

/-- C20, witness: the length fields `1.001:26` and `1.001:12abc`; both evaluate to the
value of the leading digits. -/
theorem C20_len_from_first_field_witness :
    PARSE_LEN_FROM_FIRST_FIELD (field1 "1.001" "26") = 26 ∧
      PARSE_LEN_FROM_FIRST_FIELD (field1 "1.001" "12abc") = 12 :=
  ⟨(C20_len_from_first_field (field1 "1.001" "26")).2.2.2.2 _ _ _ _ (ascii "26") [] rfl rfl
      (by decide) (by decide) (by decide) (by decide) (by simp),
    (C20_len_from_first_field (field1 "1.001" "12abc")).2.2.2.2 _ _ _ _ (ascii "12") (ascii "abc")
      rfl rfl (by decide) (by decide) (by decide) (by decide) (by decide)⟩

/-- C20, counterexample: the first item `12abc` contains bytes that are not decimal
digits, and `PARSE_LEN_FROM_FIRST_FIELD` returns 12, not 0. -/
theorem C20_counterexample :
    (∃ b ∈ ascii "12abc", isdigit b = false) ∧
      PARSE_LEN_FROM_FIRST_FIELD (field1 "1.001" "12abc") = 12 ∧
      PARSE_LEN_FROM_FIRST_FIELD (field1 "1.001" "12abc") ≠ 0 :=
  ⟨by decide, by decide, by decide⟩

/-- C21: for every file in which each legacy binary record has a `raw_record` of `n`
bytes with `4 ≤ n < 2 ^ 32`, `UPDATE_ALL_LENGTHS` returns, and so does `SERIALIZE_FILE`
with the same file; each such record is still binary and still has `n` bytes,
`READ_BE_U32` of its first four bytes is `n`, and every byte at an index from 4 on is
unchanged. -/
theorem C21_binary_length_patch (file : File)
    (h : ∀ r ∈ file.records, r.is_binary_record = true →
      4 ≤ r.raw_record.length ∧ r.raw_record.length < 2 ^ 32) :
    ∃ file' bytes, UPDATE_ALL_LENGTHS file = .ok file' ∧
      SERIALIZE_FILE file = .ok (file', bytes) ∧
      List.Forall₂ (fun r r' => r.is_binary_record = true →
        r'.is_binary_record = true ∧ r'.raw_record.length = r.raw_record.length ∧
        READ_BE_U32 (r'.raw_record.take 4) = r.raw_record.length ∧
        ∀ i, 4 ≤ i → r'.raw_record[i]? = r.raw_record[i]?) file.records file'.records := by
  obtain ⟨rs', h1, h2⟩ := UPDATE_ALL_LENGTHS_loop_patch file.records h
  have hupd : UPDATE_ALL_LENGTHS file = .ok { records := rs' } := by
    simp [UPDATE_ALL_LENGTHS, h1, bind, Except.bind, pure, Except.pure]
  refine ⟨{ records := rs' }, SERIALIZE_FILE_loop [] rs', hupd, ?_, h2⟩
  simp only [SERIALIZE_FILE, hupd, bind, Except.bind, pure, Except.pure]

/-- C21, witness: a tagged record followed by a legacy binary record of 10 bytes whose
length prefix says 7. -/
theorem C21_binary_length_patch_witness :
    (∀ r ∈ [cnt_type1, wrong_prefix_record], r.is_binary_record = true →
        4 ≤ r.raw_record.length ∧ r.raw_record.length < 2 ^ 32) ∧
      ∃ file' bytes,
        UPDATE_ALL_LENGTHS { records := [cnt_type1, wrong_prefix_record] } = .ok file' ∧
        SERIALIZE_FILE { records := [cnt_type1, wrong_prefix_record] } = .ok (file', bytes) ∧
        List.Forall₂ (fun r r' => r.is_binary_record = true →
          r'.is_binary_record = true ∧ r'.raw_record.length = r.raw_record.length ∧
          READ_BE_U32 (r'.raw_record.take 4) = r.raw_record.length ∧
          ∀ i, 4 ≤ i → r'.raw_record[i]? = r.raw_record[i]?)
          [cnt_type1, wrong_prefix_record] file'.records :=
  ⟨by decide, C21_binary_length_patch { records := [cnt_type1, wrong_prefix_record] } (by decide)⟩

/-- C22: for every tagged record `R` with at least one field, in which every field is
textual, every tag holds no `:` and no US, RS, GS, FS and does not end in `.999`, every
subfield has an item, every item holds no US, RS, GS, FS, and no last subfield of a field
is a single empty item: `PARSE_RECORD` from position 0 on the bytes of
`SERIALIZE_RECORD R` returns a record with the fields of `R` (same tags, same subfields,
same items, in order) and leaves the cursor on the closing FS, the last byte. -/
theorem C22_record_roundtrip (R : Record) (hbin : R.is_binary_record = false)
    (hne : R.fields ≠ [])
    (hfields : ∀ f ∈ R.fields, f.is_binary_field = false ∧
      (∀ b ∈ f.tag, b ≠ COLON ∧ b ≠ US ∧ b ≠ RS ∧ b ≠ GS ∧ b ≠ FS) ∧
      ends_with f.tag (ascii ".999") = false ∧
      (∀ sf ∈ f.subfields, sf.items ≠ [] ∧
        ∀ it ∈ sf.items, ∀ b ∈ it.bytes, b ≠ US ∧ b ≠ RS ∧ b ≠ GS ∧ b ≠ FS) ∧
      f.subfields.getLast? ≠ some { items := [{ bytes := [] }] }) :
    ∃ r c', PARSE_RECORD { buffer_ := SERIALIZE_RECORD [] R } = .ok (r, c') ∧
      r.fields = R.fields.map text_only ∧
      r.fields.map (fun f => (f.tag, f.subfields)) =
        R.fields.map (fun f => (f.tag, f.subfields)) ∧
      c'.buffer_ = SERIALIZE_RECORD [] R ∧
      c'.position_ + 1 = (SERIALIZE_RECORD [] R).length ∧
      (SERIALIZE_RECORD [] R)[c'.position_]? = some FS := by
  have hbytes : SERIALIZE_RECORD [] R = fields_bytes (R.fields.map text_only) ++ FS :: [] := by
    have := record_bytes_tagged hbin
    rw [record_bytes] at this
    rw [this, fields_bytes_text_only R.fields (fun f hf => (hfields f hf).1)]
  have hok : ∀ f ∈ R.fields.map text_only, text_field_ok f ∧ f.tag.head? ≠ some FS := by
    intro f hf
    obtain ⟨g, hg, rfl⟩ := List.mem_map.mp hf
    obtain ⟨_, htag, h999, hsubs, hlast⟩ := hfields g hg
    refine ⟨⟨rfl, rfl, fun b hb => (htag b hb).1, h999, ?_, hlast⟩, ?_⟩
    · intro sf hsf
      refine ⟨(hsubs sf hsf).1, ?_⟩
      intro it hit b hb
      obtain ⟨b1, b2, b3, b4⟩ := (hsubs sf hsf).2 it hit b hb
      simp [is_delim, b1, b2, b3, b4]
    · intro hc
      cases htg : g.tag with
      | nil => simp [text_only, htg] at hc
      | cons b t =>
        simp only [text_only, htg, List.head?_cons, Option.some.injEq] at hc
        exact (htag b (by rw [htg]; exact List.mem_cons_self _ _)).2.2.2.2 hc
  cases hmap : R.fields.map text_only with
  | nil =>
    rw [List.map_eq_nil_iff] at hmap
    exact absurd hmap hne
  | cons f0 others =>
    rw [hmap] at hok hbytes
    have hsees : ({ buffer_ := SERIALIZE_RECORD [] R } : Cursor).Sees
        (fields_bytes (f0 :: others) ++ FS :: []) := ⟨Nat.zero_le _, by simp [hbytes]⟩
    obtain ⟨c', h1, hb1, hs1⟩ := PARSE_RECORD_text_sees hok hsees
    have hlen := hs1.length
    simp only [hb1, List.length_cons, List.length_nil] at hlen
    refine ⟨_, c', h1, rfl, ?_, hb1, by omega, ?_⟩
    · rw [← hmap, List.map_map]
      rfl
    · have hdrop := hs1.2
      rw [hb1] at hdrop
      rw [← List.head?_drop, hdrop]
      rfl

/-- C22, witness: the record `subfields_record`. -/
theorem C22_record_roundtrip_witness :
    subfields_record.is_binary_record = false ∧ subfields_record.fields ≠ [] ∧
      ∃ r c', PARSE_RECORD { buffer_ := SERIALIZE_RECORD [] subfields_record } = .ok (r, c') ∧
        r.fields = subfields_record.fields.map text_only ∧
        r.fields.map (fun f => (f.tag, f.subfields)) =
          subfields_record.fields.map (fun f => (f.tag, f.subfields)) ∧
        c'.buffer_ = SERIALIZE_RECORD [] subfields_record ∧
        c'.position_ + 1 = (SERIALIZE_RECORD [] subfields_record).length ∧
        (SERIALIZE_RECORD [] subfields_record)[c'.position_]? = some FS :=
  ⟨by decide, by decide,
    C22_record_roundtrip subfields_record (by decide) (by decide) (by decide)⟩

/-- C23 (amended): for every buffer, cursor position `s` and known `record_end` with
`s ≤ record_end ≤ size`, `PARSE_BINARY_FIELD` returns and leaves the cursor at the end of
the payload: `record_end`, less one when the byte before it is FS, less one more when the
byte then before is GS (never before `s`); the payload is the bytes from `s` to that
position. The cursor is at `record_end` exactly when no closing FS or GS is left out, as
when `s = record_end` or the byte before `record_end` is neither FS nor GS. -/
theorem C23_cursor_after_binary_field (c : Cursor) (record_end : Nat)
    (h1 : c.position_ ≤ record_end) (h2 : record_end ≤ c.buffer_.length)
    (h3 : record_end ≠ INVALID_INDEX) :
    ∃ f c', PARSE_BINARY_FIELD c record_end = .ok (f, c') ∧ c'.buffer_ = c.buffer_ ∧
      c'.position_ = payload_end c.buffer_ c.position_ record_end ∧
      f.raw_field = (c.buffer_.drop c.position_).take (c'.position_ - c.position_) ∧
      c.position_ ≤ c'.position_ ∧ c'.position_ ≤ record_end ∧
      record_end ≤ c'.position_ + 2 ∧
      ((c.position_ = record_end ∨
          (c.buffer_[record_end - 1]? ≠ some FS ∧ c.buffer_[record_end - 1]? ≠ some GS)) →
        c'.position_ = record_end) := by
  have b1 := strip_end_le c.buffer_ c.position_ record_end FS
  have b2 := strip_end_le c.buffer_ c.position_ (strip_end c.buffer_ c.position_ record_end FS) GS
  refine ⟨_, _, PARSE_BINARY_FIELD_known c record_end h1 h2 h3, rfl, rfl, rfl, ?_, ?_, ?_, ?_⟩
  · have := b1.2.2 h1
    have := b2.2.2 this
    exact this
  · simp only [payload_end]; omega
  · simp only [payload_end]; omega
  · intro h
    simp only [payload_end]
    rcases h with h | ⟨hfs, hgs⟩
    · have e1 : strip_end c.buffer_ c.position_ record_end FS = record_end := by
        rw [strip_end, if_neg (by omega)]
      rw [e1, strip_end, if_neg (by omega)]
    · have e1 : strip_end c.buffer_ c.position_ record_end FS = record_end := by
        rw [strip_end, if_neg (fun hc => hfs hc.2)]
      rw [e1, strip_end, if_neg (fun hc => hgs hc.2)]

/-- C23, witness: a payload of three bytes with no closing separator. -/
theorem C23_cursor_after_binary_field_witness :
    ∃ f c', PARSE_BINARY_FIELD { buffer_ := [65, 66, 67, 68], position_ := 0 } 3 = .ok (f, c') ∧
      c'.buffer_ = [65, 66, 67, 68] ∧
      c'.position_ = payload_end [65, 66, 67, 68] 0 3 ∧
      f.raw_field = (([65, 66, 67, 68] : List UInt8).drop 0).take (c'.position_ - 0) ∧
      0 ≤ c'.position_ ∧ c'.position_ ≤ 3 ∧ 3 ≤ c'.position_ + 2 ∧
      (((0 : Nat) = 3 ∨
          (([65, 66, 67, 68] : List UInt8)[3 - 1]? ≠ some FS ∧
            ([65, 66, 67, 68] : List UInt8)[3 - 1]? ≠ some GS)) →
        c'.position_ = 3) :=
  C23_cursor_after_binary_field { buffer_ := [65, 66, 67, 68], position_ := 0 } 3
    (by decide) (by decide) (by decide)

/-- C23, counterexample: in the buffer `A B GS FS` with the cursor at 0 and the record
end at 4, `PARSE_BINARY_FIELD` returns the payload `A B` and leaves the cursor at 2. -/
theorem C23_counterexample :
    (0 : Nat) ≤ 4 ∧ 4 ≤ ([65, 66, GS, FS] : List UInt8).length ∧ 4 ≠ INVALID_INDEX ∧
      PARSE_BINARY_FIELD { buffer_ := [65, 66, GS, FS], position_ := 0 } 4 =
        .ok ({ is_binary_field := true, raw_field := [65, 66] },
          { buffer_ := [65, 66, GS, FS], position_ := 2 }) ∧
      (2 : Nat) ≠ 4 :=
  ⟨by decide, by decide, by decide, by rfl, by decide⟩

/-- C24 (the code at the failing input): the second record of `no_len_input` has one
field, tagged `2.002`, and no field with a tag ending in `.001` or `.01`;
`UPDATE_ALL_LENGTHS` and `SERIALIZE_FILE` replace the value `DOE` of that field by the
length `9`. -/
theorem C24_first_field_overwritten :
    PARSE_FILE no_len_input = .ok (no_len_file "DOE") ∧
      (no_len_file "DOE").records.map (fun r => r.fields.map (fun f =>
        ends_with f.tag (ascii ".001") || ends_with f.tag (ascii ".01"))) =
        [[true, false], [false]] ∧
      UPDATE_ALL_LENGTHS (no_len_file "DOE") = .ok (no_len_file "9") ∧
      SERIALIZE_FILE (no_len_file "DOE") =
        .ok (no_len_file "9", ascii "1.001:21\x1d1.003:2\x1e2\x1f0\x1c2.002:9\x1c") ∧
      no_len_file "9" ≠ no_len_file "DOE" :=
  ⟨by rfl, by decide, by rfl, by rfl, by decide⟩

/-- C25 (the code at the failing input): `PATCH_RECORD_LENGTHS` stores 23, the size of
the record with the six-digit placeholder in its length field, and the patched record is
serialized in 19 bytes. -/
theorem C25_patch_stores_placeholder_size :
    PATCH_RECORD_LENGTHS (appended_record "0") = appended_record "23" ∧
      (appended_record "23").fields.head?.map PARSE_LEN_FROM_FIRST_FIELD = some 23 ∧
      (SERIALIZE_RECORD [] (appended_record "000000")).length = 23 ∧
      (SERIALIZE_RECORD [] (appended_record "23")).length = 19 :=
  ⟨by decide, by decide, by decide, by decide⟩

/-- C26: in a file returned by `PARSE_FILE`, every item of every subfield of every
textual field of every tagged record holds none of the bytes US, RS, GS, FS; every
subfield has at least one item; every field is binary exactly when its tag ends in `.999`,
and a binary field has no subfield. -/
theorem C26_items_clean (x : List UInt8) (F : File) (h : PARSE_FILE x = .ok F) :
    ∀ r ∈ F.records, ∀ f ∈ r.fields,
      f.is_binary_field = ends_with f.tag (ascii ".999") ∧
        (f.is_binary_field = true → f.subfields = []) ∧
        (∀ sf ∈ f.subfields, sf.items ≠ []) ∧
        (r.is_binary_record = false → f.is_binary_field = false →
          ∀ sf ∈ f.subfields, ∀ it ∈ sf.items, ∀ b ∈ it.bytes,
            b ≠ US ∧ b ≠ RS ∧ b ≠ GS ∧ b ≠ FS) := by
  have hfield : ∀ f : Field, parsed_field_inv f →
      f.is_binary_field = ends_with f.tag (ascii ".999") ∧
        (f.is_binary_field = true → f.subfields = []) ∧
        (∀ sf ∈ f.subfields, sf.items ≠ []) ∧
        (f.is_binary_field = false →
          ∀ sf ∈ f.subfields, ∀ it ∈ sf.items, ∀ b ∈ it.bytes,
            b ≠ US ∧ b ≠ RS ∧ b ≠ GS ∧ b ≠ FS) := by
    intro f hf
    obtain ⟨_, h1, h2, h3⟩ := hf
    refine ⟨h1, h2, ?_, ?_⟩
    · intro sf hsf
      cases hb : f.is_binary_field with
      | true => rw [h2 hb] at hsf; simp at hsf
      | false => exact ((h3 hb).2 sf hsf).1
    · intro hb sf hsf it hit b hb'
      have := ((h3 hb).2 sf hsf).2 it hit b hb'
      simp only [is_delim, Bool.or_eq_false_iff, beq_eq_false_iff_ne] at this
      exact ⟨this.1.1.1, this.1.1.2, this.1.2, this.2⟩
  have htagged : ∀ r : Record, parsed_tagged_inv r → ∀ f ∈ r.fields, parsed_field_inv f := by
    intro r hr f hf
    obtain ⟨_, _, f0, others, hfs, h0, hothers⟩ := hr
    rw [hfs] at hf
    simp only [List.mem_cons] at hf
    rcases hf with rfl | hf
    · exact h0
    · exact (hothers f hf).1
  obtain ⟨t1, rs, plan, tail, hF, _, _, hinv1, _, _, hrs⟩ := PARSE_FILE_inv h
  intro r hr f hf
  have hpf : parsed_field_inv f := by
    rw [hF] at hr
    simp only [List.mem_cons] at hr
    rcases hr with rfl | hr
    · exact htagged _ hinv1 f hf
    · obtain ⟨_, hb, ht⟩ := hrs r hr
      cases hbin : r.is_binary_record with
      | true => rw [(hb hbin).1] at hf; simp at hf
      | false => exact htagged r (ht hbin).1 f hf
  obtain ⟨a1, a2, a3, a4⟩ := hfield f hpf
  exact ⟨a1, a2, a3, fun _ => a4⟩

/-- C26, witness: the three-record file `sample_input`. -/
theorem C26_items_clean_witness :
    PARSE_FILE sample_input = .ok sample_parsed ∧
      ∀ r ∈ sample_parsed.records, ∀ f ∈ r.fields,
        f.is_binary_field = ends_with f.tag (ascii ".999") ∧
          (f.is_binary_field = true → f.subfields = []) ∧
          (∀ sf ∈ f.subfields, sf.items ≠ []) ∧
          (r.is_binary_record = false → f.is_binary_field = false →
            ∀ sf ∈ f.subfields, ∀ it ∈ sf.items, ∀ b ∈ it.bytes,
              b ≠ US ∧ b ≠ RS ∧ b ≠ GS ∧ b ≠ FS) :=
  ⟨by rfl, C26_items_clean sample_input sample_parsed (by rfl)⟩

/-- C27 (the code at the failing input): on `backward_end_input` the declared length 3
makes `record_end = 3`; the first field leaves the cursor at 7, the tag of the `.999`
field ends at 13 and its payload starts at 14; `PARSE_BINARY_FIELD` seeks back to 3 and
takes the slice from 14 to 3, which is outside the span, and `PARSE_RECORD` does not
return a record. -/
theorem C27_backward_seek :
    PARSE_FIELD { buffer_ := backward_end_input } INVALID_INDEX =
        .ok (field1 "1.001" "3", { buffer_ := backward_end_input, position_ := 7 }) ∧
      PARSE_LEN_FROM_FIRST_FIELD (field1 "1.001" "3") = 3 ∧
      TAKE_UNTIL { buffer_ := backward_end_input, position_ := 8 } COLON =
        .ok (ascii "1.999", { buffer_ := backward_end_input, position_ := 13 }) ∧
      (({ buffer_ := backward_end_input, position_ := 14 } : Cursor).seek 3).position_ = 3 ∧
      PARSE_BINARY_FIELD { buffer_ := backward_end_input, position_ := 14 } 3 =
        .error .OutOfBounds ∧
      PARSE_RECORD { buffer_ := backward_end_input } = .error .OutOfBounds :=
  ⟨by rfl, by decide, by rfl, by rfl, by rfl, by rfl⟩

/-- C28 (the code at the failing input): while `PARSE_FILE` runs on
`backward_end_input`, `PARSE_BINARY_FIELD` calls `slice(14, 3)`, whose start is beyond its
end; the call is outside the span and `PARSE_FILE` does not return a file. -/
theorem C28_slice_out_of_bounds :
    ¬ ((14 : Nat) ≤ 3 ∧ 3 ≤ backward_end_input.length) ∧
      (({ buffer_ := backward_end_input, position_ := 14 } : Cursor).seek 3).slice 14 3 =
        .error .OutOfBounds ∧
      PARSE_FILE backward_end_input = .error .OutOfBounds :=
  ⟨by decide, by rfl, by rfl⟩

end nnist
